import Mathlib

/-!
# Physical memory manager (`pmm.c`, `pmm.h`): shallow embedding

The C code lays its bookkeeping out by raw pointer arithmetic right after the
kernel image.  The embedding keeps the shape of that layout but not the bytes:

* a zone owns a *region*, the sequence of pools placed after the zone header
  (`currentPool = zone + zone->zonePhysicalSize`), in placement order;
* a pool owns the sequence of buddies placed after the pool header, and a buddy
  owns the words of its bitmap (placed right after the buddy header);
* a pool pointer is the region it lives in together with its position there,
  a buddy pointer is a position in the owning pool's buddy sequence, `NULL` is
  `none`;
* the two regions are kept as two separate sequences.  In the code both are
  addressed from `zone_DMA`: `zone_normal` is put at
  `zone_DMA + zone_DMA->zonePhysicalSize` when the first Normal pool is made
  (line 184) and every DMA pool at `zone_DMA + zone_DMA->zonePhysicalSize`
  (line 232), so a DMA pool made after that is written over the Normal zone.
  The two sequences are the code's memory on the runs that lay the structures
  out without overlap (`laysOutApart`, computed by `layout_iter`); statements
  about the content of the pools over all memory maps carry it as a
  hypothesis.

All machine integers are `Nat` with explicit reduction modulo `2 ^ 32`
(`uint32_t` on the 32-bit target the code is written for; the structures are
`packed`, so `sizeof` is 13 / 24 / 25 for zone / pool / buddy).
Loops take an iteration budget (`fuel`); `Outcome.outOfFuel` is reported when
the budget is used up, `Outcome.fault` when the code dereferences `NULL` or
touches a word outside a bitmap, and `Outcome.aborted` for `abort()`.
-/

namespace PMM

/-! ## Outcomes -/

/-- Result of running a piece of the C code. -/
inductive Outcome (α : Type) where
  | ok (a : α)
  | fault
  | outOfFuel
  | aborted
  deriving DecidableEq, Repr

/-- Sequencing of outcomes: the first failure wins. -/
def Outcome.bind {α β : Type} (x : Outcome α) (f : α → Outcome β) : Outcome β :=
  match x with
  | .ok a => f a
  | .fault => .fault
  | .outOfFuel => .outOfFuel
  | .aborted => .aborted

instance : Monad Outcome where
  pure := Outcome.ok
  bind := Outcome.bind

/-! ## Constants of `pmm.h` -/

/-- Size of a block in bytes (`BLOCK_SIZE`). -/
def BLOCK_SIZE : Nat := 4096
/-- Largest buddy order (`MAX_BLOCK_ORDER`). -/
def MAX_BLOCK_ORDER : Nat := 8
/-- Bit 6 of the multiboot flags (`MBT_FLAG_IS_MMAP`). -/
def MBT_FLAG_IS_MMAP : Nat := 0x40
/-- Highest possible DMA address (`DMA_MAX_ADDRESS`). -/
def DMA_MAX_ADDRESS : Nat := 0xFFFFFF
/-- The DMA budget in bytes (`DMA_TOTAL_BYTES`). -/
def DMA_TOTAL_BYTES : Nat := 0x40000
/-- The DMA budget in blocks (`DMA_TOTAL_BLOCKS`). -/
def DMA_TOTAL_BLOCKS : Nat := 0x40

/-- Modulus of `uint32_t` arithmetic. -/
def U32 : Nat := 4294967296
/-- Value of `sizeof(struct zone)` (packed: 1 + 4 + 4 + 4). -/
def SIZEOF_ZONE : Nat := 13
/-- Value of `sizeof(struct pool)` (packed: 6 * 4). -/
def SIZEOF_POOL : Nat := 24
/-- Value of `sizeof(struct buddy)` (packed: 1 + 6 * 4). -/
def SIZEOF_BUDDY : Nat := 25

/-- Addition of `uint32_t` values. -/
def uadd (a b : Nat) : Nat := (a + b) % U32
/-- Subtraction of `uint32_t` values (wraps below zero). -/
def usub (a b : Nat) : Nat := (a + (U32 - b % U32)) % U32
/-- Multiplication of `uint32_t` values. -/
def umul (a b : Nat) : Nat := (a * b) % U32

/-- The macro `CEIL(x, y)`: `((x / y) + ((x % y) != 0))`. -/
def CEIL (x y : Nat) : Nat := x / y + (if x % y ≠ 0 then 1 else 0)

/-! ## Data model (`pmm.h`) -/

/-- One record of the boot memory map (`struct mmap_entry_t`). -/
structure mmap_entry_t where
  size : Nat
  base_low : Nat
  base_high : Nat
  length_low : Nat
  length_high : Nat
  type : Nat
  deriving DecidableEq, Repr

/-- The part of `multiboot_info_t` that `init_pmm` reads: the flags and the
memory map found between `mmap_addr` and `mmap_addr + mmap_length`. -/
structure multiboot_info_t where
  flags : Nat
  mmap : List mmap_entry_t
  deriving DecidableEq, Repr

/-- A `struct pool *`: the region the pool was placed in and its position. -/
inductive PoolPtr where
  | dma (i : Nat)
  | normal (i : Nat)
  deriving DecidableEq, Repr

/-- One order-level bitmap of a pool (`struct buddy`), with the words of its
bitmap. -/
structure buddy where
  buddyOrder : Nat
  mapWordCount : Nat
  freeBlocks : Nat
  maxFreeBlocks : Nat
  bitMap : List Nat
  nextBuddy : Option Nat
  prevBuddy : Option Nat
  deriving DecidableEq, Repr

/-- A contiguous span of memory (`struct pool`), with the buddies placed
after its header. -/
structure pool where
  freeBlocks : Nat
  start : Nat
  poolPhysicalSize : Nat
  poolBuddiesTop : Option Nat
  poolBuddiesBottom : Option Nat
  nextPool : Option PoolPtr
  region : List buddy
  deriving DecidableEq, Repr

/-- A zone header (`struct zone`). -/
structure zone where
  zoneType : Nat
  freeBlocks : Nat
  zonePhysicalSize : Nat
  poolStart : Option PoolPtr
  deriving DecidableEq, Repr

/-- The globals of `pmm.c`: `zone_DMA`, `zone_normal` (`NULL` until the first
Normal pool) and the pools placed after each of the two zone headers. -/
structure PmmState where
  zone_DMA : zone
  zone_normal : Option zone
  dmaRegion : List pool
  normalRegion : List pool
  deriving DecidableEq, Repr

/-- What the linker and the machine provide: `kernel_start`, `kernel_end`,
`VIRTUAL_KERNEL_OFFSET`, and the content of memory that was never written
(`raw k` is what word `k` of a fresh bitmap holds before it is initialised). -/
structure BootEnv where
  kernel_start : Nat
  kernel_end : Nat
  VIRTUAL_KERNEL_OFFSET : Nat
  raw : Nat → Nat

/-- The locals of `init_pmm` together with the globals: the memory map (it is
mutated in place), the cursor `section` (as a position in the map) and
`previousPool`. -/
structure InitState where
  pmm : PmmState
  mmap : List mmap_entry_t
  sectionIdx : Nat
  previousPool : Option PoolPtr
  deriving DecidableEq, Repr

/-- Dereference of a pool pointer. -/
def getPool (s : PmmState) : PoolPtr → Option pool
  | .dma i => s.dmaRegion[i]?
  | .normal i => s.normalRegion[i]?

/-- Store through a pool pointer. -/
def setPool (s : PmmState) (p : PoolPtr) (v : pool) : PmmState :=
  match p with
  | .dma i => { s with dmaRegion := s.dmaRegion.set i v }
  | .normal i => { s with normalRegion := s.normalRegion.set i v }

/-! ## Bit primitives -/

/-- The function `set_bit`: `mapStart[offset / 32] |= 1 << (offset % 32)`. -/
def set_bit (map : List Nat) (offset : Nat) : Outcome (List Nat) :=
  match map[offset / 32]? with
  | some w => .ok (map.set (offset / 32) (w ||| (1 <<< (offset % 32))))
  | none => .fault

/-- The function `unset_bit`: `mapStart[offset / 32] &= ~(1 << (offset % 32))`. -/
def unset_bit (map : List Nat) (offset : Nat) : Outcome (List Nat) :=
  match map[offset / 32]? with
  | some w => .ok (map.set (offset / 32) (w &&& (0xFFFFFFFF ^^^ (1 <<< (offset % 32)))))
  | none => .fault

/-- The function `test_bit`: `mapStart[offset / 32] & (1 << (offset % 32))` as a `bool`. -/
def test_bit (map : List Nat) (offset : Nat) : Outcome Bool :=
  match map[offset / 32]? with
  | some w => .ok (w &&& (1 <<< (offset % 32)) != 0)
  | none => .fault

/-- First loop of `set_bits` / `unset_bits`:
`for (i = offsetStart; i <= offsetEnd && i % 32 != 0; i++) op(mapStart, i);`.
Returns the bitmap and the value of `i` at loop exit. -/
def range_lead (op : List Nat → Nat → Outcome (List Nat)) :
    Nat → List Nat → Nat → Nat → Outcome (List Nat × Nat)
  | 0, _, _, _ => .outOfFuel
  | fuel + 1, map, i, offsetEnd =>
    if i ≤ offsetEnd ∧ i % 32 ≠ 0 then
      (op map i).bind (fun m => range_lead op fuel m (uadd i 1) offsetEnd)
    else .ok (map, i)

/-- Second loop of `set_bits` / `unset_bits`:
`for (; i + 32 <= offsetEnd; i = i + 32) mapStart[i / 32] = val;`. -/
def range_words (val : Nat) : Nat → List Nat → Nat → Nat → Outcome (List Nat × Nat)
  | 0, _, _, _ => .outOfFuel
  | fuel + 1, map, i, offsetEnd =>
    if uadd i 32 ≤ offsetEnd then
      if i / 32 < map.length then
        range_words val fuel (map.set (i / 32) val) (uadd i 32) offsetEnd
      else .fault
    else .ok (map, i)

/-- Third loop of `set_bits` / `unset_bits`:
`for (; i <= offsetEnd; i++) op(mapStart, i);`. -/
def range_tail (op : List Nat → Nat → Outcome (List Nat)) :
    Nat → List Nat → Nat → Nat → Outcome (List Nat)
  | 0, _, _, _ => .outOfFuel
  | fuel + 1, map, i, offsetEnd =>
    if i ≤ offsetEnd then
      (op map i).bind (fun m => range_tail op fuel m (uadd i 1) offsetEnd)
    else .ok map

/-- The three loops of `set_bits` / `unset_bits` one after the other, for the
bit operation `op` and the whole-word value `val`. -/
def range_bits (op : List Nat → Nat → Outcome (List Nat)) (val : Nat)
    (fuel : Nat) (map : List Nat) (offsetStart offsetEnd : Nat) : Outcome (List Nat) :=
  (range_lead op fuel map offsetStart offsetEnd).bind fun r1 =>
  (range_words val fuel r1.1 r1.2 offsetEnd).bind fun r2 =>
  range_tail op fuel r2.1 r2.2 offsetEnd

/-- The function `set_bits(mapStart, offsetStart, offsetEnd)`. -/
def set_bits (fuel : Nat) (map : List Nat) (offsetStart offsetEnd : Nat) : Outcome (List Nat) :=
  range_bits set_bit 0xFFFFFFFF fuel map offsetStart offsetEnd

/-- The function `unset_bits(mapStart, offsetStart, offsetEnd)`. -/
def unset_bits (fuel : Nat) (map : List Nat) (offsetStart offsetEnd : Nat) : Outcome (List Nat) :=
  range_bits unset_bit 0 fuel map offsetStart offsetEnd

/-- The call `memset(bitMap, byte, nbytes)` on a bitmap, `nbytes` a whole number
of words. -/
def memset (map : List Nat) (byte nbytes : Nat) : Outcome (List Nat) :=
  if nbytes % 4 = 0 ∧ nbytes / 4 ≤ map.length then
    .ok (List.replicate (nbytes / 4) (byte * 0x01010101) ++ map.drop (nbytes / 4))
  else .fault

/-- The words of a fresh, not yet initialised bitmap of `wc` words. -/
def rawWords (boot : BootEnv) (wc : Nat) : List Nat :=
  (List.range wc).map (fun k => boot.raw k % U32)

/-! ## Buddy ladder (`makeBuddies`) -/

/-- The loop of `makeBuddies`:
`for (uint8_t i = MAX_BLOCK_ORDER; i > 0; i = i >> 1)`.  The state of the loop
is the pool (with the buddies built so far), `previousBuddy` and
`currentBuddy`; the new buddy is placed after everything the pool holds so
far.  Returns the pool and the last value of `currentBuddy`. -/
def makeBuddies_loop (boot : BootEnv) :
    Nat → Nat → pool → Option Nat → Option Nat → Outcome (pool × Option Nat)
  | 0, _, _, _, _ => .outOfFuel
  | fuel + 1, i, pl, previousBuddy, currentBuddy =>
    if i > 0 then do
      let cur := pl.region.length
      let maxFree := pl.freeBlocks / i
      let free ← (match previousBuddy with
        | none => Outcome.ok maxFree
        | some pb =>
          match pl.region[pb]? with
          | some prev => Outcome.ok (usub maxFree (umul prev.maxFreeBlocks 2))
          | none => Outcome.fault)
      let wc := maxFree / 32 + (if maxFree % 32 ≠ 0 then 1 else 0)
      let physical := uadd pl.poolPhysicalSize (uadd SIZEOF_BUDDY (umul wc 4))
      let bm ← (if maxFree = free then memset (rawWords boot wc) 0 (umul wc 4)
        else do
          let m ← memset (rawWords boot wc) 0xFF (umul wc 4)
          if free > 0 then unset_bit m (usub maxFree free) else Outcome.ok m)
      let b : buddy :=
        { buddyOrder := i, mapWordCount := wc, freeBlocks := free, maxFreeBlocks := maxFree,
          bitMap := bm, nextBuddy := none, prevBuddy := none }
      let pl1 ← (match pl.poolBuddiesTop with
        | none =>
          Outcome.ok { pl with poolPhysicalSize := physical, poolBuddiesTop := some cur,
                               region := pl.region ++ [{ b with prevBuddy := none }] }
        | some _ =>
          match previousBuddy with
          | none => Outcome.fault
          | some pb =>
            match pl.region[pb]? with
            | none => Outcome.fault
            | some prev =>
              Outcome.ok { pl with poolPhysicalSize := physical,
                                   region := pl.region.set pb { prev with nextBuddy := some cur }
                                     ++ [{ b with prevBuddy := some pb }] })
      makeBuddies_loop boot fuel (i / 2) pl1 (some cur) (some cur)
    else .ok (pl, currentBuddy)

/-- The function `makeBuddies(pool)`. -/
def makeBuddies (boot : BootEnv) (pl : pool) : Outcome pool := do
  let r ← makeBuddies_loop boot (MAX_BLOCK_ORDER + 1) MAX_BLOCK_ORDER pl none none
  pure { r.1 with poolBuddiesBottom := r.2 }

/-! ## Zone initialisation (`init_pmm`) -/

/-- State of `init_pmm` when the loop over the memory map is entered: the DMA
zone descriptor is initialised, `zone_normal` is still `NULL`. -/
def init_start (mbt : multiboot_info_t) : InitState :=
  { pmm :=
      { zone_DMA := { zoneType := 0, freeBlocks := 0, zonePhysicalSize := SIZEOF_ZONE,
                      poolStart := none },
        zone_normal := none, dmaRegion := [], normalRegion := [] },
    mmap := mbt.mmap, sectionIdx := 0, previousPool := none }

/-- The assignment `previousPool->nextPool = currentPool`. -/
def link_previous (s : PmmState) (previousPool : Option PoolPtr) (cur : PoolPtr) :
    Outcome PmmState :=
  match previousPool with
  | none => .fault
  | some pp =>
    match getPool s pp with
    | none => .fault
    | some q => .ok (setPool s pp { q with nextPool := some cur })

/-- The Normal-zone branch of the loop of `init_pmm` (lines 181-226), for the
record `sec` under the cursor. -/
def init_normal (fuel : Nat) (boot : BootEnv) (st : InitState) (sec : mmap_entry_t) :
    Outcome InitState := do
  let zn0 : zone := match st.pmm.zone_normal with
    | some z => z
    | none => { zoneType := 1, freeBlocks := 0, zonePhysicalSize := SIZEOF_ZONE, poolStart := none }
  let cur := PoolPtr.normal st.pmm.normalRegion.length
  let blocks := sec.length_low / BLOCK_SIZE
  let wc := blocks / 32 + (if blocks % 32 ≠ 0 then 1 else 0)
  let poolSize := uadd SIZEOF_POOL (uadd SIZEOF_BUDDY (umul wc 4))
  let zn1 : zone := { zn0 with freeBlocks := uadd zn0.freeBlocks blocks,
                               zonePhysicalSize := uadd zn0.zonePhysicalSize poolSize }
  let bm1 ← unset_bits fuel (rawWords boot wc) 0 (usub blocks 1)
  let bm2 ← set_bits fuel bm1 blocks (usub (umul wc 32) 1)
  let b : buddy :=
    { buddyOrder := 1, mapWordCount := wc, freeBlocks := blocks, maxFreeBlocks := blocks,
      bitMap := bm2, nextBuddy := none, prevBuddy := none }
  let p : pool :=
    { freeBlocks := blocks, start := sec.base_low, poolPhysicalSize := poolSize,
      poolBuddiesTop := some 0, poolBuddiesBottom := some 0, nextPool := none, region := [b] }
  let s1 ← (match zn1.poolStart with
    | none => Outcome.ok { st.pmm with zone_normal := some { zn1 with poolStart := some cur } }
    | some _ => link_previous { st.pmm with zone_normal := some zn1 } st.previousPool cur)
  pure { pmm := { s1 with normalRegion := s1.normalRegion ++ [p] }, mmap := st.mmap,
         sectionIdx := st.sectionIdx + 1, previousPool := some cur }

/-- The DMA-zone branch of the loop of `init_pmm` (lines 229-281), for the
record `sec` under the cursor.  The new pool is appended to the DMA region;
the address the code gives it (line 232) is followed by `place`, and lies on
`zone_normal` when that zone exists already (see `laysOutApart`). -/
def init_dma (boot : BootEnv) (st : InitState) (sec : mmap_entry_t) : Outcome InitState := do
  let cur := PoolPtr.dma st.pmm.dmaRegion.length
  let p0 : pool :=
    { freeBlocks := 0, start := sec.base_low, poolPhysicalSize := SIZEOF_POOL,
      poolBuddiesTop := none, poolBuddiesBottom := none, nextPool := none, region := [] }
  let s1 ← (match st.pmm.zone_DMA.poolStart with
    | none => Outcome.ok { st.pmm with zone_DMA := { st.pmm.zone_DMA with poolStart := some cur } }
    | some _ => link_previous st.pmm st.previousPool cur)
  let zd := s1.zone_DMA
  if sec.length_low < usub DMA_TOTAL_BLOCKS zd.freeBlocks
      ∧ usub (uadd p0.start sec.length_low) 1 ≤ DMA_MAX_ADDRESS then do
    -- adding the entire section as a pool
    let blocks := sec.length_low / BLOCK_SIZE
    let p1 ← makeBuddies boot { p0 with freeBlocks := blocks }
    let zd1 : zone := { zd with freeBlocks := uadd zd.freeBlocks blocks,
                                zonePhysicalSize := uadd zd.zonePhysicalSize p1.poolPhysicalSize }
    pure { pmm := { s1 with zone_DMA := zd1, dmaRegion := s1.dmaRegion ++ [p1] },
           mmap := st.mmap, sectionIdx := st.sectionIdx + 1, previousPool := some cur }
  else do
    let toCeiling := uadd (usub DMA_MAX_ADDRESS p0.start) 1
    let toBudget := usub DMA_TOTAL_BYTES (umul zd.freeBlocks BLOCK_SIZE)
    let blocks :=
      if toCeiling < usub DMA_TOTAL_BLOCKS zd.freeBlocks then toCeiling / BLOCK_SIZE
      else usub DMA_TOTAL_BLOCKS zd.freeBlocks
    let cut := if toCeiling < usub DMA_TOTAL_BLOCKS zd.freeBlocks then toCeiling else toBudget
    let sec1 : mmap_entry_t :=
      { sec with base_low := uadd sec.base_low cut, length_low := usub sec.length_low cut }
    let p1 ← makeBuddies boot { p0 with freeBlocks := blocks }
    let zd1 : zone := { zd with freeBlocks := uadd zd.freeBlocks blocks,
                                zonePhysicalSize := uadd zd.zonePhysicalSize p1.poolPhysicalSize }
    pure { pmm := { s1 with zone_DMA := zd1, dmaRegion := s1.dmaRegion ++ [p1] },
           mmap := st.mmap.set st.sectionIdx sec1, sectionIdx := st.sectionIdx,
           previousPool := some cur }

/-- One execution of the body of the loop of `init_pmm` (lines 170-282). -/
def init_step (fuel : Nat) (boot : BootEnv) (st : InitState) : Outcome InitState :=
  match st.mmap[st.sectionIdx]? with
  | none => .fault
  | some sec =>
    if sec.base_high ≠ 0 ∨ sec.type ≠ 1 then
      .ok { st with sectionIdx := st.sectionIdx + 1 }
    else if sec.base_low > DMA_MAX_ADDRESS ∨ st.pmm.zone_DMA.freeBlocks ≥ DMA_TOTAL_BLOCKS then
      init_normal fuel boot st sec
    else
      init_dma boot st sec

/-- At most `k` iterations of the loop of `init_pmm`; stops early when the
cursor has left the memory map. -/
def init_iter (fuel : Nat) (boot : BootEnv) : Nat → InitState → Outcome InitState
  | 0, st => .ok st
  | k + 1, st =>
    if st.sectionIdx < st.mmap.length then
      (init_step fuel boot st).bind (init_iter fuel boot k)
    else .ok st

/-- The loop of `init_pmm`, run to its exit within `fuel` iterations. -/
def init_loop (fuel : Nat) (boot : BootEnv) (st : InitState) : Outcome InitState := do
  let s ← init_iter fuel boot fuel st
  if s.sectionIdx < s.mmap.length then Outcome.outOfFuel else pure s

/-! ## Kernel reservation (`reserve_kernel`) -/

/-- The loop of `reserve_kernel` over the pools reached from
`zone_normal->poolStart`. -/
def reserve_pools (resStart resEnd : Nat) (inner : Nat) :
    Nat → PmmState → Option PoolPtr → Outcome PmmState
  | 0, _, _ => .outOfFuel
  | _ + 1, st, none => .ok st
  | fuel + 1, st, some ptr =>
    match getPool st ptr with
    | none => .fault
    | some p =>
      if p.start ≤ resStart ∧ resStart < uadd p.start (umul p.freeBlocks BLOCK_SIZE) then
        match p.poolBuddiesTop with
        | none => .fault
        | some t =>
          match p.region[t]? with
          | none => .fault
          | some b =>
            if b.buddyOrder * BLOCK_SIZE = 0 then .fault
            else do
              let startOffset := usub resStart p.start / (b.buddyOrder * BLOCK_SIZE)
              let endOffSet := usub resEnd p.start / (b.buddyOrder * BLOCK_SIZE)
              let bm ← set_bits inner b.bitMap startOffset endOffSet
              let b1 : buddy :=
                { b with bitMap := bm,
                         freeBlocks := usub b.freeBlocks (uadd (usub endOffSet startOffset) 1) }
              pure (setPool st ptr { p with region := p.region.set t b1 })
      else reserve_pools resStart resEnd inner fuel st p.nextPool

/-- The function `reserve_kernel()`. -/
def reserve_kernel (fuel : Nat) (boot : BootEnv) (st : PmmState) : Outcome PmmState :=
  match st.zone_normal with
  | none => .fault
  | some zn =>
    let resStart := usub boot.kernel_start boot.VIRTUAL_KERNEL_OFFSET
    let resEnd := usub (usub (uadd (uadd boot.kernel_end st.zone_DMA.zonePhysicalSize)
        zn.zonePhysicalSize) 1) boot.VIRTUAL_KERNEL_OFFSET
    reserve_pools resStart resEnd fuel fuel st zn.poolStart

/-- The function `init_pmm(mbtStructure)`; the result is the state of the
globals when it returns. -/
def init_pmm (fuel : Nat) (boot : BootEnv) (mbt : multiboot_info_t) : Outcome PmmState :=
  if mbt.flags &&& MBT_FLAG_IS_MMAP = 0 then .aborted
  else do
    let st ← init_loop fuel boot (init_start mbt)
    reserve_kernel fuel boot st.pmm

/-! ## Allocation (`pmm_alloc`) -/

/-- The loop `while (test_bit(bitMap, startIndex) == 1) startIndex++;`. -/
def alloc_first_clear : Nat → List Nat → Nat → Outcome Nat
  | 0, _, _ => .outOfFuel
  | fuel + 1, bitMap, startIndex => do
    let b ← test_bit bitMap startIndex
    if b then alloc_first_clear fuel bitMap (uadd startIndex 1) else pure startIndex

/-- The loop
`while ((offset < startIndex + request) && (offset < maxBlocks))` of
`pmm_alloc`; returns `offset` and `isSet` at loop exit. -/
def alloc_run (bitMap : List Nat) (startIndex request maxBlocks : Nat) :
    Nat → Nat → Bool → Outcome (Nat × Bool)
  | 0, _, _ => .outOfFuel
  | fuel + 1, offset, isSet =>
    if offset < uadd startIndex request ∧ offset < maxBlocks then do
      let b ← test_bit bitMap offset
      if b then pure (offset, true)
      else alloc_run bitMap startIndex request maxBlocks fuel (uadd offset 1) isSet
    else .ok (offset, isSet)

/-- The loop `while (offset < maxBlocks)` of `pmm_alloc` over the bitmap of the
chosen pool, with the `return` statements inside and right after it.  The
result is the value `pmm_alloc` returns (`none` is `NULL`). -/
def alloc_scan (inner : Nat) (bitMap : List Nat) (request maxBlocks : Nat) :
    Nat → Nat → Bool → Outcome (Option Nat)
  | 0, _, _ => .outOfFuel
  | fuel + 1, offset, isSet =>
    if offset < maxBlocks then
      match bitMap[offset / 32]? with
      | none => .fault
      | some w =>
        if w ≠ 0xFFFFFFFF then do
          let startIndex ← alloc_first_clear inner bitMap offset
          let r ← alloc_run bitMap startIndex request maxBlocks inner offset isSet
          if r.2 then
            -- `offset++; continue;`
            alloc_scan inner bitMap request maxBlocks fuel (uadd r.1 1) r.2
          else if r.1 ≥ maxBlocks then
            -- "Returning null because internal loop ran too long"
            pure none
          else
            alloc_scan inner bitMap request maxBlocks fuel (uadd r.1 32) r.2
        else
          alloc_scan inner bitMap request maxBlocks fuel (uadd offset 32) isSet
    else
      -- "Couldn't find an unset bit"
      .ok none

/-- The loop `while (currentPool != NULL)` of `pmm_alloc`.  The locals
`offset` and `isSet` still hold their initial values `0` when a pool is
chosen, because the scan of the chosen pool always ends in a `return`. -/
def alloc_pools (inner : Nat) (st : PmmState) (request : Nat) :
    Nat → Option PoolPtr → Outcome (Option Nat)
  | 0, _ => .outOfFuel
  | _ + 1, none => .ok none
  | fuel + 1, some ptr =>
    match getPool st ptr with
    | none => .fault
    | some p =>
      if p.freeBlocks ≥ request then
        match p.poolBuddiesBottom with
        | none => .fault
        | some bi =>
          match p.region[bi]? with
          | none => .fault
          | some b => alloc_scan inner b.bitMap request b.maxFreeBlocks inner 0 false
      else alloc_pools inner st request fuel p.nextPool

/-- The function `pmm_alloc(request)`: the returned pointer (`none` is `NULL`)
and the state of the globals afterwards.  The function contains no store to
any zone, pool, buddy or bitmap, so the state handed back is the one it was
called in. -/
def pmm_alloc (fuel : Nat) (st : PmmState) (request : Nat) : Outcome (Option Nat × PmmState) :=
  if request = 0 then .ok (none, st)
  else
    match st.zone_normal with
    | none => .fault
    | some zn =>
      if zn.freeBlocks < CEIL request BLOCK_SIZE then .ok (none, st)
      else do
        let r ← alloc_pools fuel st (CEIL request BLOCK_SIZE) fuel zn.poolStart
        pure (r, st)

/-! ## Vocabulary of the statements -/

/-- The run ended normally and the result satisfies `P`. -/
def Outcome.returns {α : Type} (o : Outcome α) (P : α → Prop) : Prop :=
  match o with
  | .ok a => P a
  | .fault => False
  | .outOfFuel => False
  | .aborted => False

instance {α : Type} (o : Outcome α) (P : α → Prop) [inst : ∀ a, Decidable (P a)] :
    Decidable (o.returns P) :=
  match o with
  | .ok a => inst a
  | .fault => isFalse (fun h => h)
  | .outOfFuel => isFalse (fun h => h)
  | .aborted => isFalse (fun h => h)

/-- The run ended normally. -/
def Outcome.isOk {α : Type} (o : Outcome α) : Bool :=
  match o with
  | .ok _ => true
  | .fault => false
  | .outOfFuel => false
  | .aborted => false

/-- The pools met when following `nextPool` links from `ptr`, at most `fuel`
of them. -/
def reachable (s : PmmState) : Nat → Option PoolPtr → List PoolPtr
  | 0, _ => []
  | _ + 1, none => []
  | fuel + 1, some ptr =>
    ptr :: (match getPool s ptr with
      | none => []
      | some p => reachable s fuel p.nextPool)

/-- Sum of `freeBlocks` over the pools the pointers `ptrs` point to. -/
def freeBlocksSum (s : PmmState) (ptrs : List PoolPtr) : Nat :=
  (ptrs.map (fun ptr => match getPool s ptr with
    | none => 0
    | some p => p.freeBlocks)).sum

/-- The buddy `pool->poolBuddiesTop` points to. -/
def topBuddy (p : pool) : Option buddy :=
  match p.poolBuddiesTop with
  | none => none
  | some t => p.region[t]?

/-- The buddy `pool->poolBuddiesBottom` points to. -/
def bottomBuddy (p : pool) : Option buddy :=
  match p.poolBuddiesBottom with
  | none => none
  | some t => p.region[t]?

/-- The physical address `resStart` of `reserve_kernel` lies in the span
`[start, start + freeBlocks * BLOCK_SIZE)` of the pool, as the test on line
317 computes it. -/
def holdsKernelStart (boot : BootEnv) (p : pool) : Prop :=
  p.start ≤ usub boot.kernel_start boot.VIRTUAL_KERNEL_OFFSET ∧
    usub boot.kernel_start boot.VIRTUAL_KERNEL_OFFSET
      < uadd p.start (umul p.freeBlocks BLOCK_SIZE)

/-- The DMA pool `makeBuddies` builds for 64 blocks starting at `start`: the
ladder of orders 8, 4, 2, 1, the top order all free. -/
def dma_pool_64 (start : Nat) : pool :=
  { freeBlocks := 64, start := start, poolPhysicalSize := 144, poolBuddiesTop := some 0,
    poolBuddiesBottom := some 3, nextPool := none,
    region :=
      [{ buddyOrder := 8, mapWordCount := 1, freeBlocks := 8, maxFreeBlocks := 8,
         bitMap := [0], nextBuddy := some 1, prevBuddy := none },
       { buddyOrder := 4, mapWordCount := 1, freeBlocks := 0, maxFreeBlocks := 16,
         bitMap := [0xFFFFFFFF], nextBuddy := some 2, prevBuddy := some 0 },
       { buddyOrder := 2, mapWordCount := 1, freeBlocks := 0, maxFreeBlocks := 32,
         bitMap := [0xFFFFFFFF], nextBuddy := some 3, prevBuddy := some 1 },
       { buddyOrder := 1, mapWordCount := 2, freeBlocks := 0, maxFreeBlocks := 64,
         bitMap := [0xFFFFFFFF, 0xFFFFFFFF], nextBuddy := none, prevBuddy := some 2 }] }

/-- The pools expected for a single usable record `(base, length)` that is cut
into a full DMA pool and a Normal pool: exactly one DMA pool (`start = base`,
64 blocks, top buddy of order 8 with `freeBlocks = maxFreeBlocks = 8` and its 8
bits clear) and exactly one Normal pool (`start = base + 0x40000`,
`(length - 0x40000) / BLOCK_SIZE` blocks), with `length / BLOCK_SIZE` blocks
in all. -/
def split_post (base length : Nat) (s : PmmState) : Prop :=
  ∃ d n, s.dmaRegion = [d] ∧ s.normalRegion = [n] ∧
    d.start = base ∧ d.freeBlocks = 64 ∧
    (topBuddy d).map (fun b => (b.buddyOrder, b.freeBlocks, b.maxFreeBlocks)) = some (8, 8, 8) ∧
    (∀ i, i < 8 → (topBuddy d).map (fun b => test_bit b.bitMap i) = some (Outcome.ok false)) ∧
    n.start = base + 0x40000 ∧ n.freeBlocks = (length - 0x40000) / BLOCK_SIZE ∧
    d.freeBlocks + n.freeBlocks = length / BLOCK_SIZE

/-! ## Bits of a bitmap -/

/-- Bit `i` of the bitmap, as `test_bit` reads it (`false` outside the
bitmap). -/
def bitOf (map : List Nat) (i : Nat) : Bool := (map.getD (i / 32) 0).testBit (i % 32)

/-- Every word of the bitmap is a `uint32_t`. -/
def wordsOk (map : List Nat) : Prop := ∀ w ∈ map, w < U32

/-- What a single-bit operation does when it returns: the offset lies in the
bitmap, the bit at the offset gets the value `v`, nothing else changes. -/
def BitOpSpec (op : List Nat → Nat → Outcome (List Nat)) (v : Bool) : Prop :=
  ∀ m i r, op m i = Outcome.ok r →
    i / 32 < m.length ∧ r.length = m.length ∧
    (∀ j, bitOf r j = if j = i then v else bitOf m j) ∧ (wordsOk m → wordsOk r)

/-! ## Bit-by-bit reference loops -/

/-- Calling the single-bit operation `op` on each of the `count` offsets
`start`, `start + 1`, ... in turn. -/
def each_bit (op : List Nat → Nat → Outcome (List Nat)) : Nat → List Nat → Nat → Outcome (List Nat)
  | 0, map, _ => .ok map
  | count + 1, map, start => (op map start).bind (fun m => each_bit op count m (start + 1))

/-- The bitmap obtained by calling `set_bit` on each offset `start`,
`start + 1`, ..., `last` (none when `last < start`). -/
def set_each (map : List Nat) (start last : Nat) : Outcome (List Nat) :=
  each_bit set_bit (last + 1 - start) map start

/-- The bitmap obtained by calling `unset_bit` on each offset `start`,
`start + 1`, ..., `last` (none when `last < start`). -/
def unset_each (map : List Nat) (start last : Nat) : Outcome (List Nat) :=
  each_bit unset_bit (last + 1 - start) map start

/-! ## Concrete inputs -/

/-- A usable record (`type = 1`, below 4 GiB) of the memory map. -/
def usable_record (base length : Nat) : mmap_entry_t :=
  { size := 20, base_low := base, base_high := 0, length_low := length, length_high := 0,
    type := 1 }

/-- A kernel linked at `0xC0100000`, loaded at 1 MiB, 64 KiB long. -/
def boot_low_kernel : BootEnv :=
  { kernel_start := 0xC0100000, kernel_end := 0xC0110000,
    VIRTUAL_KERNEL_OFFSET := 0xC0000000, raw := fun _ => 0xDEADBEEF }

/-- A kernel loaded at 16 MiB + 4 KiB, 4 KiB long. -/
def boot_high_kernel : BootEnv :=
  { kernel_start := 0xC1001000, kernel_end := 0xC1002000,
    VIRTUAL_KERNEL_OFFSET := 0xC0000000, raw := fun _ => 0xDEADBEEF }

/-- One usable record: 256 KiB at 16 MiB. -/
def mbt_one_normal : multiboot_info_t :=
  { flags := 0x40, mmap := [usable_record 0x1000000 0x40000] }

/-- Two usable records, the one at the higher address first: 1 MiB at 16 MiB,
then 1 MiB at 1 MiB. -/
def mbt_high_first : multiboot_info_t :=
  { flags := 0x40, mmap := [usable_record 0x1000000 0x100000, usable_record 0x100000 0x100000] }

/-- One usable record of a single block at 1 MiB. -/
def mbt_one_block : multiboot_info_t :=
  { flags := 0x40, mmap := [usable_record 0x100000 0x1000] }

/-- One usable record: 1 MiB starting one block below the 16 MiB ceiling. -/
def mbt_at_ceiling : multiboot_info_t :=
  { flags := 0x40, mmap := [usable_record 0xFFF000 0x100000] }

/-- Two usable records above 16 MiB: 4 blocks at 16 MiB, 64 blocks at 32 MiB. -/
def mbt_two_normal : multiboot_info_t :=
  { flags := 0x40, mmap := [usable_record 0x1000000 0x4000, usable_record 0x2000000 0x40000] }

/-- The scenario of the specification: 32 MiB of usable memory at 1 MiB. -/
def mbt_scenario : multiboot_info_t :=
  { flags := 0x40, mmap := [usable_record 0x100000 0x2000000] }

/-- The state `init_pmm` leaves for a single usable record of one block at
16 MiB when the kernel lies outside it: one Normal pool, its one block free. -/
def state_one_block : PmmState :=
  { zone_DMA := { zoneType := 0, freeBlocks := 0, zonePhysicalSize := 13, poolStart := none },
    zone_normal := some { zoneType := 1, freeBlocks := 1, zonePhysicalSize := 66,
                          poolStart := some (.normal 0) },
    dmaRegion := [],
    normalRegion :=
      [{ freeBlocks := 1, start := 0x1000000, poolPhysicalSize := 53, poolBuddiesTop := some 0,
         poolBuddiesBottom := some 0, nextPool := none,
         region := [{ buddyOrder := 1, mapWordCount := 1, freeBlocks := 1, maxFreeBlocks := 1,
                      bitMap := [0xFFFFFFFE], nextBuddy := none, prevBuddy := none }] }] }


/-! ## First free bit (`findFirstFreeBit`) -/

/-- The inner loop of `findFirstFreeBit`,
`for (; offset < maxWords; offset++) if (test_bit(map, offset) == 0) return offset;`,
with the `return -1` that follows it (`maxBits` is `maxWords` after
`maxWords *= 32`). -/
def find_clear_from (map : List Nat) (maxBits : Nat) : Nat → Nat → Outcome Int
  | 0, _ => .outOfFuel
  | fuel + 1, offset =>
    if offset < maxBits then
      (test_bit map offset).bind fun b =>
        if b = false then .ok (offset : Int)
        else find_clear_from map maxBits fuel (uadd offset 1)
    else .ok (-1)

/-- The loop `while (offset < maxWords)` of `findFirstFreeBit` with the final
`return -1`. -/
def find_scan (inner : Nat) (map : List Nat) (maxBits : Nat) : Nat → Nat → Outcome Int
  | 0, _ => .outOfFuel
  | fuel + 1, offset =>
    if offset < maxBits then
      match map[offset / 32]? with
      | none => .fault
      | some w =>
        if w ≠ 0xFFFFFFFF then find_clear_from map maxBits inner offset
        else find_scan inner map maxBits fuel (uadd offset 32)
    else .ok (-1)

/-- The function `findFirstFreeBit(map, maxWords)`; the result is the
`intmax_t` it returns. -/
def findFirstFreeBit (fuel : Nat) (map : List Nat) (maxWords : Nat) : Outcome Int :=
  find_scan fuel map (umul maxWords 32) fuel 0

/-- One usable record of half a block (2 KiB) at 16 MiB. -/
def mbt_short_record : multiboot_info_t :=
  { flags := 0x40, mmap := [usable_record 0x1000000 0x800] }

/-! ## Vocabulary for `reserve_kernel` -/

/-- Following `nextPool` from `ptr` reaches `NULL` within `fuel` steps, every
pointer met on the way pointing to a pool. -/
def chainEnds (s : PmmState) : Nat → Option PoolPtr → Bool
  | 0, _ => false
  | _ + 1, none => true
  | fuel + 1, some ptr =>
    match getPool s ptr with
    | none => false
    | some p => chainEnds s fuel p.nextPool

instance (boot : BootEnv) (p : pool) : Decidable (holdsKernelStart boot p) := by
  unfold holdsKernelStart
  infer_instance

/-- A state with the kernel of `boot_low_kernel` (at 1 MiB) inside the one DMA
pool and outside the one Normal pool (one block at 16 MiB). -/
def state_kernel_in_dma : PmmState :=
  { zone_DMA := { zoneType := 0, freeBlocks := 64, zonePhysicalSize := 157,
                  poolStart := some (.dma 0) },
    zone_normal := some { zoneType := 1, freeBlocks := 1, zonePhysicalSize := 66,
                          poolStart := some (.normal 0) },
    dmaRegion := [dma_pool_64 0x100000],
    normalRegion :=
      [{ freeBlocks := 1, start := 0x1000000, poolPhysicalSize := 53, poolBuddiesTop := some 0,
         poolBuddiesBottom := some 0, nextPool := none,
         region := [{ buddyOrder := 1, mapWordCount := 1, freeBlocks := 1, maxFreeBlocks := 1,
                      bitMap := [0xFFFFFFFE], nextBuddy := none, prevBuddy := none }] }] }

/-- The order-1 buddy of a pool of 40 blocks, all free. -/
def buddy_forty : buddy :=
  { buddyOrder := 1, mapWordCount := 2, freeBlocks := 40, maxFreeBlocks := 40,
    bitMap := [0, 0xFFFFFF00], nextBuddy := none, prevBuddy := none }

/-- A Normal pool of 40 blocks at 16 MiB. -/
def pool_forty : pool :=
  { freeBlocks := 40, start := 0x1000000, poolPhysicalSize := 57, poolBuddiesTop := some 0,
    poolBuddiesBottom := some 0, nextPool := none, region := [buddy_forty] }

/-- A state with two Normal pools, 4 blocks at 32 MiB and then 40 blocks at
16 MiB; the kernel of `boot_high_kernel` (at 16 MiB + 4 KiB) lies in the
second. -/
def state_kernel_in_second : PmmState :=
  { zone_DMA := { zoneType := 0, freeBlocks := 0, zonePhysicalSize := 13, poolStart := none },
    zone_normal := some { zoneType := 1, freeBlocks := 44, zonePhysicalSize := 123,
                          poolStart := some (.normal 0) },
    dmaRegion := [],
    normalRegion :=
      [{ freeBlocks := 4, start := 0x2000000, poolPhysicalSize := 53, poolBuddiesTop := some 0,
         poolBuddiesBottom := some 0, nextPool := some (.normal 1),
         region := [{ buddyOrder := 1, mapWordCount := 1, freeBlocks := 4, maxFreeBlocks := 4,
                      bitMap := [0xFFFFFFF0], nextBuddy := none, prevBuddy := none }] },
       pool_forty] }

/-! ## Vocabulary for `makeBuddies` -/

/-- The bitmap of a buddy with `maxFree` valid positions of which `free` are
free, as the statements about `makeBuddies` describe it: `CEIL(maxFree, 32)`
words; every bit clear when `free = maxFree`; otherwise, over all
`32 * mapWordCount` bits, every bit set except bit `maxFree - free` when
`free > 0`. -/
def LadderMap (maxFree free : Nat) (m : List Nat) : Prop :=
  m.length = CEIL maxFree 32 ∧ wordsOk m ∧
  (maxFree = free → ∀ j, bitOf m j = false) ∧
  (maxFree ≠ free → ∀ j, j < 32 * CEIL maxFree 32 →
    bitOf m j = !decide (0 < free ∧ j = maxFree - free))

/-- The number of clear bits among the valid positions
`0 .. maxFreeBlocks - 1` of the bitmap of a buddy. -/
def clearValid (b : buddy) : Nat :=
  (List.range b.maxFreeBlocks).countP (fun i => !bitOf b.bitMap i)

/-- A fresh DMA pool of `n` blocks at `start`, as `init_pmm` hands it to
`makeBuddies`. -/
def fresh_pool (start n : Nat) : pool :=
  { freeBlocks := n, start := start, poolPhysicalSize := SIZEOF_POOL,
    poolBuddiesTop := none, poolBuddiesBottom := none, nextPool := none, region := [] }

/-- A buddy of the ladder: order, number of valid positions, number of free
positions, bitmap (of `CEIL(maxFree, 32)` words) and links. -/
def ladder_buddy (order maxFree free : Nat) (bm : List Nat) (next prev : Option Nat) : buddy :=
  { buddyOrder := order, mapWordCount := CEIL maxFree 32, freeBlocks := free,
    maxFreeBlocks := maxFree, bitMap := bm, nextBuddy := next, prevBuddy := prev }

/-- The pool expected from `makeBuddies` for a pool `pl` without buddies, given
the bitmaps of the three lower buddies: four buddies of orders 8, 4, 2, 1
linked top to bottom, `maxFreeBlocks = freeBlocks / order`, the top buddy all
free with a zeroed bitmap, each lower buddy with
`freeBlocks = maxFreeBlocks - 2 * parent.maxFreeBlocks`. -/
def ladder_pool (pl : pool) (m4 m2 m1 : List Nat) : pool :=
  { pl with
    poolPhysicalSize :=
      uadd (uadd (uadd (uadd pl.poolPhysicalSize
        (uadd SIZEOF_BUDDY (umul (CEIL (pl.freeBlocks / 8) 32) 4)))
        (uadd SIZEOF_BUDDY (umul (CEIL (pl.freeBlocks / 4) 32) 4)))
        (uadd SIZEOF_BUDDY (umul (CEIL (pl.freeBlocks / 2) 32) 4)))
        (uadd SIZEOF_BUDDY (umul (CEIL (pl.freeBlocks / 1) 32) 4)),
    poolBuddiesTop := some 0,
    poolBuddiesBottom := some 3,
    region :=
      [ladder_buddy 8 (pl.freeBlocks / 8) (pl.freeBlocks / 8)
         (List.replicate (CEIL (pl.freeBlocks / 8) 32) 0) (some 1) none,
       ladder_buddy 4 (pl.freeBlocks / 4) (pl.freeBlocks / 4 - 2 * (pl.freeBlocks / 8))
         m4 (some 2) (some 0),
       ladder_buddy 2 (pl.freeBlocks / 2) (pl.freeBlocks / 2 - 2 * (pl.freeBlocks / 4))
         m2 (some 3) (some 1),
       ladder_buddy 1 (pl.freeBlocks / 1) (pl.freeBlocks / 1 - 2 * (pl.freeBlocks / 2))
         m1 none (some 2)] }

/-- The pool's `freeBlocks` equals the `freeBlocks` of the buddy
`poolBuddiesTop` points to. -/
def topMatches (p : pool) : Prop :=
  (topBuddy p).map (fun b => b.freeBlocks) = some p.freeBlocks

instance (p : pool) : Decidable (topMatches p) := by
  unfold topMatches
  infer_instance

/-- Every pool created by the Normal-zone branch has `freeBlocks` equal to
its top buddy's `freeBlocks`. -/
def normalTopsMatch (s : PmmState) : Prop := ∀ p ∈ s.normalRegion, topMatches p

/-- One usable record of 3 blocks at 16 MiB. -/
def mbt_three_blocks : multiboot_info_t :=
  { flags := 0x40, mmap := [usable_record 0x1000000 0x3000] }

/-- Block `x` of the pool lies in the range `[i * order, (i + 1) * order)` that
the clear bit `i`, a valid position of the buddy's bitmap, stands for. -/
def freeRange (b : buddy) (i x : Nat) : Prop :=
  i < b.maxFreeBlocks ∧ bitOf b.bitMap i = false ∧
    i * b.buddyOrder ≤ x ∧ x < (i + 1) * b.buddyOrder

instance (b : buddy) (i x : Nat) : Decidable (freeRange b i x) := by
  unfold freeRange
  infer_instance

/-! ## Vocabulary for the buddy counters -/

/-- Every buddy of the pool has `freeBlocks` equal to the number of clear bits
among the positions `0 .. maxFreeBlocks - 1` of its bitmap. -/
def buddiesMatch (p : pool) : Prop := ∀ b ∈ p.region, b.freeBlocks = clearValid b

/-- The buddy `poolBuddiesTop` points to is untouched: all its valid positions
are clear and counted free (and `maxFreeBlocks` is a `uint32_t` with room for
the loop counters of `set_bits`). -/
def topAllFree (p : pool) : Prop :=
  ∀ t b, p.poolBuddiesTop = some t → p.region[t]? = some b →
    b.freeBlocks = b.maxFreeBlocks ∧ b.maxFreeBlocks + 33 < U32 ∧
    ∀ i, i < b.maxFreeBlocks → bitOf b.bitMap i = false

/-- Every pool of both zones satisfies `buddiesMatch` and `topAllFree`. -/
def poolsFresh (s : PmmState) : Prop :=
  ∀ p ∈ s.dmaRegion ++ s.normalRegion, buddiesMatch p ∧ topAllFree p

/-- The proviso on the reserved kernel range, along the walk of
`reserve_kernel` from `ptr`: the first pool whose span holds the kernel start
(if there is one) has a top buddy in which the bit offsets `s` of `resStart`
and `e` of `resEnd` satisfy `s <= e < maxFreeBlocks`. -/
def kernelFitsFrom (boot : BootEnv) (resEnd : Nat) (s : PmmState) :
    Nat → Option PoolPtr → Bool
  | 0, _ => true
  | _ + 1, none => true
  | fuel + 1, some ptr =>
    match getPool s ptr with
    | none => true
    | some p =>
      if holdsKernelStart boot p then
        match topBuddy p with
        | none => true
        | some b =>
          decide
            (usub (usub boot.kernel_start boot.VIRTUAL_KERNEL_OFFSET) p.start
                / (b.buddyOrder * BLOCK_SIZE)
              ≤ usub resEnd p.start / (b.buddyOrder * BLOCK_SIZE) ∧
             usub resEnd p.start / (b.buddyOrder * BLOCK_SIZE) < b.maxFreeBlocks)
      else kernelFitsFrom boot resEnd s fuel p.nextPool

/-- The proviso on the reserved kernel range for the state `init_pmm` hands to
`reserve_kernel`: the range lies in no pool of the Normal list, or inside the
valid positions of the top buddy of the pool that holds its start. -/
def kernelFits (boot : BootEnv) (fuel : Nat) (s : PmmState) : Bool :=
  match s.zone_normal with
  | none => true
  | some zn =>
    kernelFitsFrom boot
      (usub (usub (uadd (uadd boot.kernel_end s.zone_DMA.zonePhysicalSize)
        zn.zonePhysicalSize) 1) boot.VIRTUAL_KERNEL_OFFSET) s fuel zn.poolStart

/-! ## Placement of the bookkeeping in memory -/

/-- Where the loop of `init_pmm` puts a pool: the byte offset of the pool
header from `zone_DMA`, and the number of bytes the pool header, its buddies
and their bitmaps take (`poolPhysicalSize`). -/
structure Placement where
  ptr : PoolPtr
  offset : Nat
  size : Nat
  deriving DecidableEq, Repr

/-- The addresses the loop of `init_pmm` has computed so far, as byte offsets
from `zone_DMA`: that of `zone_normal` (once line 184 has run) and those of the
pools, in the order they were made. -/
structure Layout where
  zoneNormalAt : Option Nat
  pools : List Placement
  deriving DecidableEq, Repr

/-- Nothing is laid out yet when the loop is entered. -/
def layout_start : Layout := { zoneNormalAt := none, pools := [] }

/-- The addresses one execution of the loop body computes, for the record
`sec` under the cursor in the state `st`; `st1` is the state the body ends in.
Normal branch: `zone_normal = zone_DMA + zone_DMA->zonePhysicalSize` when
`zone_normal` is still `NULL` (line 184) and
`currentPool = zone_normal + zone_normal->zonePhysicalSize` (line 192).
DMA branch: `currentPool = zone_DMA + zone_DMA->zonePhysicalSize` (line 232). -/
def place (st : InitState) (sec : mmap_entry_t) (st1 : InitState) (lay : Layout) : Layout :=
  if sec.base_high ≠ 0 ∨ sec.type ≠ 1 then lay
  else if sec.base_low > DMA_MAX_ADDRESS ∨ st.pmm.zone_DMA.freeBlocks ≥ DMA_TOTAL_BLOCKS then
    let znAt := match lay.zoneNormalAt with
      | some a => a
      | none => st.pmm.zone_DMA.zonePhysicalSize
    let znSize := match st.pmm.zone_normal with
      | some z => z.zonePhysicalSize
      | none => SIZEOF_ZONE
    let size := match st1.pmm.normalRegion[st.pmm.normalRegion.length]? with
      | some p => p.poolPhysicalSize
      | none => 0
    { zoneNormalAt := some znAt,
      pools := lay.pools ++
        [{ ptr := .normal st.pmm.normalRegion.length, offset := znAt + znSize, size := size }] }
  else
    let size := match st1.pmm.dmaRegion[st.pmm.dmaRegion.length]? with
      | some p => p.poolPhysicalSize
      | none => 0
    { zoneNormalAt := lay.zoneNormalAt,
      pools := lay.pools ++
        [{ ptr := .dma st.pmm.dmaRegion.length, offset := st.pmm.zone_DMA.zonePhysicalSize,
           size := size }] }

/-- At most `k` iterations of the loop of `init_pmm` (as `init_iter`), keeping
track of the addresses the loop computes. -/
def layout_iter (fuel : Nat) (boot : BootEnv) :
    Nat → InitState → Layout → Outcome (InitState × Layout)
  | 0, st, lay => .ok (st, lay)
  | k + 1, st, lay =>
    match st.mmap[st.sectionIdx]? with
    | none => .ok (st, lay)
    | some sec =>
      (init_step fuel boot st).bind fun st1 =>
        layout_iter fuel boot k st1 (place st sec st1 lay)

/-- The byte ranges `(offset, size)` of everything laid out: the header of
`zone_DMA`, the header of `zone_normal` and the pools. -/
def Layout.ranges (lay : Layout) : List (Nat × Nat) :=
  (0, SIZEOF_ZONE) ::
    ((match lay.zoneNormalAt with
      | some a => [(a, SIZEOF_ZONE)]
      | none => []) ++ lay.pools.map (fun p => (p.offset, p.size)))

/-- No two of the structures laid out share a byte. -/
def layoutApart (lay : Layout) : Prop :=
  lay.ranges.Pairwise (fun a b => a.1 + a.2 ≤ b.1 ∨ b.1 + b.2 ≤ a.1)

instance (lay : Layout) : Decidable (layoutApart lay) := by
  unfold layoutApart
  infer_instance

/-- The loop of `init_pmm`, run for at most `fuel` iterations on the memory
map of `mbt`, lays out the zone headers and the pools without overlap.  The
code computes the address of every new DMA pool from `zone_DMA` alone, so a
DMA pool made once `zone_normal` exists is written over the Normal zone; the
two regions of the model are the code's memory exactly when this holds. -/
def laysOutApart (fuel : Nat) (boot : BootEnv) (mbt : multiboot_info_t) : Prop :=
  (layout_iter fuel boot fuel (init_start mbt) layout_start).returns
    (fun r => layoutApart r.2)

instance (fuel : Nat) (boot : BootEnv) (mbt : multiboot_info_t) :
    Decidable (laysOutApart fuel boot mbt) := by
  unfold laysOutApart
  infer_instance

/-- One usable record: 1 MiB at 1 MiB. -/
def mbt_one_mib : multiboot_info_t :=
  { flags := 0x40, mmap := [usable_record 0x100000 0x100000] }

/-! ## Outcomes: rewriting rules -/

@[simp] theorem Outcome.ok_bind {α β : Type} (a : α) (f : α → Outcome β) :
    (Outcome.ok a >>= f) = f a := rfl
@[simp] theorem Outcome.ok_bind_fn {α β : Type} (a : α) (f : α → Outcome β) :
    (Outcome.ok a).bind f = f a := rfl
@[simp] theorem Outcome.pure_eq_ok {α : Type} (a : α) : (pure a : Outcome α) = Outcome.ok a := rfl

theorem Outcome.bind_eq_ok {α β : Type} {x : Outcome α} {f : α → Outcome β} {b : β}
    (h : (x >>= f) = Outcome.ok b) : ∃ a, x = Outcome.ok a ∧ f a = Outcome.ok b := by
  cases x with
  | ok a => exact ⟨a, rfl, h⟩
  | fault => cases h
  | outOfFuel => cases h
  | aborted => cases h

theorem Outcome.bind_fn_eq_ok {α β : Type} {x : Outcome α} {f : α → Outcome β} {b : β}
    (h : x.bind f = Outcome.ok b) : ∃ a, x = Outcome.ok a ∧ f a = Outcome.ok b :=
  Outcome.bind_eq_ok h

/-! ## Bit ranges: the loops run to their end -/

theorem set_bit_ok (m : List Nat) (i : Nat) (h : i / 32 < m.length) :
    ∃ m1, set_bit m i = Outcome.ok m1 ∧ m1.length = m.length := by
  simp [set_bit, List.getElem?_eq_getElem h]

theorem unset_bit_ok (m : List Nat) (i : Nat) (h : i / 32 < m.length) :
    ∃ m1, unset_bit m i = Outcome.ok m1 ∧ m1.length = m.length := by
  simp [unset_bit, List.getElem?_eq_getElem h]

theorem range_lead_ok (op : List Nat → Nat → Outcome (List Nat))
    (hop : ∀ m i, i / 32 < m.length → ∃ m1, op m i = Outcome.ok m1 ∧ m1.length = m.length)
    (e : Nat) (he : e + 33 < U32) :
    ∀ (fuel : Nat) (map : List Nat) (i : Nat), i ≤ e + 1 → e < 32 * map.length →
      e + 2 ≤ fuel + i →
      ∃ m1 i1, range_lead op fuel map i e = Outcome.ok (m1, i1) ∧ m1.length = map.length ∧
        i ≤ i1 ∧ i1 ≤ e + 1 := by
  intro fuel
  induction fuel with
  | zero => intro map i h1 _ h3; omega
  | succ n ih =>
    intro map i h1 h2 h3
    rw [range_lead]
    by_cases hc : i ≤ e ∧ i % 32 ≠ 0
    · rw [if_pos hc]
      obtain ⟨m1, hm1, hl⟩ := hop map i (by omega)
      have hu : uadd i 1 = i + 1 := by
        simp only [uadd, U32] at he ⊢; omega
      rw [hm1, Outcome.ok_bind_fn, hu]
      obtain ⟨m2, i2, h, hl2, hi, hi2⟩ := ih m1 (i + 1) (by omega) (by omega) (by omega)
      exact ⟨m2, i2, h, by omega, by omega, hi2⟩
    · rw [if_neg hc]
      exact ⟨map, i, rfl, rfl, le_refl _, h1⟩

theorem range_words_ok (val e : Nat) (he : e + 33 < U32) :
    ∀ (fuel : Nat) (map : List Nat) (i : Nat), i ≤ e + 1 → e < 32 * map.length →
      e + 2 ≤ fuel + i →
      ∃ m1 i1, range_words val fuel map i e = Outcome.ok (m1, i1) ∧ m1.length = map.length ∧
        i ≤ i1 ∧ i1 ≤ e + 1 := by
  intro fuel
  induction fuel with
  | zero => intro map i h1 _ h3; omega
  | succ n ih =>
    intro map i h1 h2 h3
    rw [range_words]
    have hu : uadd i 32 = i + 32 := by
      simp only [uadd, U32] at he ⊢; omega
    rw [hu]
    by_cases hc : i + 32 ≤ e
    · rw [if_pos hc, if_pos (by omega)]
      obtain ⟨m2, i2, h, hl2, hi, hi2⟩ :=
        ih (map.set (i / 32) val) (i + 32) (by omega) (by simpa using h2) (by omega)
      exact ⟨m2, i2, h, by simpa using hl2, by omega, hi2⟩
    · rw [if_neg hc]
      exact ⟨map, i, rfl, rfl, le_refl _, h1⟩

theorem range_tail_ok (op : List Nat → Nat → Outcome (List Nat))
    (hop : ∀ m i, i / 32 < m.length → ∃ m1, op m i = Outcome.ok m1 ∧ m1.length = m.length)
    (e : Nat) (he : e + 33 < U32) :
    ∀ (fuel : Nat) (map : List Nat) (i : Nat), i ≤ e + 1 → e < 32 * map.length →
      e + 2 ≤ fuel + i →
      ∃ m1, range_tail op fuel map i e = Outcome.ok m1 ∧ m1.length = map.length := by
  intro fuel
  induction fuel with
  | zero => intro map i h1 _ h3; omega
  | succ n ih =>
    intro map i h1 h2 h3
    rw [range_tail]
    by_cases hc : i ≤ e
    · rw [if_pos hc]
      obtain ⟨m1, hm1, hl⟩ := hop map i (by omega)
      have hu : uadd i 1 = i + 1 := by
        simp only [uadd, U32] at he ⊢; omega
      rw [hm1, Outcome.ok_bind_fn, hu]
      obtain ⟨m2, h, hl2⟩ := ih m1 (i + 1) (by omega) (by omega) (by omega)
      exact ⟨m2, h, by omega⟩
    · rw [if_neg hc]
      exact ⟨map, rfl, rfl⟩

/-- Inside the bitmap and away from the top of the `uint32_t` range, the three
loops run to their end and keep the number of words. -/
theorem range_bits_ok (op : List Nat → Nat → Outcome (List Nat)) (val : Nat)
    (hop : ∀ m i, i / 32 < m.length → ∃ m1, op m i = Outcome.ok m1 ∧ m1.length = m.length)
    (fuel : Nat) (map : List Nat) (s e : Nat) (hs : s ≤ e + 1) (hm : e < 32 * map.length)
    (he : e + 33 < U32) (hf : e + 2 ≤ fuel) :
    ∃ m1, range_bits op val fuel map s e = Outcome.ok m1 ∧ m1.length = map.length := by
  obtain ⟨m1, i1, h1, l1, a1, b1⟩ := range_lead_ok op hop e he fuel map s hs hm (by omega)
  obtain ⟨m2, i2, h2, l2, a2, b2⟩ :=
    range_words_ok val e he fuel m1 i1 b1 (by omega) (by omega)
  obtain ⟨m3, h3, l3⟩ := range_tail_ok op hop e he fuel m2 i2 b2 (by omega) (by omega)
  refine ⟨m3, ?_, by omega⟩
  simp [range_bits, h1, h2, h3]

theorem set_bits_ok (fuel : Nat) (map : List Nat) (s e : Nat) (hs : s ≤ e + 1)
    (hm : e < 32 * map.length) (he : e + 33 < U32) (hf : e + 2 ≤ fuel) :
    ∃ m1, set_bits fuel map s e = Outcome.ok m1 ∧ m1.length = map.length :=
  range_bits_ok set_bit _ set_bit_ok fuel map s e hs hm he hf

theorem unset_bits_ok (fuel : Nat) (map : List Nat) (s e : Nat) (hs : s ≤ e + 1)
    (hm : e < 32 * map.length) (he : e + 33 < U32) (hf : e + 2 ≤ fuel) :
    ∃ m1, unset_bits fuel map s e = Outcome.ok m1 ∧ m1.length = map.length :=
  range_bits_ok unset_bit _ unset_bit_ok fuel map s e hs hm he hf

/-! ## Bits: what the primitives compute -/

theorem and_one_shiftLeft (w k : Nat) :
    w &&& (1 <<< k) = if w.testBit k then 2 ^ k else 0 := by
  rw [Nat.one_shiftLeft]
  apply Nat.eq_of_testBit_eq
  intro i
  rw [Nat.testBit_and, Nat.testBit_two_pow]
  by_cases hk : k = i
  · subst hk
    cases h : w.testBit k <;> simp [Nat.testBit_two_pow_self]
  · cases h : w.testBit k <;> simp [hk, Nat.testBit_two_pow]

theorem mask_test (w k : Nat) : (w &&& (1 <<< k) != 0) = w.testBit k := by
  rw [and_one_shiftLeft]
  cases h : w.testBit k
  · simp
  · have : 2 ^ k ≠ 0 := by positivity
    simp [this]

theorem test_bit_eq (map : List Nat) (i : Nat) (h : i / 32 < map.length) :
    test_bit map i = Outcome.ok (bitOf map i) := by
  simp [test_bit, bitOf, List.getElem?_eq_getElem h, mask_test, List.getD_eq_getElem?_getD]

theorem test_bit_fault (map : List Nat) (i : Nat) (h : map.length ≤ i / 32) :
    test_bit map i = Outcome.fault := by
  simp [test_bit, List.getElem?_eq_none h]

theorem bitOf_set (map : List Nat) (k w j : Nat) (hk : k < map.length) :
    bitOf (map.set k w) j = if j / 32 = k then w.testBit (j % 32) else bitOf map j := by
  unfold bitOf
  by_cases h : j / 32 = k
  · subst h
    simp [List.getD_eq_getElem?_getD, List.getElem?_set_self hk]
  · have h2 : k ≠ j / 32 := fun e => h e.symm
    simp [List.getD_eq_getElem?_getD, List.getElem?_set_ne h2, h]

theorem wordsOk_set (map : List Nat) (k w : Nat) (hw : w < U32) (h : wordsOk map) :
    wordsOk (map.set k w) := by
  intro x hx
  rcases List.mem_or_eq_of_mem_set hx with h1 | h1
  · exact h x h1
  · rw [h1]; exact hw

theorem set_bit_spec : BitOpSpec set_bit true := by
  intro m i r h
  unfold set_bit at h
  split at h
  · rename_i w hw
    cases h
    have hlt : i / 32 < m.length := by
      rcases List.getElem?_eq_some_iff.mp hw with ⟨hl, _⟩
      exact hl
    have hget : m.getD (i / 32) 0 = w := by
      simp [List.getD_eq_getElem?_getD, hw]
    refine ⟨hlt, by simp, ?_, ?_⟩
    · intro j
      rw [bitOf_set _ _ _ _ hlt]
      by_cases hj : j = i
      · subst hj
        simp [Nat.testBit_two_pow_self, Nat.one_shiftLeft]
      · rw [if_neg hj]
        by_cases hd : j / 32 = i / 32
        · rw [if_pos hd]
          have hm : i % 32 ≠ j % 32 := by omega
          simp [Nat.one_shiftLeft, Nat.testBit_two_pow, hm, bitOf, hd, hw]
        · rw [if_neg hd]
    · intro hok
      apply wordsOk_set _ _ _ _ hok
      have hwlt : w < 2 ^ 32 := by
        have := hok w (List.mem_iff_getElem?.mpr ⟨_, hw⟩)
        simpa [U32] using this
      have h2 : 1 <<< (i % 32) < 2 ^ 32 := by
        rw [Nat.one_shiftLeft]
        exact Nat.pow_lt_pow_right (by decide) (by omega)
      have := Nat.or_lt_two_pow hwlt h2
      simpa [U32] using this
  · cases h

theorem unset_bit_spec : BitOpSpec unset_bit false := by
  intro m i r h
  unfold unset_bit at h
  split at h
  · rename_i w hw
    cases h
    have hlt : i / 32 < m.length := by
      rcases List.getElem?_eq_some_iff.mp hw with ⟨hl, _⟩
      exact hl
    have hget : m.getD (i / 32) 0 = w := by
      simp [List.getD_eq_getElem?_getD, hw]
    have hones : ∀ t, t < 32 → Nat.testBit 0xFFFFFFFF t = true := by
      intro t ht
      have : (0xFFFFFFFF : Nat) = 2 ^ 32 - 1 := by decide
      rw [this, Nat.testBit_two_pow_sub_one]
      simpa using ht
    refine ⟨hlt, by simp, ?_, ?_⟩
    · intro j
      rw [bitOf_set _ _ _ _ hlt]
      have hj32 : j % 32 < 32 := Nat.mod_lt _ (by decide)
      by_cases hj : j = i
      · subst hj
        simp [Nat.testBit_two_pow_self, Nat.one_shiftLeft, hones _ hj32]
      · rw [if_neg hj]
        by_cases hd : j / 32 = i / 32
        · rw [if_pos hd]
          have hm : i % 32 ≠ j % 32 := by omega
          simp [Nat.one_shiftLeft, Nat.testBit_two_pow, hm, bitOf, hd, hw, hones _ hj32]
        · rw [if_neg hd]
    · intro hok
      apply wordsOk_set _ _ _ _ hok
      have hwlt : w < U32 := hok w (List.mem_iff_getElem?.mpr ⟨_, hw⟩)
      exact lt_of_le_of_lt Nat.and_le_left hwlt
  · cases h

theorem range_lead_spec (op : List Nat → Nat → Outcome (List Nat)) (v : Bool)
    (hop : BitOpSpec op v) (e : Nat) (he : e + 33 < U32) :
    ∀ (fuel : Nat) (map : List Nat) (i : Nat) (r : List Nat) (i1 : Nat),
      range_lead op fuel map i e = Outcome.ok (r, i1) →
      i ≤ i1 ∧ (i1 ≤ e → i1 % 32 = 0) ∧ (e < i → i1 = i) ∧ (i ≤ e + 1 → i1 ≤ e + 1) ∧
      r.length = map.length ∧
      (∀ j, bitOf r j = if i ≤ j ∧ j < i1 then v else bitOf map j) ∧
      (wordsOk map → wordsOk r) := by
  intro fuel
  induction fuel with
  | zero => intro map i r i1 h; simp [range_lead] at h
  | succ n ih =>
    intro map i r i1 h
    rw [range_lead] at h
    by_cases hc : i ≤ e ∧ i % 32 ≠ 0
    · rw [if_pos hc] at h
      obtain ⟨m, hm, h⟩ := Outcome.bind_fn_eq_ok h
      have hu : uadd i 1 = i + 1 := by
        simp only [uadd, U32] at he ⊢; omega
      rw [hu] at h
      obtain ⟨_, hl, hb, hw⟩ := hop map i m hm
      obtain ⟨a1, a2, a3, a4, a5, a6, a7⟩ := ih m (i + 1) r i1 h
      refine ⟨by omega, a2, by omega, fun _ => a4 (by omega), by omega, ?_, fun hh => a7 (hw hh)⟩
      intro j
      rw [a6 j, hb j]
      by_cases hj : j = i
      · subst hj
        have : ¬ (j + 1 ≤ j ∧ j < i1) := by omega
        rw [if_neg this, if_pos rfl, if_pos (by omega)]
      · rw [if_neg hj]
        by_cases h1 : i + 1 ≤ j ∧ j < i1
        · rw [if_pos h1, if_pos (by omega)]
        · rw [if_neg h1, if_neg (by omega)]
    · rw [if_neg hc] at h
      cases h
      refine ⟨le_refl _, by omega, fun _ => rfl, fun h => h, rfl, ?_, fun h => h⟩
      intro j
      rw [if_neg (by omega)]

theorem range_words_spec (val : Nat) (v : Bool) (hval : ∀ t, t < 32 → val.testBit t = v)
    (hlt : val < U32) (e : Nat) (he : e + 33 < U32) :
    ∀ (fuel : Nat) (map : List Nat) (i : Nat) (r : List Nat) (i2 : Nat),
      range_words val fuel map i e = Outcome.ok (r, i2) →
      i + 32 < U32 → (i % 32 = 0 ∨ e < i + 32) →
      i ≤ i2 ∧ (i2 = i ∨ i2 ≤ e) ∧ e < i2 + 32 ∧
      r.length = map.length ∧
      (∀ j, bitOf r j = if i ≤ j ∧ j < i2 then v else bitOf map j) ∧
      (wordsOk map → wordsOk r) := by
  intro fuel
  induction fuel with
  | zero => intro map i r i2 h; simp [range_words] at h
  | succ n ih =>
    intro map i r i2 h hi hal
    rw [range_words] at h
    have hu : uadd i 32 = i + 32 := by
      simp only [uadd, U32] at hi ⊢; omega
    rw [hu] at h
    by_cases hc : i + 32 ≤ e
    · rw [if_pos hc] at h
      by_cases hin : i / 32 < map.length
      · rw [if_pos hin] at h
        have hi32 : i % 32 = 0 := by omega
        obtain ⟨a1, a2, a3, a4, a5, a6⟩ :=
          ih (map.set (i / 32) val) (i + 32) r i2 h (by simp only [U32] at he ⊢; omega)
            (by omega)
        refine ⟨by omega, by omega, a3, by simpa using a4, ?_,
          fun hh => a6 (wordsOk_set _ _ _ hlt hh)⟩
        intro j
        rw [a5 j, bitOf_set _ _ _ _ hin]
        by_cases hj : j / 32 = i / 32
        · rw [if_pos hj, hval _ (Nat.mod_lt _ (by decide))]
          have : ¬ (i + 32 ≤ j ∧ j < i2) := by omega
          rw [if_neg this, if_pos (by omega)]
        · rw [if_neg hj]
          by_cases h1 : i + 32 ≤ j ∧ j < i2
          · rw [if_pos h1, if_pos (by omega)]
          · rw [if_neg h1, if_neg (by omega)]
      · rw [if_neg hin] at h
        cases h
    · rw [if_neg hc] at h
      cases h
      refine ⟨le_refl _, Or.inl rfl, by omega, rfl, ?_, fun h => h⟩
      intro j
      rw [if_neg (by omega)]

theorem range_tail_spec (op : List Nat → Nat → Outcome (List Nat)) (v : Bool)
    (hop : BitOpSpec op v) (e : Nat) (he : e + 33 < U32) :
    ∀ (fuel : Nat) (map : List Nat) (i : Nat) (r : List Nat),
      range_tail op fuel map i e = Outcome.ok r →
      r.length = map.length ∧
      (∀ j, bitOf r j = if i ≤ j ∧ j ≤ e then v else bitOf map j) ∧
      (wordsOk map → wordsOk r) := by
  intro fuel
  induction fuel with
  | zero => intro map i r h; simp [range_tail] at h
  | succ n ih =>
    intro map i r h
    rw [range_tail] at h
    by_cases hc : i ≤ e
    · rw [if_pos hc] at h
      obtain ⟨m, hm, h⟩ := Outcome.bind_fn_eq_ok h
      have hu : uadd i 1 = i + 1 := by
        simp only [uadd, U32] at he ⊢; omega
      rw [hu] at h
      obtain ⟨_, hl, hb, hw⟩ := hop map i m hm
      obtain ⟨a1, a2, a3⟩ := ih m (i + 1) r h
      refine ⟨by omega, ?_, fun hh => a3 (hw hh)⟩
      intro j
      rw [a2 j, hb j]
      by_cases hj : j = i
      · subst hj
        have : ¬ (j + 1 ≤ j ∧ j ≤ e) := by omega
        rw [if_neg this, if_pos rfl, if_pos (by omega)]
      · rw [if_neg hj]
        by_cases h1 : i + 1 ≤ j ∧ j ≤ e
        · rw [if_pos h1, if_pos (by omega)]
        · rw [if_neg h1, if_neg (by omega)]
    · rw [if_neg hc] at h
      cases h
      refine ⟨rfl, ?_, fun h => h⟩
      intro j
      rw [if_neg (by omega)]

/-- What the three loops compute when they return: every bit of `[s, e]` has
the value `v`, every other bit is the one of the bitmap they started from. -/
theorem range_bits_spec (op : List Nat → Nat → Outcome (List Nat)) (val : Nat) (v : Bool)
    (hop : BitOpSpec op v) (hval : ∀ t, t < 32 → val.testBit t = v) (hlt : val < U32)
    (fuel : Nat) (map : List Nat) (s e : Nat) (r : List Nat)
    (hs : s + 33 < U32) (he : e + 33 < U32)
    (h : range_bits op val fuel map s e = Outcome.ok r) :
    r.length = map.length ∧
    (∀ j, bitOf r j = if s ≤ j ∧ j ≤ e then v else bitOf map j) ∧
    (wordsOk map → wordsOk r) := by
  unfold range_bits at h
  obtain ⟨r1, h1, h⟩ := Outcome.bind_fn_eq_ok h
  obtain ⟨r2, h2, h3⟩ := Outcome.bind_fn_eq_ok h
  obtain ⟨a1, a2, a3, a4, a5, a6, a7⟩ :=
    range_lead_spec op v hop e he fuel map s r1.1 r1.2 h1
  have hi1 : r1.2 + 32 < U32 := by
    simp only [U32] at hs he ⊢
    by_cases hse : s ≤ e + 1
    · have := a4 hse; omega
    · have := a3 (by omega); omega
  have hal : r1.2 % 32 = 0 ∨ e < r1.2 + 32 := by
    by_cases hh : r1.2 ≤ e
    · exact Or.inl (a2 hh)
    · exact Or.inr (by omega)
  obtain ⟨b1, b2, b3, b4, b5, b6⟩ :=
    range_words_spec val v hval hlt e he fuel r1.1 r1.2 r2.1 r2.2 h2 hi1 hal
  obtain ⟨c1, c2, c3⟩ := range_tail_spec op v hop e he fuel r2.1 r2.2 r h3
  refine ⟨by omega, ?_, fun hh => c3 (b6 (a7 hh))⟩
  intro j
  rw [c2 j, b5 j, a6 j]
  by_cases hse : s ≤ e + 1
  · have := a4 hse
    by_cases hj : s ≤ j ∧ j ≤ e
    · rw [if_pos hj]
      by_cases h4 : r2.2 ≤ j ∧ j ≤ e
      · rw [if_pos h4]
      · rw [if_neg h4]
        by_cases h5 : r1.2 ≤ j ∧ j < r2.2
        · rw [if_pos h5]
        · rw [if_neg h5, if_pos (by omega)]
    · rw [if_neg hj, if_neg (by omega), if_neg (by omega), if_neg (by omega)]
  · have := a3 (by omega)
    rw [if_neg (by omega), if_neg (by omega), if_neg (by omega), if_neg (by omega)]

theorem set_bits_spec (fuel : Nat) (map : List Nat) (s e : Nat) (r : List Nat)
    (hs : s + 33 < U32) (he : e + 33 < U32) (h : set_bits fuel map s e = Outcome.ok r) :
    r.length = map.length ∧
    (∀ j, bitOf r j = if s ≤ j ∧ j ≤ e then true else bitOf map j) ∧
    (wordsOk map → wordsOk r) := by
  refine range_bits_spec set_bit 0xFFFFFFFF true set_bit_spec ?_ (by decide) fuel map s e r hs he h
  intro t ht
  have : (0xFFFFFFFF : Nat) = 2 ^ 32 - 1 := by decide
  rw [this, Nat.testBit_two_pow_sub_one]
  simpa using ht

theorem unset_bits_spec (fuel : Nat) (map : List Nat) (s e : Nat) (r : List Nat)
    (hs : s + 33 < U32) (he : e + 33 < U32) (h : unset_bits fuel map s e = Outcome.ok r) :
    r.length = map.length ∧
    (∀ j, bitOf r j = if s ≤ j ∧ j ≤ e then false else bitOf map j) ∧
    (wordsOk map → wordsOk r) := by
  refine range_bits_spec unset_bit 0 false unset_bit_spec ?_ (by decide) fuel map s e r hs he h
  intro t _
  simp

/-! ## `pmm_alloc` -/

theorem alloc_scan_null (inner : Nat) (bitMap : List Nat) (request maxBlocks : Nat) :
    ∀ (fuel offset : Nat) (isSet : Bool) (r : Option Nat),
      alloc_scan inner bitMap request maxBlocks fuel offset isSet = Outcome.ok r → r = none := by
  intro fuel
  induction fuel with
  | zero => intro offset isSet r h; simp [alloc_scan] at h
  | succ n ih =>
    intro offset isSet r h
    rw [alloc_scan] at h
    split at h
    · split at h
      · cases h
      · split at h
        · obtain ⟨s, _, h⟩ := Outcome.bind_eq_ok h
          obtain ⟨q, _, h⟩ := Outcome.bind_eq_ok h
          split at h
          · exact ih _ _ _ h
          · split at h
            · cases h; rfl
            · exact ih _ _ _ h
        · exact ih _ _ _ h
    · cases h; rfl

theorem alloc_pools_null (inner : Nat) (st : PmmState) (request : Nat) :
    ∀ (fuel : Nat) (ptr : Option PoolPtr) (r : Option Nat),
      alloc_pools inner st request fuel ptr = Outcome.ok r → r = none := by
  intro fuel
  induction fuel with
  | zero => intro ptr r h; simp [alloc_pools] at h
  | succ n ih =>
    intro ptr r h
    cases ptr with
    | none => simp [alloc_pools] at h; exact h.symm
    | some p =>
      rw [alloc_pools] at h
      split at h
      · cases h
      · split at h
        · split at h
          · cases h
          · split at h
            · cases h
            · exact alloc_scan_null _ _ _ _ _ _ _ _ h
        · exact ih _ _ h

/-- Whatever the state and the request, a call of `pmm_alloc` that returns
hands back `NULL` and the state it was called in. -/
theorem pmm_alloc_never_allocates (fuel : Nat) (st : PmmState) (request : Nat)
    (r : Option Nat) (st1 : PmmState)
    (h : pmm_alloc fuel st request = Outcome.ok (r, st1)) : r = none ∧ st1 = st := by
  unfold pmm_alloc at h
  split at h
  · cases h; exact ⟨rfl, rfl⟩
  · split at h
    · cases h
    · split at h
      · cases h; exact ⟨rfl, rfl⟩
      · obtain ⟨q, hq, h⟩ := Outcome.bind_eq_ok h
        cases h
        exact ⟨alloc_pools_null _ _ _ _ _ _ hq, rfl⟩


/-- C8. `pmm_alloc(0)` returns `NULL`, and every request `> 0` for which
`zone_normal->freeBlocks < CEIL(request, BLOCK_SIZE)` returns `NULL`; in both
cases the state handed back (every zone, pool and buddy counter, every bitmap
word) is the state the call was made in. -/
theorem C8_pmm_alloc_rejects_without_mutation (fuel : Nat) (st : PmmState) :
    pmm_alloc fuel st 0 = Outcome.ok (none, st) ∧
    ∀ (zn : zone) (request : Nat), st.zone_normal = some zn → 0 < request →
      zn.freeBlocks < CEIL request BLOCK_SIZE →
      pmm_alloc fuel st request = Outcome.ok (none, st) := by
  refine ⟨by simp [pmm_alloc], ?_⟩
  intro zn request hz hpos hlt
  have hne : request ≠ 0 := Nat.pos_iff_ne_zero.mp hpos
  simp [pmm_alloc, hne, hz, hlt]

/-- C8, at a concrete state: one free block in the Normal zone, requests of 0
bytes and of 8192 bytes (two blocks). -/
theorem C8_pmm_alloc_rejects_witness :
    pmm_alloc 10 state_one_block 0 = Outcome.ok (none, state_one_block) ∧
    pmm_alloc 10 state_one_block 8192 = Outcome.ok (none, state_one_block) :=
  ⟨(C8_pmm_alloc_rejects_without_mutation 10 state_one_block).1,
   (C8_pmm_alloc_rejects_without_mutation 10 state_one_block).2
     { zoneType := 1, freeBlocks := 1, zonePhysicalSize := 66, poolStart := some (.normal 0) }
     8192 rfl (by decide) (by decide)⟩

set_option maxRecDepth 100000 in
/-- C1, the code at the failing input.  After `init_pmm` on one usable record
of 64 blocks at 16 MiB (kernel elsewhere) the Normal zone holds one pool with
64 free blocks and an all-clear bitmap; `pmm_alloc(4096)` returns `NULL`, not
`pool.start = 0x1000000`, and leaves the state as it was: no bit is set, no
counter is decremented. -/
theorem C1_pmm_alloc_free_pool_returns_null :
    (init_pmm 300 boot_low_kernel mbt_one_normal).returns (fun st =>
      st.zone_normal.map zone.freeBlocks = some 64 ∧
      st.normalRegion.map (fun p => (p.start, p.freeBlocks)) = [(0x1000000, 64)] ∧
      st.normalRegion.map (fun p => (bottomBuddy p).map buddy.bitMap) = [some [0, 0]] ∧
      pmm_alloc 300 st 4096 = Outcome.ok (none, st)) := by
  decide!

set_option maxRecDepth 100000 in
/-- C9, the code at the failing input.  After `init_pmm` on two usable records
(4 blocks at 16 MiB, 64 blocks at 32 MiB) with the kernel reserved in blocks 1
and 2 of the first pool, the first pool has `freeBlocks = 4 >= 2` and bitmap
word `0xFFFFFFF6` (only bits 0 and 3 clear: no run of two), the second pool is
linked after it and is all clear; `pmm_alloc(8192)` returns `NULL` from the
scan of the first pool and the second pool is never searched. -/
theorem C9_pmm_alloc_stops_at_first_candidate_pool :
    (init_pmm 300 boot_high_kernel mbt_two_normal).returns (fun st =>
      st.zone_normal.map (fun z => (z.freeBlocks, z.poolStart)) = some (68, some (.normal 0)) ∧
      st.normalRegion.map (fun p => (p.start, p.freeBlocks, p.nextPool))
        = [(0x1000000, 4, some (.normal 1)), (0x2000000, 64, none)] ∧
      st.normalRegion.map (fun p => (bottomBuddy p).map buddy.bitMap)
        = [some [0xFFFFFFF6], some [0, 0]] ∧
      pmm_alloc 300 st 8192 = Outcome.ok (none, st)) := by
  decide!

/-! ## `init_pmm` at concrete memory maps -/

set_option maxRecDepth 100000 in
/-- C2, the code at the failing input.  For the map whose first record lies at
16 MiB and whose second record lies at 1 MiB, `init_pmm` creates one DMA pool
(`dma 0`, 64 blocks) and two Normal pools (`normal 0`, 256 blocks, `normal 1`,
192 blocks).  The list of `zone_DMA` is `dma 0 -> normal 1` (256 blocks in all,
`zone_DMA.freeBlocks` is 64) and the list of `zone_normal` is `normal 0` alone
(256 blocks, `zone_normal->freeBlocks` is 448). -/
theorem C2_high_record_first_breaks_pool_lists :
    (init_pmm 300 boot_low_kernel mbt_high_first).returns (fun st =>
      st.dmaRegion.map (fun p => (p.start, p.freeBlocks)) = [(0x100000, 64)] ∧
      st.normalRegion.map (fun p => (p.start, p.freeBlocks))
        = [(0x1000000, 256), (0x140000, 192)] ∧
      st.zone_DMA.freeBlocks = 64 ∧
      reachable st 8 st.zone_DMA.poolStart = [.dma 0, .normal 1] ∧
      freeBlocksSum st (reachable st 8 st.zone_DMA.poolStart) = 256 ∧
      st.zone_normal.map zone.freeBlocks = some 448 ∧
      st.zone_normal.map (fun z => reachable st 8 z.poolStart) = some [.normal 0] ∧
      st.zone_normal.map (fun z => freeBlocksSum st (reachable st 8 z.poolStart)) = some 256) := by
  decide!

set_option maxRecDepth 100000 in
/-- C5, the code at the failing input.  For one usable record of 1 MiB that
starts one block below the 16 MiB ceiling, `init_pmm` adds a DMA pool with
`start = 0xFFF000` and `freeBlocks = 64`, whose last byte `0x103EFFF` lies
above `DMA_MAX_ADDRESS`. -/
theorem C5_dma_pool_crosses_ceiling :
    (init_pmm 300 boot_low_kernel mbt_at_ceiling).returns (fun st =>
      st.dmaRegion.map (fun p => (p.start, p.freeBlocks)) = [(0xFFF000, 64)] ∧
      st.dmaRegion.all (fun p =>
        decide (0 < p.freeBlocks ∧
          DMA_MAX_ADDRESS < p.start + p.freeBlocks * BLOCK_SIZE - 1)) = true) := by
  decide!

set_option maxRecDepth 100000 in
/-- C6, the code at the failing input.  The record of one block at 1 MiB has
`length_low / BLOCK_SIZE = 1 <= 64` and its last byte `0x100FFF` is below the
ceiling, yet the first iteration of the loop of `init_pmm` builds a DMA pool of
64 blocks, rewrites the record to base `0x140000` and length `0xFFFC1000` and
leaves the cursor on it. -/
theorem C6_small_record_is_split :
    (usable_record 0x100000 0x1000).length_low / BLOCK_SIZE
        ≤ DMA_TOTAL_BLOCKS - (init_start mbt_one_block).pmm.zone_DMA.freeBlocks ∧
    (usable_record 0x100000 0x1000).base_low + (usable_record 0x100000 0x1000).length_low - 1
        ≤ DMA_MAX_ADDRESS ∧
    (init_iter 300 boot_low_kernel 1 (init_start mbt_one_block)).returns (fun st =>
      st.pmm.dmaRegion.map (fun p => (p.start, p.freeBlocks)) = [(0x100000, 64)] ∧
      st.mmap = [usable_record 0x140000 0xFFFC1000] ∧ st.sectionIdx = 0) := by
  decide!

/-! ## The DMA budget -/

theorem setPool_zone_DMA (s : PmmState) (p : PoolPtr) (v : pool) :
    (setPool s p v).zone_DMA = s.zone_DMA := by
  cases p <;> rfl

theorem setPool_zone_normal (s : PmmState) (p : PoolPtr) (v : pool) :
    (setPool s p v).zone_normal = s.zone_normal := by
  cases p <;> rfl

theorem link_previous_zone_DMA {s s1 : PmmState} {pp : Option PoolPtr} {cur : PoolPtr}
    (h : link_previous s pp cur = Outcome.ok s1) : s1.zone_DMA = s.zone_DMA := by
  unfold link_previous at h
  split at h
  · cases h
  · split at h
    · cases h
    · cases h; exact setPool_zone_DMA _ _ _

theorem init_normal_zone_DMA {fuel : Nat} {boot : BootEnv} {st st1 : InitState}
    {sec : mmap_entry_t} (h : init_normal fuel boot st sec = Outcome.ok st1) :
    st1.pmm.zone_DMA = st.pmm.zone_DMA := by
  unfold init_normal at h
  simp only [Outcome.pure_eq_ok] at h
  obtain ⟨bm1, _, h⟩ := Outcome.bind_eq_ok h
  obtain ⟨bm2, _, h⟩ := Outcome.bind_eq_ok h
  obtain ⟨s1, hs1, h⟩ := Outcome.bind_eq_ok h
  cases h
  simp only
  split at hs1
  · cases hs1; rfl
  · exact (link_previous_zone_DMA hs1).trans rfl

theorem init_dma_zone_DMA_le {boot : BootEnv} {st st1 : InitState} {sec : mmap_entry_t}
    (h : init_dma boot st sec = Outcome.ok st1)
    (hlt : st.pmm.zone_DMA.freeBlocks < DMA_TOTAL_BLOCKS) :
    st1.pmm.zone_DMA.freeBlocks ≤ DMA_TOTAL_BLOCKS := by
  unfold init_dma at h
  simp only [Outcome.pure_eq_ok] at h
  obtain ⟨s1, hs1, h⟩ := Outcome.bind_eq_ok h
  have hz : s1.zone_DMA.freeBlocks = st.pmm.zone_DMA.freeBlocks := by
    split at hs1
    · cases hs1; rfl
    · rw [link_previous_zone_DMA hs1]
  simp only [DMA_TOTAL_BLOCKS] at hlt ⊢
  split at h
  · rename_i hc
    obtain ⟨p1, _, h⟩ := Outcome.bind_eq_ok h
    cases h
    simp only [hz, usub, uadd, U32, DMA_TOTAL_BLOCKS, BLOCK_SIZE] at hc ⊢
    omega
  · obtain ⟨p1, _, h⟩ := Outcome.bind_eq_ok h
    cases h
    simp only [hz, usub, uadd, U32, DMA_TOTAL_BLOCKS, BLOCK_SIZE]
    split <;> omega

theorem init_step_zone_DMA_le {fuel : Nat} {boot : BootEnv} {st st1 : InitState}
    (h : init_step fuel boot st = Outcome.ok st1)
    (hle : st.pmm.zone_DMA.freeBlocks ≤ DMA_TOTAL_BLOCKS) :
    st1.pmm.zone_DMA.freeBlocks ≤ DMA_TOTAL_BLOCKS := by
  unfold init_step at h
  split at h
  · cases h
  · split at h
    · cases h; exact hle
    · split at h
      · rw [init_normal_zone_DMA h]; exact hle
      · rename_i hc
        apply init_dma_zone_DMA_le h
        simp only [not_or, not_le, ge_iff_le] at hc
        exact hc.2

theorem init_iter_zone_DMA_le {fuel : Nat} {boot : BootEnv} :
    ∀ (k : Nat) (st st1 : InitState), init_iter fuel boot k st = Outcome.ok st1 →
      st.pmm.zone_DMA.freeBlocks ≤ DMA_TOTAL_BLOCKS →
      st1.pmm.zone_DMA.freeBlocks ≤ DMA_TOTAL_BLOCKS := by
  intro k
  induction k with
  | zero => intro st st1 h hle; simp [init_iter] at h; subst h; exact hle
  | succ n ih =>
    intro st st1 h hle
    rw [init_iter] at h
    split at h
    · obtain ⟨s, hs, h⟩ := Outcome.bind_fn_eq_ok h
      exact ih _ _ h (init_step_zone_DMA_le hs hle)
    · cases h; exact hle

theorem reserve_pools_zone_DMA (resStart resEnd inner : Nat) :
    ∀ (fuel : Nat) (st st1 : PmmState) (ptr : Option PoolPtr),
      reserve_pools resStart resEnd inner fuel st ptr = Outcome.ok st1 →
      st1.zone_DMA = st.zone_DMA := by
  intro fuel
  induction fuel with
  | zero => intro st st1 ptr h; simp [reserve_pools] at h
  | succ n ih =>
    intro st st1 ptr h
    cases ptr with
    | none => simp [reserve_pools] at h; subst h; rfl
    | some p =>
      rw [reserve_pools] at h
      split at h
      · cases h
      · split at h
        · split at h
          · cases h
          · split at h
            · cases h
            · split at h
              · cases h
              · obtain ⟨bm, _, h⟩ := Outcome.bind_eq_ok h
                cases h
                exact setPool_zone_DMA _ _ _
        · exact ih _ _ _ h

theorem reserve_kernel_zone_DMA {fuel : Nat} {boot : BootEnv} {st st1 : PmmState}
    (h : reserve_kernel fuel boot st = Outcome.ok st1) : st1.zone_DMA = st.zone_DMA := by
  unfold reserve_kernel at h
  split at h
  · cases h
  · exact reserve_pools_zone_DMA _ _ _ _ _ _ _ h

theorem init_pmm_eq_ok {fuel : Nat} {boot : BootEnv} {mbt : multiboot_info_t} {final : PmmState}
    (h : init_pmm fuel boot mbt = Outcome.ok final) :
    ∃ st, init_iter fuel boot fuel (init_start mbt) = Outcome.ok st ∧
      ¬ st.sectionIdx < st.mmap.length ∧ reserve_kernel fuel boot st.pmm = Outcome.ok final := by
  unfold init_pmm at h
  split at h
  · cases h
  · obtain ⟨st, hst, h⟩ := Outcome.bind_eq_ok h
    unfold init_loop at hst
    obtain ⟨s, hs, hst⟩ := Outcome.bind_eq_ok hst
    split at hst
    · cases hst
    · cases hst
      exact ⟨_, hs, by assumption, h⟩

/-- C4. Starting from the state in which `init_pmm` enters its loop, after any
number `k` of iterations `zone_DMA.freeBlocks <= DMA_TOTAL_BLOCKS` (64), and the
same bound holds for the state `init_pmm` returns. -/
theorem C4_dma_budget_never_exceeded (fuel : Nat) (boot : BootEnv) (mbt : multiboot_info_t) :
    (∀ (k : Nat) (st : InitState), init_iter fuel boot k (init_start mbt) = Outcome.ok st →
      st.pmm.zone_DMA.freeBlocks ≤ DMA_TOTAL_BLOCKS) ∧
    (∀ final : PmmState, init_pmm fuel boot mbt = Outcome.ok final →
      final.zone_DMA.freeBlocks ≤ DMA_TOTAL_BLOCKS) := by
  have h0 : (init_start mbt).pmm.zone_DMA.freeBlocks ≤ DMA_TOTAL_BLOCKS := by
    simp [init_start, DMA_TOTAL_BLOCKS]
  refine ⟨fun k st h => init_iter_zone_DMA_le k _ _ h h0, ?_⟩
  intro final h
  obtain ⟨st, hst, _, hr⟩ := init_pmm_eq_ok h
  rw [reserve_kernel_zone_DMA hr]
  exact init_iter_zone_DMA_le _ _ _ hst h0

theorem Outcome.returns_of_isOk {α : Type} {o : Outcome α} {P : α → Prop}
    (hok : o.isOk = true) (h : ∀ a, o = Outcome.ok a → P a) : o.returns P := by
  cases o with
  | ok a => exact h a rfl
  | fault => cases hok
  | outOfFuel => cases hok
  | aborted => cases hok

set_option maxRecDepth 100000 in
/-- C4, at a concrete memory map (first record at 16 MiB, second at 1 MiB):
after two iterations of the loop and after `init_pmm`. -/
theorem C4_dma_budget_witness :
    (init_iter 300 boot_low_kernel 2 (init_start mbt_high_first)).returns
      (fun st => st.pmm.zone_DMA.freeBlocks ≤ DMA_TOTAL_BLOCKS) ∧
    (init_pmm 300 boot_low_kernel mbt_high_first).returns
      (fun final => final.zone_DMA.freeBlocks ≤ DMA_TOTAL_BLOCKS) :=
  ⟨Outcome.returns_of_isOk (by decide!)
     (fun st h => (C4_dma_budget_never_exceeded 300 boot_low_kernel mbt_high_first).1 2 st h),
   Outcome.returns_of_isOk (by decide!)
     (fun final h => (C4_dma_budget_never_exceeded 300 boot_low_kernel mbt_high_first).2 final h)⟩

/-! ## One record cut into a DMA pool and a Normal pool -/

theorem rawWords_length (boot : BootEnv) (wc : Nat) : (rawWords boot wc).length = wc := by
  simp [rawWords]

/-- The two bitmap calls of the Normal-zone branch run to their end for a
pool of at least one block. -/
theorem normal_bitmap_ok (fuel : Nat) (boot : BootEnv) (blocks : Nat) (h1 : 1 ≤ blocks)
    (h2 : blocks < 1048576) (hf : blocks + 64 ≤ fuel) :
    ∃ bm1 bm2,
      unset_bits fuel (rawWords boot (blocks / 32 + (if blocks % 32 ≠ 0 then 1 else 0))) 0
          (usub blocks 1) = Outcome.ok bm1 ∧
      set_bits fuel bm1 blocks
          (usub (umul (blocks / 32 + (if blocks % 32 ≠ 0 then 1 else 0)) 32) 1) = Outcome.ok bm2 ∧
      bm2.length = blocks / 32 + (if blocks % 32 ≠ 0 then 1 else 0) := by
  obtain ⟨wc, hwc⟩ : ∃ wc, wc = blocks / 32 + (if blocks % 32 ≠ 0 then 1 else 0) := ⟨_, rfl⟩
  have hb : blocks ≤ 32 * wc ∧ 32 * wc ≤ blocks + 31 := by
    rw [hwc]; split <;> omega
  rw [← hwc]
  have e1 : usub blocks 1 = blocks - 1 := by simp only [usub, U32]; omega
  have e2 : usub (umul wc 32) 1 = 32 * wc - 1 := by simp only [usub, umul, U32]; omega
  rw [e1, e2]
  obtain ⟨bm1, hbm1, hl1⟩ := unset_bits_ok fuel (rawWords boot wc) 0 (blocks - 1) (by omega)
    (by rw [rawWords_length]; omega) (by simp only [U32]; omega) (by omega)
  rw [rawWords_length] at hl1
  obtain ⟨bm2, hbm2, hl2⟩ := set_bits_ok fuel bm1 blocks (32 * wc - 1) (by omega)
    (by omega) (by simp only [U32]; omega) (by omega)
  exact ⟨bm1, bm2, hbm1, hbm2, by omega⟩

/-- The Normal-zone branch when `zone_normal` is still `NULL`: it creates the
zone descriptor and its first pool. -/
theorem init_normal_first (fuel : Nat) (boot : BootEnv) (st : InitState) (sec : mmap_entry_t)
    (hz : st.pmm.zone_normal = none) (h1 : 1 ≤ sec.length_low / BLOCK_SIZE)
    (h2 : sec.length_low < U32) (hf : sec.length_low / BLOCK_SIZE + 64 ≤ fuel) :
    ∃ bm : List Nat,
      init_normal fuel boot st sec = Outcome.ok
        { pmm :=
            { zone_DMA := st.pmm.zone_DMA,
              zone_normal := some
                { zoneType := 1, freeBlocks := sec.length_low / BLOCK_SIZE,
                  zonePhysicalSize := uadd SIZEOF_ZONE (uadd SIZEOF_POOL (uadd SIZEOF_BUDDY
                    (umul (sec.length_low / BLOCK_SIZE / 32
                      + (if sec.length_low / BLOCK_SIZE % 32 ≠ 0 then 1 else 0)) 4))),
                  poolStart := some (.normal st.pmm.normalRegion.length) },
              dmaRegion := st.pmm.dmaRegion,
              normalRegion := st.pmm.normalRegion ++
                [{ freeBlocks := sec.length_low / BLOCK_SIZE, start := sec.base_low,
                   poolPhysicalSize := uadd SIZEOF_POOL (uadd SIZEOF_BUDDY
                     (umul (sec.length_low / BLOCK_SIZE / 32
                       + (if sec.length_low / BLOCK_SIZE % 32 ≠ 0 then 1 else 0)) 4)),
                   poolBuddiesTop := some 0, poolBuddiesBottom := some 0, nextPool := none,
                   region :=
                     [{ buddyOrder := 1,
                        mapWordCount := sec.length_low / BLOCK_SIZE / 32
                          + (if sec.length_low / BLOCK_SIZE % 32 ≠ 0 then 1 else 0),
                        freeBlocks := sec.length_low / BLOCK_SIZE,
                        maxFreeBlocks := sec.length_low / BLOCK_SIZE,
                        bitMap := bm, nextBuddy := none, prevBuddy := none }] }] },
          mmap := st.mmap, sectionIdx := st.sectionIdx + 1,
          previousPool := some (.normal st.pmm.normalRegion.length) } := by
  have hb : sec.length_low / BLOCK_SIZE < 1048576 := by
    simp only [BLOCK_SIZE, U32] at h2 ⊢; omega
  obtain ⟨bm1, bm2, hbm1, hbm2, _⟩ :=
    normal_bitmap_ok fuel boot (sec.length_low / BLOCK_SIZE) h1 hb hf
  have e0 : uadd 0 (sec.length_low / BLOCK_SIZE) = sec.length_low / BLOCK_SIZE := by
    simp only [uadd, U32]; omega
  refine ⟨bm2, ?_⟩
  unfold init_normal
  simp only [hz, hbm1, hbm2, Outcome.ok_bind, Outcome.pure_eq_ok, e0]

/-! ## Bit ranges against the bit-by-bit loops -/

/-- Two bitmaps of `uint32_t` words with the same number of words and the same
bits are the same list of words. -/
theorem bitmap_ext (a b : List Nat) (hl : a.length = b.length) (ha : wordsOk a)
    (hb : wordsOk b) (h : ∀ j, bitOf a j = bitOf b j) : a = b := by
  apply List.ext_getElem hl
  intro k h1 h2
  apply Nat.eq_of_testBit_eq
  intro t
  by_cases ht : t < 32
  · have := h (32 * k + t)
    unfold bitOf at this
    have e1 : (32 * k + t) / 32 = k := by omega
    have e2 : (32 * k + t) % 32 = t := by omega
    rw [e1, e2] at this
    simpa [List.getD_eq_getElem?_getD, List.getElem?_eq_getElem h1,
      List.getElem?_eq_getElem h2] using this
  · have hat : a[k] < 2 ^ t := by
      have h3 : a[k] < U32 := ha _ (List.getElem_mem h1)
      have h4 : 2 ^ 32 ≤ 2 ^ t := Nat.pow_le_pow_right (by decide) (by omega)
      simp only [U32] at h3
      omega
    have hbt : b[k] < 2 ^ t := by
      have h3 : b[k] < U32 := hb _ (List.getElem_mem h2)
      have h4 : 2 ^ 32 ≤ 2 ^ t := Nat.pow_le_pow_right (by decide) (by omega)
      simp only [U32] at h3
      omega
    rw [Nat.testBit_lt_two_pow hat, Nat.testBit_lt_two_pow hbt]

theorem each_bit_spec (op : List Nat → Nat → Outcome (List Nat)) (v : Bool)
    (hop : BitOpSpec op v) :
    ∀ (count : Nat) (map : List Nat) (s : Nat) (r : List Nat),
      each_bit op count map s = Outcome.ok r →
      r.length = map.length ∧
      (∀ j, bitOf r j = if s ≤ j ∧ j < s + count then v else bitOf map j) ∧
      (wordsOk map → wordsOk r) := by
  intro count
  induction count with
  | zero =>
    intro map s r h
    simp only [each_bit] at h
    cases h
    refine ⟨rfl, ?_, fun h => h⟩
    intro j
    rw [if_neg (by omega)]
  | succ n ih =>
    intro map s r h
    rw [each_bit] at h
    obtain ⟨m, hm, h⟩ := Outcome.bind_fn_eq_ok h
    obtain ⟨_, hl, hb, hw⟩ := hop map s m hm
    obtain ⟨a1, a2, a3⟩ := ih m (s + 1) r h
    refine ⟨by omega, ?_, fun hh => a3 (hw hh)⟩
    intro j
    rw [a2 j, hb j]
    by_cases hj : j = s
    · subst hj
      have : ¬ (j + 1 ≤ j ∧ j < j + 1 + n) := by omega
      rw [if_neg this, if_pos rfl, if_pos (by omega)]
    · rw [if_neg hj]
      by_cases h1 : s + 1 ≤ j ∧ j < s + 1 + n
      · rw [if_pos h1, if_pos (by omega)]
      · rw [if_neg h1, if_neg (by omega)]

theorem each_bit_ok (op : List Nat → Nat → Outcome (List Nat))
    (hop : ∀ m i, i / 32 < m.length → ∃ m1, op m i = Outcome.ok m1 ∧ m1.length = m.length) :
    ∀ (count : Nat) (map : List Nat) (s : Nat), s + count ≤ 32 * map.length →
      ∃ r, each_bit op count map s = Outcome.ok r := by
  intro count
  induction count with
  | zero => intro map s _; exact ⟨map, rfl⟩
  | succ n ih =>
    intro map s h
    rw [each_bit]
    obtain ⟨m1, hm1, hl⟩ := hop map s (by omega)
    rw [hm1, Outcome.ok_bind_fn]
    exact ih m1 (s + 1) (by omega)

/-- The three loops and the bit-by-bit loop give the same bitmap, for a range
inside a bitmap of `uint32_t` words that ends below `2 ^ 32 - 33`. -/
theorem range_bits_eq_each (op : List Nat → Nat → Outcome (List Nat)) (val : Nat) (v : Bool)
    (hop : BitOpSpec op v)
    (hok : ∀ m i, i / 32 < m.length → ∃ m1, op m i = Outcome.ok m1 ∧ m1.length = m.length)
    (hval : ∀ t, t < 32 → val.testBit t = v) (hlt : val < U32)
    (fuel : Nat) (map : List Nat) (s e : Nat) (hse : s ≤ e) (he : e + 33 < U32)
    (hin : e / 32 < map.length) (hw : wordsOk map) (hf : e + 2 ≤ fuel) :
    ∃ r, range_bits op val fuel map s e = Outcome.ok r ∧
      each_bit op (e + 1 - s) map s = Outcome.ok r ∧
      ∀ j, bitOf r j = if s ≤ j ∧ j ≤ e then v else bitOf map j := by
  obtain ⟨r1, h1, _⟩ := range_bits_ok op val hok fuel map s e (by omega) (by omega) he hf
  obtain ⟨r2, h2⟩ := each_bit_ok op hok (e + 1 - s) map s (by omega)
  obtain ⟨a1, a2, a3⟩ :=
    range_bits_spec op val v hop hval hlt fuel map s e r1 (by simp only [U32] at he ⊢; omega) he h1
  obtain ⟨b1, b2, b3⟩ := each_bit_spec op v hop (e + 1 - s) map s r2 h2
  have heq : r2 = r1 := by
    apply bitmap_ext _ _ (by omega) (b3 hw) (a3 hw)
    intro j
    rw [a2 j, b2 j]
    by_cases hj : s ≤ j ∧ j ≤ e
    · rw [if_pos hj, if_pos (by omega)]
    · rw [if_neg hj, if_neg (by omega)]
  subst heq
  exact ⟨r2, h1, h2, a2⟩
/-- At `offsetEnd = 2 ^ 32 - 33` with `offsetStart` in the same word, the first
loop leaves `i = 2 ^ 32 - 32`, `i + 32` wraps to `0` and the word loop stores
to the word after the one that holds `offsetEnd`. -/
theorem set_bits_wraps (map : List Nat) (hl : map.length = 134217727) :
    set_bits 4 map 4294967263 4294967263 = Outcome.fault ∧
    ∃ r, set_each map 4294967263 4294967263 = Outcome.ok r := by
  have hin : 4294967263 / 32 < map.length := by omega
  obtain ⟨m1, hm1, hl1⟩ := set_bit_ok map 4294967263 hin
  have hu1 : uadd 4294967263 1 = 4294967264 := by decide
  have hu2 : uadd 4294967264 32 = 0 := by decide
  have c1 : (4294967263 : Nat) ≤ 4294967263 ∧ 4294967263 % 32 ≠ 0 := by decide
  have c2 : ¬ ((4294967264 : Nat) ≤ 4294967263 ∧ 4294967264 % 32 ≠ 0) := by decide
  have c3 : (0 : Nat) ≤ 4294967263 := by decide
  have c4 : ¬ (4294967264 / 32 < m1.length) := by omega
  constructor
  · unfold set_bits range_bits
    rw [range_lead, if_pos c1, hm1, Outcome.ok_bind_fn, hu1, range_lead,
      if_neg c2, Outcome.ok_bind_fn]
    simp only []
    rw [range_words, hu2, if_pos c3, if_neg c4]
    rfl
  · refine ⟨m1, ?_⟩
    unfold set_each
    rw [show 4294967263 + 1 - 4294967263 = 1 from by decide, each_bit, hm1, Outcome.ok_bind_fn,
      each_bit]
theorem wordsOk_replicate (n w : Nat) (hw : w < U32) : wordsOk (List.replicate n w) := by
  intro x hx
  rw [List.eq_of_mem_replicate hx]
  exact hw

/-- C17 as stated fails at the top of the range.  For `start = end =
2 ^ 32 - 33` (below `2 ^ 32 - 32`, inside a bitmap of `2 ^ 27 - 1` words)
`set_bits` runs into a store outside the bitmap, while calling `set_bit` on
that one offset returns a bitmap. -/
theorem C17_counterexample :
    ((4294967263 : Nat) ≤ 4294967263 ∧ (4294967263 : Nat) < 2 ^ 32 - 32 ∧
      4294967263 / 32 < (List.replicate 134217727 0).length ∧
      wordsOk (List.replicate 134217727 0)) ∧
    set_bits 4 (List.replicate 134217727 0) 4294967263 4294967263 = Outcome.fault ∧
    ∃ r, set_each (List.replicate 134217727 0) 4294967263 4294967263 = Outcome.ok r :=
  ⟨⟨le_refl _, by decide, by rw [List.length_replicate]; decide,
      wordsOk_replicate _ _ (by decide)⟩,
    set_bits_wraps _ (List.length_replicate _ _)⟩

/-- C17, amended: for every bitmap of `uint32_t` words and all offsets
`start <= end` inside it with `end < 2 ^ 32 - 33`, `set_bits` returns exactly
the bitmap obtained by calling `set_bit` on each offset `start, ..., end`, and
`unset_bits` the one obtained by calling `unset_bit` on each of them; no bit
outside `[start, end]` changes. -/
theorem C17_three_phase_equals_bit_by_bit (fuel : Nat) (map : List Nat) (s e : Nat)
    (hse : s ≤ e) (he : e + 33 < U32) (hin : e / 32 < map.length) (hw : wordsOk map)
    (hf : e + 2 ≤ fuel) :
    (∃ r, set_bits fuel map s e = Outcome.ok r ∧ set_each map s e = Outcome.ok r ∧
      ∀ j, ¬ (s ≤ j ∧ j ≤ e) → bitOf r j = bitOf map j) ∧
    (∃ r, unset_bits fuel map s e = Outcome.ok r ∧ unset_each map s e = Outcome.ok r ∧
      ∀ j, ¬ (s ≤ j ∧ j ≤ e) → bitOf r j = bitOf map j) := by
  have hones : ∀ t, t < 32 → Nat.testBit 0xFFFFFFFF t = true := by
    intro t ht
    have : (0xFFFFFFFF : Nat) = 2 ^ 32 - 1 := by decide
    rw [this, Nat.testBit_two_pow_sub_one]
    simpa using ht
  constructor
  · obtain ⟨r, h1, h2, h3⟩ := range_bits_eq_each set_bit 0xFFFFFFFF true set_bit_spec
      set_bit_ok hones (by decide) fuel map s e hse he hin hw hf
    exact ⟨r, h1, h2, fun j hj => by rw [h3 j, if_neg hj]⟩
  · obtain ⟨r, h1, h2, h3⟩ := range_bits_eq_each unset_bit 0 false unset_bit_spec
      unset_bit_ok (fun t _ => by simp) (by decide) fuel map s e hse he hin hw hf
    exact ⟨r, h1, h2, fun j hj => by rw [h3 j, if_neg hj]⟩

/-- C17, amended, at a concrete bitmap of three words and the range `[5, 70]`. -/
theorem C17_three_phase_witness :
    (∃ r, set_bits 100 [0xFFFF, 0, 0x80000000] 5 70 = Outcome.ok r ∧
      set_each [0xFFFF, 0, 0x80000000] 5 70 = Outcome.ok r) ∧
    (∃ r, unset_bits 100 [0xFFFF, 0, 0x80000000] 5 70 = Outcome.ok r ∧
      unset_each [0xFFFF, 0, 0x80000000] 5 70 = Outcome.ok r) := by
  have h := C17_three_phase_equals_bit_by_bit 100 [0xFFFF, 0, 0x80000000] 5 70 (by decide)
    (by decide) (by decide) (by unfold wordsOk; decide) (by decide)
  obtain ⟨⟨r1, a1, a2, _⟩, ⟨r2, b1, b2, _⟩⟩ := h
  exact ⟨⟨r1, a1, a2⟩, ⟨r2, b1, b2⟩⟩

/-- C18 as stated fails: on the one-word bitmap `[1]` (bit 0 set),
`set_bits(map, 0, 0)` followed by `unset_bits(map, 0, 0)` gives `[0]`. -/
theorem C18_counterexample :
    (set_bits 5 [1] 0 0).bind (fun m => unset_bits 5 m 0 0) = Outcome.ok [0] ∧
    ([0] : List Nat) ≠ [1] := by
  decide

/-- C18, amended: for every bitmap of `uint32_t` words and all offsets
`start <= end` inside it (`end < 2 ^ 32 - 33`), `set_bits` followed by
`unset_bits` over the same bounds yields the original bitmap with every bit of
`[start, end]` cleared; it is the original bitmap when those bits were clear
before. -/
theorem C18_set_then_unset (fuel : Nat) (map : List Nat) (s e : Nat)
    (hse : s ≤ e) (he : e + 33 < U32) (hin : e / 32 < map.length) (hw : wordsOk map)
    (hf : e + 2 ≤ fuel) :
    ∃ r1 r2, set_bits fuel map s e = Outcome.ok r1 ∧ unset_bits fuel r1 s e = Outcome.ok r2 ∧
      (∀ j, bitOf r2 j = if s ≤ j ∧ j ≤ e then false else bitOf map j) ∧
      ((∀ j, s ≤ j → j ≤ e → bitOf map j = false) → r2 = map) := by
  have hs : s + 33 < U32 := by simp only [U32] at he ⊢; omega
  obtain ⟨r1, h1, l1⟩ := set_bits_ok fuel map s e (by omega) (by omega) he hf
  obtain ⟨_, b1, w1⟩ := set_bits_spec fuel map s e r1 hs he h1
  obtain ⟨r2, h2, l2⟩ := unset_bits_ok fuel r1 s e (by omega) (by omega) he hf
  obtain ⟨_, b2, w2⟩ := unset_bits_spec fuel r1 s e r2 hs he h2
  have hb : ∀ j, bitOf r2 j = if s ≤ j ∧ j ≤ e then false else bitOf map j := by
    intro j
    rw [b2 j, b1 j]
    by_cases hj : s ≤ j ∧ j ≤ e
    · rw [if_pos hj, if_pos hj]
    · rw [if_neg hj, if_neg hj, if_neg hj]
  refine ⟨r1, r2, h1, h2, hb, ?_⟩
  intro hclear
  apply bitmap_ext _ _ (by omega) (w2 (w1 hw)) hw
  intro j
  rw [hb j]
  by_cases hj : s ≤ j ∧ j ≤ e
  · rw [if_pos hj, hclear j hj.1 hj.2]
  · rw [if_neg hj]

/-- C18, amended, at a concrete bitmap whose bits 5..70 are clear. -/
theorem C18_set_then_unset_witness :
    ∃ r1, set_bits 100 [0x1F, 0, 0x80000000] 5 70 = Outcome.ok r1 ∧
      unset_bits 100 r1 5 70 = Outcome.ok [0x1F, 0, 0x80000000] := by
  obtain ⟨r1, r2, h1, h2, _, h4⟩ := C18_set_then_unset 100 [0x1F, 0, 0x80000000] 5 70
    (by decide) (by decide) (by decide) (by unfold wordsOk; decide) (by decide)
  have hc : ∀ j, 5 ≤ j → j ≤ 70 → bitOf [0x1F, 0, 0x80000000] j = false := by
    intro j h5 h70
    have : j ∈ List.range' 5 66 := by
      rw [List.mem_range']; exact ⟨j - 5, by omega, by omega⟩
    revert j
    decide
  rw [h4 hc] at h2
  exact ⟨r1, h1, h2⟩
theorem setPool_lengths (s : PmmState) (p : PoolPtr) (v : pool) :
    (setPool s p v).normalRegion.length = s.normalRegion.length ∧
    (setPool s p v).dmaRegion.length = s.dmaRegion.length := by
  cases p <;> simp [setPool]

theorem link_previous_regions {s s1 : PmmState} {pp : Option PoolPtr} {cur : PoolPtr}
    (h : link_previous s pp cur = Outcome.ok s1) :
    s1.normalRegion.length = s.normalRegion.length ∧ s1.dmaRegion.length = s.dmaRegion.length := by
  unfold link_previous at h
  split at h
  · cases h
  · split at h
    · cases h
    · cases h
      exact setPool_lengths _ _ _

/-- C11. For a usable record with `n = length_low / BLOCK_SIZE >= 1` blocks, the
Normal-zone branch of `init_pmm` (given enough iterations, and a valid
`previousPool` when the zone already exists) places one new pool after the
pools of the zone; it owns exactly one buddy, of order 1, with `freeBlocks =
maxFreeBlocks = n`, `mapWordCount = CEIL(n, 32)`, top and bottom both pointing
to it, whose bitmap has bit `i` clear for `i < n` and set for
`n <= i < 32 * mapWordCount`; when `n` is a multiple of 32 the `set_bits` call
has `start > end` and returns the bitmap it was given. -/
theorem C11_normal_pool_bitmap (fuel : Nat) (boot : BootEnv) (st : InitState)
    (sec : mmap_entry_t) (hn : 1 ≤ sec.length_low / BLOCK_SIZE) (hu : sec.length_low < U32)
    (hf : sec.length_low / BLOCK_SIZE + 64 ≤ fuel)
    (hlink : st.pmm.zone_normal = none ∨
      ∃ pp q, st.previousPool = some pp ∧ getPool st.pmm pp = some q) :
    (∃ st1 p b, init_normal fuel boot st sec = Outcome.ok st1 ∧
      st1.pmm.normalRegion.length = st.pmm.normalRegion.length + 1 ∧
      st1.pmm.normalRegion[st.pmm.normalRegion.length]? = some p ∧
      p.start = sec.base_low ∧ p.freeBlocks = sec.length_low / BLOCK_SIZE ∧
      p.region = [b] ∧ p.poolBuddiesTop = some 0 ∧ p.poolBuddiesBottom = some 0 ∧
      b.buddyOrder = 1 ∧ b.freeBlocks = sec.length_low / BLOCK_SIZE ∧
      b.maxFreeBlocks = sec.length_low / BLOCK_SIZE ∧
      b.mapWordCount = CEIL (sec.length_low / BLOCK_SIZE) 32 ∧
      b.bitMap.length = b.mapWordCount ∧
      (∀ i, i < sec.length_low / BLOCK_SIZE → bitOf b.bitMap i = false) ∧
      (∀ i, sec.length_low / BLOCK_SIZE ≤ i → i < 32 * b.mapWordCount →
        bitOf b.bitMap i = true)) ∧
    (sec.length_low / BLOCK_SIZE % 32 = 0 → ∀ map : List Nat,
      set_bits fuel map (sec.length_low / BLOCK_SIZE)
        (usub (umul (CEIL (sec.length_low / BLOCK_SIZE) 32) 32) 1) = Outcome.ok map) := by
  have hb : sec.length_low / BLOCK_SIZE < 1048576 := by
    simp only [BLOCK_SIZE, U32] at hu ⊢; omega
  obtain ⟨n, hnd⟩ : ∃ n, n = sec.length_low / BLOCK_SIZE := ⟨_, rfl⟩
  rw [← hnd] at hn hf hb ⊢
  obtain ⟨wc, hwc⟩ : ∃ wc, wc = n / 32 + (if n % 32 ≠ 0 then 1 else 0) := ⟨_, rfl⟩
  have hwb : n ≤ 32 * wc ∧ 32 * wc ≤ n + 31 := by
    rw [hwc]; split <;> omega
  have e1 : usub n 1 = n - 1 := by simp only [usub, U32]; omega
  have e2 : usub (umul wc 32) 1 = 32 * wc - 1 := by simp only [usub, umul, U32]; omega
  have hceil : CEIL n 32 = wc := by rw [hwc]; rfl
  constructor
  · obtain ⟨bm1, bm2, hbm1, hbm2, hlen⟩ := normal_bitmap_ok fuel boot n hn hb hf
    rw [← hwc] at hbm1 hbm2 hlen
    have s1 := unset_bits_spec fuel _ 0 (usub n 1) bm1 (by decide)
      (by rw [e1]; simp only [U32]; omega) hbm1
    have s2 := set_bits_spec fuel bm1 n (usub (umul wc 32) 1) bm2
      (by simp only [U32]; omega) (by rw [e2]; simp only [U32]; omega) hbm2
    rw [e1] at s1
    rw [e2] at s2
    have hclear : ∀ i, i < n → bitOf bm2 i = false := by
      intro i hi
      rw [s2.2.1 i, if_neg (by omega), s1.2.1 i, if_pos (by omega)]
    have hset : ∀ i, n ≤ i → i < 32 * wc → bitOf bm2 i = true := by
      intro i h1 h2
      rw [s2.2.1 i, if_pos (by omega)]
    have key : ∀ (stf : InitState) (nr : List pool),
        stf.pmm.normalRegion = nr ++
          [{ freeBlocks := n, start := sec.base_low,
             poolPhysicalSize := uadd SIZEOF_POOL (uadd SIZEOF_BUDDY (umul wc 4)),
             poolBuddiesTop := some 0, poolBuddiesBottom := some 0, nextPool := none,
             region := [{ buddyOrder := 1, mapWordCount := wc, freeBlocks := n,
                          maxFreeBlocks := n, bitMap := bm2, nextBuddy := none,
                          prevBuddy := none }] }] →
        nr.length = st.pmm.normalRegion.length →
        ∃ st1 p b, Outcome.ok stf = Outcome.ok st1 ∧
          st1.pmm.normalRegion.length = st.pmm.normalRegion.length + 1 ∧
          st1.pmm.normalRegion[st.pmm.normalRegion.length]? = some p ∧
          p.start = sec.base_low ∧ p.freeBlocks = n ∧
          p.region = [b] ∧ p.poolBuddiesTop = some 0 ∧ p.poolBuddiesBottom = some 0 ∧
          b.buddyOrder = 1 ∧ b.freeBlocks = n ∧ b.maxFreeBlocks = n ∧
          b.mapWordCount = CEIL n 32 ∧ b.bitMap.length = b.mapWordCount ∧
          (∀ i, i < n → bitOf b.bitMap i = false) ∧
          (∀ i, n ≤ i → i < 32 * b.mapWordCount → bitOf b.bitMap i = true) := by
      intro stf nr h1 h2
      refine ⟨stf,
        { freeBlocks := n, start := sec.base_low,
          poolPhysicalSize := uadd SIZEOF_POOL (uadd SIZEOF_BUDDY (umul wc 4)),
          poolBuddiesTop := some 0, poolBuddiesBottom := some 0, nextPool := none,
          region := [{ buddyOrder := 1, mapWordCount := wc, freeBlocks := n,
                       maxFreeBlocks := n, bitMap := bm2, nextBuddy := none,
                       prevBuddy := none }] },
        { buddyOrder := 1, mapWordCount := wc, freeBlocks := n, maxFreeBlocks := n,
          bitMap := bm2, nextBuddy := none, prevBuddy := none },
        rfl, ?_, ?_, rfl, rfl, rfl, rfl, rfl, rfl, rfl, rfl, hceil.symm, hlen, hclear, hset⟩
      · rw [h1]; simp [h2]
      · rw [h1, ← h2]; simp
    unfold init_normal
    simp only [← hnd, ← hwc, hbm1, hbm2, Outcome.ok_bind, Outcome.pure_eq_ok]
    rcases hlink with hz | ⟨pp, q, hpp, hq⟩
    · simp only [hz, Outcome.ok_bind]
      exact key _ _ rfl rfl
    · cases hzn : st.pmm.zone_normal with
      | none =>
        simp only [Outcome.ok_bind]
        exact key _ _ rfl rfl
      | some z =>
        cases hps : z.poolStart with
        | none =>
          simp only [hps, Outcome.ok_bind]
          exact key _ _ rfl rfl
        | some z0 =>
          have hg : ∀ zn1 : Option zone,
              getPool { st.pmm with zone_normal := zn1 } pp = some q := by
            intro zn1
            cases pp <;> exact hq
          simp only [hps, link_previous, hpp, hg, Outcome.ok_bind]
          exact key _ _ rfl (setPool_lengths _ _ _).1
  · intro h32 map
    have hwc2 : 32 * wc = n := by rw [hwc, if_neg (by omega)]; omega
    rw [hceil, e2, hwc2]
    have c1 : ¬ (n ≤ n - 1 ∧ n % 32 ≠ 0) := by omega
    have hu32 : uadd n 32 = n + 32 := by simp only [uadd, U32]; omega
    have c2 : ¬ (n + 32 ≤ n - 1) := by omega
    have c3 : ¬ (n ≤ n - 1) := by omega
    obtain ⟨k, hk⟩ : ∃ k, fuel = k + 1 := ⟨fuel - 1, by omega⟩
    subst hk
    unfold set_bits range_bits
    rw [range_lead, if_neg c1, Outcome.ok_bind_fn]
    simp only []
    rw [range_words, hu32, if_neg c2, Outcome.ok_bind_fn]
    simp only []
    rw [range_tail, if_neg c3]

/-- C11, at the record of 64 blocks at 16 MiB, the first record of its map. -/
theorem C11_normal_pool_witness :
    ∃ st1, init_normal 200 boot_low_kernel (init_start mbt_one_normal)
        (usable_record 0x1000000 0x40000) = Outcome.ok st1 ∧
      st1.pmm.normalRegion.length = (init_start mbt_one_normal).pmm.normalRegion.length + 1 := by
  obtain ⟨⟨st1, _, _, h1, h2, _⟩, _⟩ :=
    C11_normal_pool_bitmap 200 boot_low_kernel (init_start mbt_one_normal)
      (usable_record 0x1000000 0x40000) (by decide) (by decide) (by decide) (Or.inl rfl)
  exact ⟨st1, h1, h2⟩

theorem word_all_ones (w : Nat) (hw : w < U32) (h : ∀ t, t < 32 → w.testBit t = true) :
    w = 0xFFFFFFFF := by
  have e : (0xFFFFFFFF : Nat) = 2 ^ 32 - 1 := by decide
  rw [e]
  apply Nat.eq_of_testBit_eq
  intro t
  rw [Nat.testBit_two_pow_sub_one]
  by_cases ht : t < 32
  · simp [ht, h t ht]
  · have : w < 2 ^ t := by
      have h4 : 2 ^ 32 ≤ 2 ^ t := Nat.pow_le_pow_right (by decide) (by omega)
      simp only [U32] at hw
      omega
    simp [ht, Nat.testBit_lt_two_pow this]

theorem bitOf_getElem (map : List Nat) (k t : Nat) (hk : k < map.length) (ht : t < 32) :
    bitOf map (32 * k + t) = (map[k]).testBit t := by
  unfold bitOf
  have e1 : (32 * k + t) / 32 = k := by omega
  have e2 : (32 * k + t) % 32 = t := by omega
  rw [e1, e2]
  simp [List.getD_eq_getElem?_getD, List.getElem?_eq_getElem hk]

theorem find_clear_from_found (map : List Nat) (maxBits o : Nat) (ho : o < maxBits)
    (hin : maxBits ≤ 32 * map.length) (hmb : maxBits < U32) (hclr : bitOf map o = false) :
    ∀ (fuel offset : Nat), offset ≤ o → (∀ j, offset ≤ j → j < o → bitOf map j = true) →
      o + 1 ≤ fuel + offset →
      find_clear_from map maxBits fuel offset = Outcome.ok (o : Int) := by
  intro fuel
  induction fuel with
  | zero => intro offset h1 _ h3; omega
  | succ n ih =>
    intro offset h1 h2 h3
    rw [find_clear_from, if_pos (by omega), test_bit_eq map offset (by omega),
      Outcome.ok_bind_fn]
    by_cases he : offset = o
    · subst he
      rw [hclr]
      simp
    · have hs : bitOf map offset = true := h2 offset (le_refl _) (by omega)
      have hu : uadd offset 1 = offset + 1 := by
        simp only [uadd, U32] at hmb ⊢; omega
      rw [hs, hu]
      simp only [Bool.true_eq_false, if_false]
      exact ih (offset + 1) (by omega) (fun j hj1 hj2 => h2 j (by omega) hj2) (by omega)

theorem find_scan_found (inner : Nat) (map : List Nat) (maxBits o : Nat) (ho : o < maxBits)
    (hin : maxBits ≤ 32 * map.length) (hmb : maxBits < U32) (hw : wordsOk map)
    (hclr : bitOf map o = false) (hset : ∀ j, j < o → bitOf map j = true)
    (hinner : 33 ≤ inner) :
    ∀ (fuel offset : Nat), offset % 32 = 0 → offset ≤ o → o + 32 ≤ 32 * fuel + offset →
      find_scan inner map maxBits fuel offset = Outcome.ok (o : Int) := by
  intro fuel
  induction fuel with
  | zero => intro offset h1 h2 h3; omega
  | succ n ih =>
    intro offset h1 h2 h3
    have hk : offset / 32 < map.length := by omega
    rw [find_scan, if_pos (by omega), List.getElem?_eq_getElem hk]
    simp only []
    by_cases hsame : o < offset + 32
    · have hne : map[offset / 32] ≠ 0xFFFFFFFF := by
        intro heq
        have hb := bitOf_getElem map (offset / 32) (o - offset) hk (by omega)
        have e1 : 32 * (offset / 32) + (o - offset) = o := by omega
        rw [e1, hclr, heq] at hb
        have e : (0xFFFFFFFF : Nat) = 2 ^ 32 - 1 := by decide
        rw [e, Nat.testBit_two_pow_sub_one] at hb
        have : o - offset < 32 := by omega
        simp [this] at hb
      rw [if_pos hne]
      exact find_clear_from_found map maxBits o ho hin hmb hclr inner offset h2
        (fun j _ hj2 => hset j hj2) (by omega)
    · have heq : map[offset / 32] = 0xFFFFFFFF := by
        apply word_all_ones _ (hw _ (List.getElem_mem hk))
        intro t ht
        have hb := bitOf_getElem map (offset / 32) t hk ht
        rw [← hb]
        exact hset _ (by omega)
      have hu : uadd offset 32 = offset + 32 := by
        simp only [uadd, U32] at hmb ⊢; omega
      rw [if_neg (by simp [heq]), hu]
      exact ih (offset + 32) (by omega) (by omega) (by omega)

theorem find_scan_none (inner : Nat) (map : List Nat) (maxBits : Nat) (h32 : maxBits % 32 = 0)
    (hin : maxBits ≤ 32 * map.length) (hmb : maxBits < U32) (hw : wordsOk map) :
    ∀ (fuel offset : Nat), offset % 32 = 0 → offset ≤ maxBits →
      (∀ j, offset ≤ j → j < maxBits → bitOf map j = true) →
      maxBits + 32 ≤ 32 * fuel + offset →
      find_scan inner map maxBits fuel offset = Outcome.ok (-1) := by
  intro fuel
  induction fuel with
  | zero => intro offset h1 h0 h2 h3; omega
  | succ n ih =>
    intro offset h1 h0 h2 h3
    rw [find_scan]
    by_cases hc : offset < maxBits
    · have hk : offset / 32 < map.length := by omega
      rw [if_pos hc, List.getElem?_eq_getElem hk]
      simp only []
      have heq : map[offset / 32] = 0xFFFFFFFF := by
        apply word_all_ones _ (hw _ (List.getElem_mem hk))
        intro t ht
        have hb := bitOf_getElem map (offset / 32) t hk ht
        rw [← hb]
        exact h2 _ (by omega) (by omega)
      have hu : uadd offset 32 = offset + 32 := by
        simp only [uadd, U32] at hmb ⊢; omega
      rw [if_neg (by simp [heq]), hu]
      exact ih (offset + 32) (by omega) (by omega) (fun j hj1 hj2 => h2 j (by omega) hj2)
        (by omega)
    · rw [if_neg hc]

/-- C19. For a bitmap of `maxWords` `uint32_t` words (`32 * maxWords < 2 ^ 32`)
`findFirstFreeBit` returns the least offset below `32 * maxWords` whose bit
`test_bit` reads as clear when there is one, and `-1` exactly when all
`32 * maxWords` bits are set; on a map of all-ones words it returns `-1`. -/
theorem C19_findFirstFreeBit (fuel : Nat) (map : List Nat) (maxWords : Nat)
    (hmw : 32 * maxWords < U32) (hlen : maxWords ≤ map.length) (hw : wordsOk map)
    (hf : 32 * maxWords + 33 ≤ fuel) :
    (∀ o, o < 32 * maxWords → test_bit map o = Outcome.ok false →
      (∀ j, j < o → test_bit map j = Outcome.ok true) →
      findFirstFreeBit fuel map maxWords = Outcome.ok (o : Int)) ∧
    (findFirstFreeBit fuel map maxWords = Outcome.ok (-1) ↔
      ∀ j, j < 32 * maxWords → test_bit map j = Outcome.ok true) ∧
    findFirstFreeBit fuel (List.replicate maxWords 0xFFFFFFFF) maxWords = Outcome.ok (-1) := by
  have hum : umul maxWords 32 = 32 * maxWords := by
    simp only [umul, U32] at hmw ⊢; omega
  have htb : ∀ j, j < 32 * maxWords → test_bit map j = Outcome.ok (bitOf map j) :=
    fun j hj => test_bit_eq map j (by omega)
  have found : ∀ o, o < 32 * maxWords → bitOf map o = false →
      (∀ j, j < o → bitOf map j = true) →
      findFirstFreeBit fuel map maxWords = Outcome.ok (o : Int) := by
    intro o ho hclr hset
    unfold findFirstFreeBit
    rw [hum]
    exact find_scan_found fuel map (32 * maxWords) o ho (by omega) hmw hw hclr hset (by omega)
      fuel 0 (by decide) (by omega) (by omega)
  have none : (∀ j, j < 32 * maxWords → bitOf map j = true) →
      findFirstFreeBit fuel map maxWords = Outcome.ok (-1) := by
    intro hall
    unfold findFirstFreeBit
    rw [hum]
    exact find_scan_none fuel map (32 * maxWords) (by omega) (by omega) hmw hw fuel 0
      (by decide) (by omega) (fun j _ hj => hall j hj) (by omega)
  refine ⟨?_, ⟨?_, ?_⟩, ?_⟩
  · intro o ho hclr hset
    apply found o ho
    · have := htb o ho
      rw [hclr] at this
      exact (Outcome.ok.inj this).symm
    · intro j hj
      have := htb j (by omega)
      rw [hset j hj] at this
      exact (Outcome.ok.inj this).symm
  · intro hres j hj
    rw [htb j hj]
    by_contra hne
    have hex : ∃ o, o < 32 * maxWords ∧ bitOf map o = false := by
      refine ⟨j, hj, ?_⟩
      cases hb : bitOf map j
      · rfl
      · rw [hb] at hne; exact absurd rfl hne
    classical
    have hmin := Nat.find_spec hex
    have hlt := fun k (hk : k < Nat.find hex) => Nat.find_min hex hk
    have := found (Nat.find hex) hmin.1 hmin.2 (by
      intro k hk
      have h1 := hlt k hk
      cases hb : bitOf map k
      · exact absurd ⟨by omega, hb⟩ h1
      · rfl)
    rw [this] at hres
    have h2 := Outcome.ok.inj hres
    omega
  · intro hall
    apply none
    intro j hj
    have := htb j hj
    rw [hall j hj] at this
    exact (Outcome.ok.inj this).symm
  · have hw2 : wordsOk (List.replicate maxWords 0xFFFFFFFF) :=
      wordsOk_replicate _ _ (by decide)
    unfold findFirstFreeBit
    rw [hum]
    apply find_scan_none fuel _ (32 * maxWords) (by omega) (by simp) hmw hw2 fuel 0
      (by decide) (by omega) _ (by omega)
    intro j _ hj
    have hk : j / 32 < (List.replicate maxWords 0xFFFFFFFF).length := by
      rw [List.length_replicate]; omega
    have hb := bitOf_getElem _ (j / 32) (j % 32) hk (Nat.mod_lt _ (by decide))
    have e1 : 32 * (j / 32) + j % 32 = j := by omega
    rw [e1] at hb
    rw [hb, List.getElem_replicate]
    have e : (0xFFFFFFFF : Nat) = 2 ^ 32 - 1 := by decide
    rw [e, Nat.testBit_two_pow_sub_one]
    simp [Nat.mod_lt]

/-- C19 at a two-word bitmap whose first clear bit is bit 35: the scan skips
the all-ones first word and returns 35; the all-ones map gives `-1`. -/
theorem C19_findFirstFreeBit_witness :
    findFirstFreeBit 100 [0xFFFFFFFF, 0xFFFFFFF7] 2 = Outcome.ok 35 ∧
    findFirstFreeBit 100 (List.replicate 2 0xFFFFFFFF) 2 = Outcome.ok (-1) := by
  have h := C19_findFirstFreeBit 100 [0xFFFFFFFF, 0xFFFFFFF7] 2 (by decide) (by decide)
    (by unfold wordsOk; decide) (by decide)
  exact ⟨h.1 35 (by decide) (by decide) (by decide), h.2.2⟩
/-! ## Records shorter than one block -/

theorem range_words_never_exits (val : Nat) :
    ∀ (fuel : Nat) (map : List Nat) (i : Nat) (r : List Nat × Nat),
      range_words val fuel map i 0xFFFFFFFF ≠ Outcome.ok r := by
  intro fuel
  induction fuel with
  | zero => intro map i r h; cases h
  | succ n ih =>
    intro map i r h
    have hle : uadd i 32 ≤ 0xFFFFFFFF := by
      have : uadd i 32 < U32 := Nat.mod_lt _ (by decide)
      simp only [U32] at this
      omega
    rw [range_words, if_pos hle] at h
    split at h
    · exact ih _ _ _ h
    · cases h

theorem range_bits_never_exits (op : List Nat → Nat → Outcome (List Nat)) (val fuel : Nat)
    (map : List Nat) (s : Nat) (r : List Nat) :
    range_bits op val fuel map s 0xFFFFFFFF ≠ Outcome.ok r := by
  intro h
  unfold range_bits at h
  obtain ⟨r1, _, h⟩ := Outcome.bind_fn_eq_ok h
  obtain ⟨r2, h2, _⟩ := Outcome.bind_fn_eq_ok h
  exact range_words_never_exits val fuel _ _ _ h2

theorem init_normal_short (fuel : Nat) (boot : BootEnv) (st : InitState) (sec : mmap_entry_t)
    (hs : sec.length_low < BLOCK_SIZE) (st1 : InitState) :
    init_normal fuel boot st sec ≠ Outcome.ok st1 := by
  intro h
  unfold init_normal at h
  obtain ⟨bm1, h1, _⟩ := Outcome.bind_eq_ok h
  have hb : sec.length_low / BLOCK_SIZE = 0 := Nat.div_eq_of_lt hs
  rw [hb] at h1
  exact range_bits_never_exits unset_bit 0 fuel _ 0 bm1 h1

/-- C20 fails for a usable record shorter than one block that takes the
Normal-zone branch.  For the memory map holding the single usable record of
2 KiB at 16 MiB, `init_pmm` returns for no amount of fuel: the record has
`freeBlocks = 0`, the branch calls `unset_bits(bitMap, 0, 0 - 1)`, and with
`offsetEnd = 0xFFFFFFFF` the loop test `i + 32 <= offsetEnd` of the word loop
holds for every `uint32_t` value of `i`, whatever the bitmap. -/
theorem C20_short_record_never_returns :
    (∀ (fuel : Nat) (final : PmmState),
      init_pmm fuel boot_low_kernel mbt_short_record ≠ Outcome.ok final) ∧
    usub (0x800 / BLOCK_SIZE) 1 = 0xFFFFFFFF ∧
    (∀ (fuel : Nat) (map : List Nat) (s : Nat) (r : List Nat),
      unset_bits fuel map s 0xFFFFFFFF ≠ Outcome.ok r) ∧
    (∀ (i : Nat), uadd i 32 ≤ 0xFFFFFFFF) := by
  refine ⟨?_, by decide, fun fuel map s r => range_bits_never_exits unset_bit 0 fuel map s r, ?_⟩
  · intro fuel final h
    obtain ⟨st, hst, hend, _⟩ := init_pmm_eq_ok h
    cases fuel with
    | zero =>
      cases hst
      exact hend (by decide)
    | succ k =>
      rw [init_iter, if_pos (by decide)] at hst
      obtain ⟨s1, hs1, _⟩ := Outcome.bind_fn_eq_ok hst
      have hstep : init_step (k + 1) boot_low_kernel (init_start mbt_short_record) =
          init_normal (k + 1) boot_low_kernel (init_start mbt_short_record)
            (usable_record 0x1000000 0x800) := by
        unfold init_step
        rfl
      rw [hstep] at hs1
      exact init_normal_short _ _ _ _ (by decide) s1 hs1
  · intro i
    have : uadd i 32 < U32 := Nat.mod_lt _ (by decide)
    simp only [U32] at this
    omega
/-! ## `reserve_kernel` -/

theorem reserve_pools_miss (resStart resEnd inner : Nat) :
    ∀ (fuel : Nat) (st : PmmState) (start : Option PoolPtr),
      chainEnds st fuel start = true →
      (∀ q p, q ∈ reachable st fuel start → getPool st q = some p →
        ¬ (p.start ≤ resStart ∧ resStart < uadd p.start (umul p.freeBlocks BLOCK_SIZE))) →
      reserve_pools resStart resEnd inner fuel st start = Outcome.ok st := by
  intro fuel
  induction fuel with
  | zero => intro st start h _; cases h
  | succ n ih =>
    intro st start hend hmiss
    cases start with
    | none => rfl
    | some ptr =>
      rw [chainEnds] at hend
      rw [reserve_pools]
      cases hp : getPool st ptr with
      | none => rw [hp] at hend; cases hend
      | some p =>
        rw [hp] at hend
        simp only []
        have hm : ptr ∈ reachable st (n + 1) (some ptr) := by
          rw [reachable]; exact List.mem_cons_self _ _
        rw [if_neg (hmiss ptr p hm hp)]
        apply ih _ _ hend
        intro q pq hq hgq
        apply hmiss q pq _ hgq
        rw [reachable, hp]
        exact List.mem_cons_of_mem _ hq

/-- C16. If the pool list of the Normal zone ends and no pool on it has a span
`[start, start + freeBlocks * BLOCK_SIZE)` containing
`resStart = kernel_start - VIRTUAL_KERNEL_OFFSET`, `reserve_kernel` returns and
the whole state (zones, pools, buddies, bitmap words) is what it was; pools of
the DMA zone are not looked at. -/
theorem C16_reserve_kernel_no_holder (fuel : Nat) (boot : BootEnv) (st : PmmState) (zn : zone)
    (hz : st.zone_normal = some zn)
    (hend : chainEnds st fuel zn.poolStart = true)
    (hmiss : ∀ q p, q ∈ reachable st fuel zn.poolStart → getPool st q = some p →
      ¬ holdsKernelStart boot p) :
    reserve_kernel fuel boot st = Outcome.ok st := by
  unfold reserve_kernel
  rw [hz]
  exact reserve_pools_miss _ _ _ fuel st zn.poolStart hend hmiss

/-- C16 for a kernel at 1 MiB that lies inside the DMA pool and outside the
only Normal pool. -/
theorem C16_reserve_kernel_no_holder_witness :
    holdsKernelStart boot_low_kernel (dma_pool_64 0x100000) ∧
    reserve_kernel 5 boot_low_kernel state_kernel_in_dma = Outcome.ok state_kernel_in_dma := by
  refine ⟨by decide, ?_⟩
  apply C16_reserve_kernel_no_holder 5 boot_low_kernel state_kernel_in_dma _ rfl (by decide)
  intro q p hq hp
  have hq1 : q = PoolPtr.normal 0 := by
    simpa [reachable, state_kernel_in_dma, getPool] using hq
  subst hq1
  cases hp
  decide
theorem reserve_pools_first (resStart resEnd inner : Nat) :
    ∀ (fuel : Nat) (st : PmmState) (start : Option PoolPtr) (i : Nat) (ptr : PoolPtr) (p : pool),
      (reachable st fuel start)[i]? = some ptr →
      (∀ j q pj, j < i → (reachable st fuel start)[j]? = some q → getPool st q = some pj →
        ¬ (pj.start ≤ resStart ∧ resStart < uadd pj.start (umul pj.freeBlocks BLOCK_SIZE))) →
      getPool st ptr = some p →
      (p.start ≤ resStart ∧ resStart < uadd p.start (umul p.freeBlocks BLOCK_SIZE)) →
      reserve_pools resStart resEnd inner fuel st start =
        reserve_pools resStart resEnd inner 1 st (some ptr) := by
  intro fuel
  induction fuel with
  | zero => intro st start i ptr p h _ _ _; simp [reachable] at h
  | succ n ih =>
    intro st start i ptr p hreach hfirst hget hhold
    cases start with
    | none => simp [reachable] at hreach
    | some p0 =>
      cases i with
      | zero =>
        rw [reachable] at hreach
        simp only [List.getElem?_cons_zero, Option.some.injEq] at hreach
        subst hreach
        rw [reserve_pools, reserve_pools, hget]
        simp only []
        rw [if_pos hhold, if_pos hhold]
      | succ k =>
        rw [reachable] at hreach hfirst
        simp only [List.getElem?_cons_succ] at hreach
        cases hp0 : getPool st p0 with
        | none => rw [hp0] at hreach; simp at hreach
        | some p1 =>
          rw [hp0] at hreach hfirst
          simp only [] at hreach hfirst
          have hmiss := hfirst 0 p0 p1 (Nat.succ_pos _) (by simp) hp0
          rw [reserve_pools, hp0]
          simp only []
          rw [if_neg hmiss]
          apply ih st p1.nextPool k ptr p hreach _ hget hhold
          intro j q pj hj hq hgq
          exact hfirst (j + 1) q pj (by omega) (by simpa using hq) hgq

/-- C15. Let `ptr` be the first pool on the list of the Normal zone whose span
contains `resStart = kernel_start - VIRTUAL_KERNEL_OFFSET`, `b` its top buddy
of order `k > 0`, and `s`, `e` the offsets of `resStart` and of
`resEnd = kernel_end + zone_DMA.zonePhysicalSize + zone_normal.zonePhysicalSize
- 1 - VIRTUAL_KERNEL_OFFSET` in units of `k * BLOCK_SIZE` from the start of the
pool, with `s <= e` and `e` inside the bitmap.  Then `reserve_kernel` returns
the state in which only that buddy of that pool differs: its bitmap has every
bit of `[s, e]` set and every other bit as before, and its `freeBlocks` is
lowered by `e - s + 1` (in `uint32_t` arithmetic; exactly, when it was at least
`e - s + 1`). -/
theorem C15_reserve_kernel_first_holder (fuel : Nat) (boot : BootEnv) (st : PmmState)
    (zn : zone) (i : Nat) (ptr : PoolPtr) (p : pool) (t : Nat) (b : buddy) (s e : Nat)
    (hz : st.zone_normal = some zn)
    (hreach : (reachable st fuel zn.poolStart)[i]? = some ptr)
    (hfirst : ∀ j q pj, j < i → (reachable st fuel zn.poolStart)[j]? = some q →
      getPool st q = some pj → ¬ holdsKernelStart boot pj)
    (hget : getPool st ptr = some p) (hhold : holdsKernelStart boot p)
    (htop : p.poolBuddiesTop = some t) (hb : p.region[t]? = some b)
    (hk : 0 < b.buddyOrder)
    (hs : s = usub (usub boot.kernel_start boot.VIRTUAL_KERNEL_OFFSET) p.start
      / (b.buddyOrder * BLOCK_SIZE))
    (he : e = usub (usub (usub (uadd (uadd boot.kernel_end st.zone_DMA.zonePhysicalSize)
      zn.zonePhysicalSize) 1) boot.VIRTUAL_KERNEL_OFFSET) p.start
      / (b.buddyOrder * BLOCK_SIZE))
    (hse : s ≤ e) (hin : e < 32 * b.bitMap.length) (he33 : e + 33 < U32)
    (hf : e + 2 ≤ fuel) :
    ∃ bm, reserve_kernel fuel boot st = Outcome.ok (setPool st ptr
        { p with
          region := p.region.set t
            { b with bitMap := bm, freeBlocks := usub b.freeBlocks (e - s + 1) } }) ∧
      bm.length = b.bitMap.length ∧
      (∀ j, bitOf bm j = if s ≤ j ∧ j ≤ e then true else bitOf b.bitMap j) ∧
      (e - s + 1 ≤ b.freeBlocks → b.freeBlocks < U32 →
        usub b.freeBlocks (e - s + 1) + (e - s + 1) = b.freeBlocks) := by
  obtain ⟨bm, hbm, hlen⟩ := set_bits_ok fuel b.bitMap s e (by omega) hin he33 hf
  obtain ⟨_, hbits, _⟩ := set_bits_spec fuel b.bitMap s e bm (by omega) he33 hbm
  refine ⟨bm, ?_, hlen, hbits, ?_⟩
  · unfold reserve_kernel
    rw [hz]
    simp only []
    rw [reserve_pools_first _ _ fuel fuel st zn.poolStart i ptr p hreach hfirst hget hhold,
      reserve_pools, hget]
    simp only []
    have hhold1 : p.start ≤ usub boot.kernel_start boot.VIRTUAL_KERNEL_OFFSET ∧
        usub boot.kernel_start boot.VIRTUAL_KERNEL_OFFSET
          < uadd p.start (umul p.freeBlocks BLOCK_SIZE) := hhold
    rw [if_pos hhold1, htop]
    simp only []
    rw [hb]
    simp only []
    have hne : ¬ b.buddyOrder * BLOCK_SIZE = 0 := by
      simp only [BLOCK_SIZE]; omega
    rw [if_neg hne, ← hs, ← he, hbm]
    have hd : uadd (usub e s) 1 = e - s + 1 := by
      simp only [uadd, usub, U32] at he33 ⊢; omega
    rw [hd]
    rfl
  · intro h1 h2
    simp only [usub, U32] at he33 h2 ⊢
    omega

/-- C15 for a kernel at 16 MiB + 4 KiB and two Normal pools, the second of
which (40 blocks at 16 MiB) holds it: bits 1 and 2 of its order-1 bitmap are
set and its `freeBlocks` goes from 40 to 38; the first pool is untouched. -/
theorem C15_reserve_kernel_first_holder_witness :
    ∃ bm, reserve_kernel 10 boot_high_kernel state_kernel_in_second =
        Outcome.ok (setPool state_kernel_in_second (.normal 1)
          { pool_forty with
            region := pool_forty.region.set 0
              { buddy_forty with bitMap := bm, freeBlocks := usub 40 (2 - 1 + 1) } }) ∧
      bm.length = 2 ∧
      (∀ j, bitOf bm j = if 1 ≤ j ∧ j ≤ 2 then true else bitOf [0, 0xFFFFFF00] j) ∧
      usub 40 (2 - 1 + 1) + (2 - 1 + 1) = 40 := by
  obtain ⟨bm, h1, h2, h3, h4⟩ := C15_reserve_kernel_first_holder 10 boot_high_kernel
    state_kernel_in_second
    { zoneType := 1, freeBlocks := 44, zonePhysicalSize := 123, poolStart := some (.normal 0) }
    1 (.normal 1) pool_forty 0 buddy_forty 1 2 rfl (by decide)
    (by
      intro j q pj hj hq hg
      have hj0 : j = 0 := by omega
      subst hj0
      have hq1 : PoolPtr.normal 0 = q := by
        simpa [reachable, state_kernel_in_second, getPool] using hq
      subst hq1
      cases hg
      decide)
    rfl (by decide) rfl rfl (by decide) (by decide) (by decide) (by decide) (by decide)
    (by decide) (by decide)
  exact ⟨bm, h1, h2, h3, h4 (by decide) (by decide)⟩

/-! ## `makeBuddies`: the ladder of four buddies -/

theorem memset_raw (boot : BootEnv) (wc b : Nat) (h : wc * 4 < U32) :
    memset (rawWords boot wc) b (umul wc 4) = Outcome.ok (List.replicate wc (b * 0x01010101)) := by
  have hu : umul wc 4 = wc * 4 := by
    simp only [umul, U32] at h ⊢; omega
  unfold memset
  rw [hu, if_pos ⟨by omega, by rw [rawWords_length]; omega⟩]
  have hd : wc * 4 / 4 = wc := by omega
  rw [hd, List.drop_eq_nil_of_le (by rw [rawWords_length]), List.append_nil]

theorem bitOf_replicate_zero (wc j : Nat) : bitOf (List.replicate wc 0) j = false := by
  unfold bitOf
  rw [List.getD_eq_getElem?_getD, List.getElem?_replicate]
  split <;> simp

theorem bitOf_replicate_ones (wc j : Nat) (hj : j < 32 * wc) :
    bitOf (List.replicate wc 0xFFFFFFFF) j = true := by
  unfold bitOf
  rw [List.getD_eq_getElem?_getD, List.getElem?_replicate, if_pos (by omega)]
  have e : (0xFFFFFFFF : Nat) = 2 ^ 32 - 1 := by decide
  simp only [Option.getD_some]
  rw [e, Nat.testBit_two_pow_sub_one]
  simp [Nat.mod_lt]

theorem CEIL_bound (x : Nat) (hx : x < U32) : CEIL x 32 * 4 < U32 ∧ x ≤ 32 * CEIL x 32 := by
  unfold CEIL
  simp only [U32] at hx ⊢
  split <;> omega

theorem ladder_bitmap_ok (boot : BootEnv) (maxFree free : Nat) (hm : maxFree < U32)
    (hf : free ≤ 1) (hle : free ≤ maxFree) :
    ∃ bm, (if maxFree = free then
          memset (rawWords boot (maxFree / 32 + if maxFree % 32 ≠ 0 then 1 else 0)) 0
            (umul (maxFree / 32 + if maxFree % 32 ≠ 0 then 1 else 0) 4)
        else do
          let m ← memset (rawWords boot (maxFree / 32 + if maxFree % 32 ≠ 0 then 1 else 0)) 255
            (umul (maxFree / 32 + if maxFree % 32 ≠ 0 then 1 else 0) 4)
          if free > 0 then unset_bit m (usub maxFree free) else Outcome.ok m) = Outcome.ok bm ∧
      LadderMap maxFree free bm := by
  obtain ⟨hc4, hc32⟩ := CEIL_bound maxFree hm
  have hce : (maxFree / 32 + if maxFree % 32 ≠ 0 then 1 else 0) = CEIL maxFree 32 := rfl
  rw [hce]
  by_cases heq : maxFree = free
  · rw [if_pos heq, memset_raw boot _ 0 hc4]
    refine ⟨_, rfl, List.length_replicate _ _, wordsOk_replicate _ _ (by decide), ?_, ?_⟩
    · intro _ j
      exact bitOf_replicate_zero _ j
    · intro hne
      exact absurd heq hne
  · rw [if_neg heq, memset_raw boot _ 255 hc4, Outcome.ok_bind]
    have hones : (255 * 0x01010101 : Nat) = 0xFFFFFFFF := by decide
    rw [hones]
    by_cases hpos : free > 0
    · rw [if_pos hpos]
      have hf1 : free = 1 := by omega
      have hus : usub maxFree free = maxFree - free := by
        simp only [usub, U32] at hm ⊢; omega
      rw [hus]
      have hin : (maxFree - free) / 32 < (List.replicate (CEIL maxFree 32) 0xFFFFFFFF).length := by
        rw [List.length_replicate]; omega
      obtain ⟨r, hr, _⟩ := unset_bit_ok _ _ hin
      obtain ⟨_, hlen, hbits, hwo⟩ := unset_bit_spec _ _ _ hr
      refine ⟨r, hr, ?_, hwo (wordsOk_replicate _ _ (by decide)), ?_, ?_⟩
      · rw [hlen, List.length_replicate]
      · intro h; exact absurd h heq
      · intro _ j hj
        rw [hbits j]
        by_cases hjm : j = maxFree - free
        · simp [hjm, hpos]
        · simp [hjm, bitOf_replicate_ones _ j hj]
    · rw [if_neg hpos]
      refine ⟨_, rfl, List.length_replicate _ _, wordsOk_replicate _ _ (by decide), ?_, ?_⟩
      · intro h; exact absurd h heq
      · intro _ j hj
        rw [bitOf_replicate_ones _ j hj]
        simp [hpos]
theorem makeBuddies_first (boot : BootEnv) (fuel i : Nat) (pl : pool) (cb : Option Nat)
    (hi : i > 0) (htop : pl.poolBuddiesTop = none) (hmax : pl.freeBlocks / i < U32) :
    makeBuddies_loop boot (fuel + 1) i pl none cb =
      makeBuddies_loop boot fuel (i / 2)
        { pl with
          poolPhysicalSize := uadd pl.poolPhysicalSize
            (uadd SIZEOF_BUDDY (umul (CEIL (pl.freeBlocks / i) 32) 4)),
          poolBuddiesTop := some pl.region.length,
          region := pl.region ++
            [{ buddyOrder := i, mapWordCount := CEIL (pl.freeBlocks / i) 32,
               freeBlocks := pl.freeBlocks / i, maxFreeBlocks := pl.freeBlocks / i,
               bitMap := List.replicate (CEIL (pl.freeBlocks / i) 32) 0,
               nextBuddy := none, prevBuddy := none }] }
        (some pl.region.length) (some pl.region.length) := by
  rw [makeBuddies_loop, if_pos hi]
  simp only [htop, Outcome.ok_bind, if_true]
  have hce : (pl.freeBlocks / i / 32 + if pl.freeBlocks / i % 32 ≠ 0 then 1 else 0)
      = CEIL (pl.freeBlocks / i) 32 := rfl
  rw [hce, memset_raw boot _ 0 (CEIL_bound _ hmax).1, Outcome.ok_bind]

theorem makeBuddies_step (boot : BootEnv) (fuel i : Nat) (pl : pool) (pb : Nat)
    (cb : Option Nat) (prev : buddy) (t0 : Nat) (hi : i > 0)
    (hprev : pl.region[pb]? = some prev) (htop : pl.poolBuddiesTop = some t0)
    (hmax : pl.freeBlocks / i < U32)
    (hf : usub (pl.freeBlocks / i) (umul prev.maxFreeBlocks 2) ≤ 1)
    (hle : usub (pl.freeBlocks / i) (umul prev.maxFreeBlocks 2) ≤ pl.freeBlocks / i) :
    ∃ bm, LadderMap (pl.freeBlocks / i) (usub (pl.freeBlocks / i) (umul prev.maxFreeBlocks 2)) bm ∧
      makeBuddies_loop boot (fuel + 1) i pl (some pb) cb =
        makeBuddies_loop boot fuel (i / 2)
          { pl with
            poolPhysicalSize := uadd pl.poolPhysicalSize
              (uadd SIZEOF_BUDDY (umul (CEIL (pl.freeBlocks / i) 32) 4)),
            region := pl.region.set pb { prev with nextBuddy := some pl.region.length } ++
              [{ buddyOrder := i, mapWordCount := CEIL (pl.freeBlocks / i) 32,
                 freeBlocks := usub (pl.freeBlocks / i) (umul prev.maxFreeBlocks 2),
                 maxFreeBlocks := pl.freeBlocks / i, bitMap := bm,
                 nextBuddy := none, prevBuddy := some pb }] }
          (some pl.region.length) (some pl.region.length) := by
  obtain ⟨bm, hbm, hL⟩ := ladder_bitmap_ok boot (pl.freeBlocks / i)
    (usub (pl.freeBlocks / i) (umul prev.maxFreeBlocks 2)) hmax hf hle
  refine ⟨bm, hL, ?_⟩
  rw [makeBuddies_loop, if_pos hi]
  simp only [hprev, htop, Outcome.ok_bind]
  rw [hbm, Outcome.ok_bind]
  rfl
theorem ladder_free (n k : Nat) :
    usub (n / k) (umul (n / (2 * k)) 2) = n / k - 2 * (n / (2 * k)) ∧
    2 * (n / (2 * k)) ≤ n / k ∧ n / k - 2 * (n / (2 * k)) ≤ 1 := by
  have h1 : n / (2 * k) = n / k / 2 := by
    rw [Nat.mul_comm, Nat.div_div_eq_div_mul]
  rw [h1]
  generalize n / k = q
  simp only [usub, umul, U32]
  omega

theorem makeBuddies_ladder (boot : BootEnv) (pl : pool) (hr : pl.region = [])
    (ht : pl.poolBuddiesTop = none) (hn : pl.freeBlocks < U32) :
    ∃ m4 m2 m1, makeBuddies boot pl = Outcome.ok (ladder_pool pl m4 m2 m1) ∧
      LadderMap (pl.freeBlocks / 4) (pl.freeBlocks / 4 - 2 * (pl.freeBlocks / 8)) m4 ∧
      LadderMap (pl.freeBlocks / 2) (pl.freeBlocks / 2 - 2 * (pl.freeBlocks / 4)) m2 ∧
      LadderMap (pl.freeBlocks / 1) (pl.freeBlocks / 1 - 2 * (pl.freeBlocks / 2)) m1 := by
  obtain ⟨n, start, pps, top, bottom, next, region⟩ := pl
  simp only at hr ht hn
  subst hr ht
  simp only []
  have hd : ∀ k, n / k < U32 := fun k => lt_of_le_of_lt (Nat.div_le_self _ _) hn
  obtain ⟨f4, g4, l4⟩ := ladder_free n 4
  obtain ⟨f2, g2, l2⟩ := ladder_free n 2
  obtain ⟨f1, g1, l1⟩ := ladder_free n 1
  simp only [Nat.reduceMul] at f4 g4 l4 f2 g2 l2 f1 g1 l1
  have e1 := makeBuddies_first boot 8 8
    { freeBlocks := n, start := start, poolPhysicalSize := pps, poolBuddiesTop := none,
      poolBuddiesBottom := bottom, nextPool := next, region := [] } none (by decide) rfl (hd 8)
  obtain ⟨m4, hL4, e2⟩ := makeBuddies_step boot 7 4
    { freeBlocks := n, start := start,
      poolPhysicalSize := uadd pps (uadd SIZEOF_BUDDY (umul (CEIL (n / 8) 32) 4)),
      poolBuddiesTop := some 0, poolBuddiesBottom := bottom, nextPool := next,
      region := [ladder_buddy 8 (n / 8) (n / 8) (List.replicate (CEIL (n / 8) 32) 0) none none] }
    0 (some 0)
    (ladder_buddy 8 (n / 8) (n / 8) (List.replicate (CEIL (n / 8) 32) 0) none none)
    0 (by decide) rfl rfl (hd 4)
    (by show usub (n / 4) (umul (n / 8) 2) ≤ 1; rw [f4]; exact l4)
    (by show usub (n / 4) (umul (n / 8) 2) ≤ n / 4; rw [f4]; omega)
  obtain ⟨m2, hL2, e3⟩ := makeBuddies_step boot 6 2
    { freeBlocks := n, start := start,
      poolPhysicalSize := uadd (uadd pps (uadd SIZEOF_BUDDY (umul (CEIL (n / 8) 32) 4)))
        (uadd SIZEOF_BUDDY (umul (CEIL (n / 4) 32) 4)),
      poolBuddiesTop := some 0, poolBuddiesBottom := bottom, nextPool := next,
      region :=
        [ladder_buddy 8 (n / 8) (n / 8) (List.replicate (CEIL (n / 8) 32) 0) (some 1) none,
         ladder_buddy 4 (n / 4) (usub (n / 4) (umul (n / 8) 2)) m4 none (some 0)] }
    1 (some 1) (ladder_buddy 4 (n / 4) (usub (n / 4) (umul (n / 8) 2)) m4 none (some 0))
    0 (by decide) rfl rfl (hd 2)
    (by show usub (n / 2) (umul (n / 4) 2) ≤ 1; rw [f2]; exact l2)
    (by show usub (n / 2) (umul (n / 4) 2) ≤ n / 2; rw [f2]; omega)
  obtain ⟨m1, hL1, e4⟩ := makeBuddies_step boot 5 1
    { freeBlocks := n, start := start,
      poolPhysicalSize := uadd (uadd (uadd pps (uadd SIZEOF_BUDDY (umul (CEIL (n / 8) 32) 4)))
        (uadd SIZEOF_BUDDY (umul (CEIL (n / 4) 32) 4)))
        (uadd SIZEOF_BUDDY (umul (CEIL (n / 2) 32) 4)),
      poolBuddiesTop := some 0, poolBuddiesBottom := bottom, nextPool := next,
      region :=
        [ladder_buddy 8 (n / 8) (n / 8) (List.replicate (CEIL (n / 8) 32) 0) (some 1) none,
         ladder_buddy 4 (n / 4) (usub (n / 4) (umul (n / 8) 2)) m4 (some 2) (some 0),
         ladder_buddy 2 (n / 2) (usub (n / 2) (umul (n / 4) 2)) m2 none (some 1)] }
    2 (some 2) (ladder_buddy 2 (n / 2) (usub (n / 2) (umul (n / 4) 2)) m2 none (some 1))
    0 (by decide) rfl rfl (hd 1)
    (by show usub (n / 1) (umul (n / 2) 2) ≤ 1; rw [f1]; exact l1)
    (by show usub (n / 1) (umul (n / 2) 2) ≤ n / 1; rw [f1]; omega)
  refine ⟨m4, m2, m1, ?_, ?_, ?_, ?_⟩
  · unfold makeBuddies
    have e5 : ∀ (p : pool) (pb cb : Option Nat),
        makeBuddies_loop boot (4 + 1) 0 p pb cb = Outcome.ok (p, cb) := by
      intro p pb cb
      rw [makeBuddies_loop, if_neg (by decide)]
    have chain := e1.trans (e2.trans (e3.trans (e4.trans (e5 _ _ _))))
    have chain2 : makeBuddies_loop boot (MAX_BLOCK_ORDER + 1) MAX_BLOCK_ORDER
        { freeBlocks := n, start := start, poolPhysicalSize := pps, poolBuddiesTop := none,
          poolBuddiesBottom := bottom, nextPool := next, region := [] } none none = _ := chain
    rw [chain2, Outcome.ok_bind]
    simp only [ladder_pool, ladder_buddy, Outcome.pure_eq_ok, f4, f2, f1]
    rfl
  · have h : LadderMap (n / 4) (usub (n / 4) (umul (n / 8) 2)) m4 := hL4
    rw [f4] at h
    exact h
  · have h : LadderMap (n / 2) (usub (n / 2) (umul (n / 4) 2)) m2 := hL2
    rw [f2] at h
    exact h
  · have h : LadderMap (n / 1) (usub (n / 1) (umul (n / 2) 2)) m1 := hL1
    rw [f1] at h
    exact h
/-- C12. For a pool of `n` blocks without buddies (as `init_pmm` hands it
over, `n` a `uint32_t`), `makeBuddies` returns the pool with exactly four
buddies of orders 8, 4, 2, 1, linked top to bottom, `poolBuddiesTop` the
order-8 one and `poolBuddiesBottom` the order-1 one; each has
`maxFreeBlocks = n / order`, `mapWordCount = CEIL(maxFreeBlocks, 32)` and
`freeBlocks <= maxFreeBlocks`; the top one has `freeBlocks = maxFreeBlocks`;
each lower one has `freeBlocks = maxFreeBlocks - 2 * parent.maxFreeBlocks`,
computed in `uint32_t` without wrapping, and this is 0 or 1. -/
theorem C12_makeBuddies_four_buddies (boot : BootEnv) (pl : pool) (hr : pl.region = [])
    (ht : pl.poolBuddiesTop = none) (hn : pl.freeBlocks < U32) :
    ∃ p1 b8 b4 b2 b1, makeBuddies boot pl = Outcome.ok p1 ∧ p1.region = [b8, b4, b2, b1] ∧
      p1.freeBlocks = pl.freeBlocks ∧ topBuddy p1 = some b8 ∧ bottomBuddy p1 = some b1 ∧
      b8.buddyOrder = 8 ∧ b4.buddyOrder = 4 ∧ b2.buddyOrder = 2 ∧ b1.buddyOrder = 1 ∧
      b8.prevBuddy = none ∧ b8.nextBuddy = some 1 ∧ b4.prevBuddy = some 0 ∧
      b4.nextBuddy = some 2 ∧ b2.prevBuddy = some 1 ∧ b2.nextBuddy = some 3 ∧
      b1.prevBuddy = some 2 ∧ b1.nextBuddy = none ∧
      (∀ b ∈ p1.region, b.maxFreeBlocks = pl.freeBlocks / b.buddyOrder ∧
        b.mapWordCount = CEIL b.maxFreeBlocks 32 ∧ b.freeBlocks ≤ b.maxFreeBlocks) ∧
      b8.freeBlocks = b8.maxFreeBlocks ∧
      (∀ pc ∈ [(b8, b4), (b4, b2), (b2, b1)],
        2 * pc.1.maxFreeBlocks ≤ pc.2.maxFreeBlocks ∧
        pc.2.freeBlocks = pc.2.maxFreeBlocks - 2 * pc.1.maxFreeBlocks ∧
        pc.2.freeBlocks = usub pc.2.maxFreeBlocks (umul pc.1.maxFreeBlocks 2) ∧
        pc.2.freeBlocks ≤ 1) := by
  obtain ⟨m4, m2, m1, hmk, _, _, _⟩ := makeBuddies_ladder boot pl hr ht hn
  obtain ⟨f4, g4, l4⟩ := ladder_free pl.freeBlocks 4
  obtain ⟨f2, g2, l2⟩ := ladder_free pl.freeBlocks 2
  obtain ⟨f1, g1, l1⟩ := ladder_free pl.freeBlocks 1
  simp only [Nat.reduceMul] at f4 g4 l4 f2 g2 l2 f1 g1 l1
  refine ⟨_, _, _, _, _, hmk, rfl, rfl, rfl, rfl, rfl, rfl, rfl, rfl, rfl, rfl, rfl, rfl, rfl, rfl,
    rfl, rfl, ?_, rfl, ?_⟩
  · intro b hb
    simp only [ladder_pool, List.mem_cons, List.mem_singleton, List.not_mem_nil, or_false] at hb
    rcases hb with rfl | rfl | rfl | rfl
    · exact ⟨rfl, rfl, le_refl _⟩
    · exact ⟨rfl, rfl, Nat.sub_le _ _⟩
    · exact ⟨rfl, rfl, Nat.sub_le _ _⟩
    · exact ⟨rfl, rfl, Nat.sub_le _ _⟩
  · intro pc hpc
    simp only [List.mem_cons, List.mem_singleton, List.not_mem_nil, or_false] at hpc
    rcases hpc with rfl | rfl | rfl
    · exact ⟨g4, rfl, f4.symm, l4⟩
    · exact ⟨g2, rfl, f2.symm, l2⟩
    · exact ⟨g1, rfl, f1.symm, l1⟩

set_option maxRecDepth 100000 in
/-- C12 for a fresh pool of 77 blocks: the four buddies have
`maxFreeBlocks` 9, 19, 38, 77 and `freeBlocks` 9, 1, 0, 1. -/
theorem C12_makeBuddies_four_buddies_witness :
    (makeBuddies boot_low_kernel (fresh_pool 0x100000 77)).returns (fun p1 =>
      p1.region.map (fun b => (b.buddyOrder, b.maxFreeBlocks, b.freeBlocks, b.mapWordCount))
        = [(8, 9, 9, 1), (4, 19, 1, 1), (2, 38, 0, 2), (1, 77, 1, 3)]) := by
  obtain ⟨p1, b8, b4, b2, b1, hmk, hreg, _, _, _, o8, o4, o2, o1, _, _, _, _, _, _, _, _, hall,
    h8, hpc⟩ := C12_makeBuddies_four_buddies boot_low_kernel (fresh_pool 0x100000 77) rfl rfl
      (by decide)
  rw [hmk]
  show p1.region.map _ = _
  rw [hreg]
  have a8 := hall b8 (by rw [hreg]; simp)
  have a4 := hall b4 (by rw [hreg]; simp)
  have a2 := hall b2 (by rw [hreg]; simp)
  have a1 := hall b1 (by rw [hreg]; simp)
  have c4 : b4.freeBlocks = b4.maxFreeBlocks - 2 * b8.maxFreeBlocks :=
    (hpc (b8, b4) (by simp)).2.1
  have c2 : b2.freeBlocks = b2.maxFreeBlocks - 2 * b4.maxFreeBlocks :=
    (hpc (b4, b2) (by simp)).2.1
  have c1 : b1.freeBlocks = b1.maxFreeBlocks - 2 * b2.maxFreeBlocks :=
    (hpc (b2, b1) (by simp)).2.1
  simp only [o8, o4, o2, o1, fresh_pool] at a8 a4 a2 a1
  simp only [List.map_cons, List.map_nil, o8, o4, o2, o1, a8.2.1, a4.2.1, a2.2.1, a1.2.1,
    h8, c4, c2, c1, a8.1, a4.1, a2.1, a1.1]
  decide
theorem countP_range_eq (c : Nat) :
    ∀ m, (List.range m).countP (fun j => decide (j = c)) = if c < m then 1 else 0 := by
  intro m
  induction m with
  | zero => simp
  | succ k ih =>
    rw [List.range_succ, List.countP_append, ih]
    by_cases h1 : c < k
    · have : ¬ k = c := by omega
      simp [h1, this, Nat.lt_succ_of_lt h1]
    · by_cases h2 : k = c
      · subst h2
        simp
      · have : ¬ c < k + 1 := by omega
        simp [h1, h2, this]

theorem clearValid_ladder (order maxFree free : Nat) (bm : List Nat) (next prev : Option Nat)
    (hL : LadderMap maxFree free bm) (hle : free ≤ maxFree) (h1 : free ≤ 1) :
    clearValid (ladder_buddy order maxFree free bm next prev) = free := by
  obtain ⟨_, _, hz, hnz⟩ := hL
  show (List.range maxFree).countP (fun i => !bitOf bm i) = free
  by_cases heq : maxFree = free
  · have hall := hz heq
    have : (List.range maxFree).countP (fun i => !bitOf bm i) = (List.range maxFree).length := by
      rw [List.countP_eq_length]
      intro a _
      simp [hall a]
    rw [this, List.length_range]
    exact heq
  · have hbits := hnz heq
    have hc32 : maxFree ≤ 32 * CEIL maxFree 32 := by
      unfold CEIL
      split <;> omega
    by_cases hpos : 0 < free
    · have : (List.range maxFree).countP (fun i => !bitOf bm i)
          = (List.range maxFree).countP (fun j => decide (j = maxFree - free)) := by
        apply List.countP_congr
        intro a ha
        rw [List.mem_range] at ha
        rw [hbits a (by omega)]
        simp [hpos]
      rw [this, countP_range_eq, if_pos (by omega)]
      omega
    · have : (List.range maxFree).countP (fun i => !bitOf bm i) = 0 := by
        rw [List.countP_eq_zero]
        intro a ha
        rw [List.mem_range] at ha
        rw [hbits a (by omega)]
        simp [hpos]
      rw [this]
      omega

/-- C13. For a pool of `n` blocks without buddies, immediately after
`makeBuddies` the sum over the four buddies of `order` times the number of
clear bits among the valid positions `0 .. maxFreeBlocks - 1` of the buddy's
bitmap is exactly `n`. -/
theorem C13_makeBuddies_free_total (boot : BootEnv) (pl : pool) (hr : pl.region = [])
    (ht : pl.poolBuddiesTop = none) (hn : pl.freeBlocks < U32) :
    ∃ p1, makeBuddies boot pl = Outcome.ok p1 ∧
      p1.region.map (fun b => b.buddyOrder) = [8, 4, 2, 1] ∧
      (p1.region.map (fun b => b.buddyOrder * clearValid b)).sum = pl.freeBlocks := by
  obtain ⟨m4, m2, m1, hmk, hL4, hL2, hL1⟩ := makeBuddies_ladder boot pl hr ht hn
  obtain ⟨_, g4, l4⟩ := ladder_free pl.freeBlocks 4
  obtain ⟨_, g2, l2⟩ := ladder_free pl.freeBlocks 2
  obtain ⟨_, g1, l1⟩ := ladder_free pl.freeBlocks 1
  simp only [Nat.reduceMul] at g4 l4 g2 l2 g1 l1
  refine ⟨_, hmk, rfl, ?_⟩
  have h8 : clearValid (ladder_buddy 8 (pl.freeBlocks / 8) (pl.freeBlocks / 8)
      (List.replicate (CEIL (pl.freeBlocks / 8) 32) 0) (some 1) none) = pl.freeBlocks / 8 := by
    show (List.range (pl.freeBlocks / 8)).countP
      (fun i => !bitOf (List.replicate (CEIL (pl.freeBlocks / 8) 32) 0) i) = pl.freeBlocks / 8
    have : (List.range (pl.freeBlocks / 8)).countP
        (fun i => !bitOf (List.replicate (CEIL (pl.freeBlocks / 8) 32) 0) i)
        = (List.range (pl.freeBlocks / 8)).length := by
      rw [List.countP_eq_length]
      intro a _
      simp [bitOf_replicate_zero]
    rw [this, List.length_range]
  have h4 := clearValid_ladder 4 _ _ m4 (some 2) (some 0) hL4 (Nat.sub_le _ _) l4
  have h2 := clearValid_ladder 2 _ _ m2 (some 3) (some 1) hL2 (Nat.sub_le _ _) l2
  have h1 := clearValid_ladder 1 _ _ m1 none (some 2) hL1 (Nat.sub_le _ _) l1
  show ([ladder_buddy 8 _ _ _ _ _, ladder_buddy 4 _ _ _ _ _, ladder_buddy 2 _ _ _ _ _,
    ladder_buddy 1 _ _ _ _ _].map (fun b => b.buddyOrder * clearValid b)).sum = pl.freeBlocks
  simp only [List.map_cons, List.map_nil, List.sum_cons, List.sum_nil, h8, h4, h2, h1]
  show 8 * (pl.freeBlocks / 8) + (4 * (pl.freeBlocks / 4 - 2 * (pl.freeBlocks / 8)) +
    (2 * (pl.freeBlocks / 2 - 2 * (pl.freeBlocks / 4)) +
    (1 * (pl.freeBlocks / 1 - 2 * (pl.freeBlocks / 2)) + 0))) = pl.freeBlocks
  omega

set_option maxRecDepth 100000 in
/-- C13 for a fresh pool of 77 blocks: 8 * 9 + 4 * 1 + 2 * 0 + 1 * 1 = 77. -/
theorem C13_makeBuddies_free_total_witness :
    (makeBuddies boot_low_kernel (fresh_pool 0x100000 77)).returns (fun p1 =>
      p1.region.map (fun b => (b.buddyOrder, clearValid b)) = [(8, 9), (4, 1), (2, 0), (1, 1)] ∧
      (p1.region.map (fun b => b.buddyOrder * clearValid b)).sum = 77) := by
  obtain ⟨p1, hmk, _, hsum⟩ := C13_makeBuddies_free_total boot_low_kernel
    (fresh_pool 0x100000 77) rfl rfl (by decide)
  have hev : (makeBuddies boot_low_kernel (fresh_pool 0x100000 77)).returns (fun p1 =>
      p1.region.map (fun b => (b.buddyOrder, clearValid b))
        = [(8, 9), (4, 1), (2, 0), (1, 1)]) := by decide!
  rw [hmk] at hev ⊢
  exact ⟨hev, hsum⟩
set_option maxRecDepth 100000 in
/-- C14 as stated fails for pools of fewer than 8 blocks.  For a pool of 4
blocks the order-4 buddy has `maxFreeBlocks = freeBlocks = 1`, so `makeBuddies`
clears its whole bitmap (`memset` with 0) below the top order: the bitmap is
`[0]`, with bit 1 clear, instead of all ones with the single clear bit 0. -/
theorem C14_counterexample :
    (makeBuddies boot_low_kernel (fresh_pool 0x100000 4)).returns (fun p =>
      p.region.map (fun b => (b.buddyOrder, b.maxFreeBlocks, b.freeBlocks, b.mapWordCount))
        = [(8, 0, 0, 0), (4, 1, 1, 1), (2, 2, 0, 1), (1, 4, 0, 1)]) ∧
    (makeBuddies boot_low_kernel (fresh_pool 0x100000 4)).returns (fun p =>
      p.region.map (fun b => b.bitMap) = [[], [0], [0xFFFFFFFF], [0xFFFFFFFF]]) ∧
    (makeBuddies boot_low_kernel (fresh_pool 0x100000 4)).returns (fun p =>
      (p.region[1]?).map (fun b => (bitOf b.bitMap 0, bitOf b.bitMap 1))
        = some (false, false)) := by
  decide!

/-- C14, amended.  For a pool of `n` blocks without buddies, `makeBuddies`
zeroes the whole bitmap of the top order (8); at a lower order (4, 2, 1) with
`freeBlocks != maxFreeBlocks` the bitmap has, over all `32 * mapWordCount`
bits, every bit set except bit `maxFreeBlocks - freeBlocks` when
`freeBlocks > 0` (no clear bit when `freeBlocks = 0`), and with
`freeBlocks = maxFreeBlocks` every bit clear; for `n >= 8` every lower order
has `freeBlocks != maxFreeBlocks`. -/
theorem C14_makeBuddies_bitmaps (boot : BootEnv) (pl : pool) (hr : pl.region = [])
    (ht : pl.poolBuddiesTop = none) (hn : pl.freeBlocks < U32) :
    ∃ p1 b8 b4 b2 b1, makeBuddies boot pl = Outcome.ok p1 ∧ p1.region = [b8, b4, b2, b1] ∧
      b8.bitMap = List.replicate b8.mapWordCount 0 ∧
      (∀ b ∈ [b4, b2, b1],
        (b.freeBlocks ≠ b.maxFreeBlocks → ∀ j, j < 32 * b.mapWordCount →
          bitOf b.bitMap j = !decide (0 < b.freeBlocks ∧ j = b.maxFreeBlocks - b.freeBlocks)) ∧
        (b.freeBlocks = b.maxFreeBlocks → ∀ j, bitOf b.bitMap j = false)) ∧
      (8 ≤ pl.freeBlocks → ∀ b ∈ [b4, b2, b1], b.freeBlocks ≠ b.maxFreeBlocks) := by
  obtain ⟨m4, m2, m1, hmk, hL4, hL2, hL1⟩ := makeBuddies_ladder boot pl hr ht hn
  refine ⟨_, _, _, _, _, hmk, rfl, rfl, ?_, ?_⟩
  · intro b hb
    simp only [List.mem_cons, List.mem_singleton, List.not_mem_nil, or_false] at hb
    rcases hb with rfl | rfl | rfl
    · exact ⟨fun h => hL4.2.2.2 (fun e => h e.symm), fun h => hL4.2.2.1 h.symm⟩
    · exact ⟨fun h => hL2.2.2.2 (fun e => h e.symm), fun h => hL2.2.2.1 h.symm⟩
    · exact ⟨fun h => hL1.2.2.2 (fun e => h e.symm), fun h => hL1.2.2.1 h.symm⟩
  · intro h8 b hb
    simp only [List.mem_cons, List.mem_singleton, List.not_mem_nil, or_false] at hb
    rcases hb with rfl | rfl | rfl
    · show pl.freeBlocks / 4 - 2 * (pl.freeBlocks / 8) ≠ pl.freeBlocks / 4
      omega
    · show pl.freeBlocks / 2 - 2 * (pl.freeBlocks / 4) ≠ pl.freeBlocks / 2
      omega
    · show pl.freeBlocks / 1 - 2 * (pl.freeBlocks / 2) ≠ pl.freeBlocks / 1
      omega

set_option maxRecDepth 100000 in
/-- C14 for a fresh pool of 77 blocks: the order-8 bitmap is zeroed; the
bitmaps of orders 4 and 1 are all ones except bits 18 and 76, the bitmap of
order 2 is all ones. -/
theorem C14_makeBuddies_bitmaps_witness :
    (makeBuddies boot_low_kernel (fresh_pool 0x100000 77)).returns (fun p1 =>
      p1.region.map (fun b => b.bitMap)
        = [[0], [0xFFFBFFFF], [0xFFFFFFFF, 0xFFFFFFFF], [0xFFFFFFFF, 0xFFFFFFFF, 0xFFFFEFFF]] ∧
      ∀ b ∈ p1.region.drop 1, b.freeBlocks ≠ b.maxFreeBlocks) := by
  obtain ⟨p1, b8, b4, b2, b1, hmk, hreg, _, _, hne⟩ := C14_makeBuddies_bitmaps boot_low_kernel
    (fresh_pool 0x100000 77) rfl rfl (by decide)
  have hev : (makeBuddies boot_low_kernel (fresh_pool 0x100000 77)).returns (fun p1 =>
      p1.region.map (fun b => b.bitMap)
        = [[0], [0xFFFBFFFF], [0xFFFFFFFF, 0xFFFFFFFF], [0xFFFFFFFF, 0xFFFFFFFF, 0xFFFFEFFF]]) := by
    decide!
  rw [hmk] at hev ⊢
  refine ⟨hev, ?_⟩
  rw [hreg]
  exact hne (by decide)

/-! ## One record cut into a DMA pool and a Normal pool: the loop -/

/-- The DMA branch on the first usable record, when the record is at least 64
bytes long and starts at least 64 bytes below the ceiling: a pool of 64 blocks
is cut from its start and the record is shrunk in place by 0x40000 bytes (in
`uint32_t` arithmetic). -/
theorem init_dma_split_first (boot : BootEnv) (st : InitState) (sec : mmap_entry_t)
    (hzd : st.pmm.zone_DMA =
      { zoneType := 0, freeBlocks := 0, zonePhysicalSize := SIZEOF_ZONE, poolStart := none })
    (hdr : st.pmm.dmaRegion = [])
    (hb : sec.base_low ≤ 0xFFFFC0) (hl : 64 ≤ sec.length_low) :
    ∃ d : pool,
      init_dma boot st sec = Outcome.ok
        { pmm :=
            { zone_DMA := { zoneType := 0, freeBlocks := 64,
                            zonePhysicalSize := uadd SIZEOF_ZONE d.poolPhysicalSize,
                            poolStart := some (.dma 0) },
              zone_normal := st.pmm.zone_normal, dmaRegion := [d],
              normalRegion := st.pmm.normalRegion },
          mmap := st.mmap.set st.sectionIdx
            { sec with base_low := sec.base_low + 0x40000,
                       length_low := usub sec.length_low 0x40000 },
          sectionIdx := st.sectionIdx, previousPool := some (.dma 0) } ∧
      d.start = sec.base_low ∧ d.freeBlocks = 64 ∧
      (topBuddy d).map (fun b => (b.buddyOrder, b.freeBlocks, b.maxFreeBlocks)) = some (8, 8, 8) ∧
      (∀ i, i < 8 → (topBuddy d).map (fun b => test_bit b.bitMap i) = some (Outcome.ok false)) := by
  obtain ⟨m4, m2, m1, hmk, _, _, _⟩ := makeBuddies_ladder boot
    { freeBlocks := 64, start := sec.base_low, poolPhysicalSize := SIZEOF_POOL,
      poolBuddiesTop := none, poolBuddiesBottom := none, nextPool := none, region := [] }
    rfl rfl (by show 64 < U32; decide)
  refine ⟨ladder_pool
    { freeBlocks := 64, start := sec.base_low, poolPhysicalSize := SIZEOF_POOL,
      poolBuddiesTop := none, poolBuddiesBottom := none, nextPool := none, region := [] }
    m4 m2 m1, ?_, rfl, rfl, ?_, ?_⟩
  · unfold init_dma
    rw [hzd]
    simp only []
    rw [Outcome.ok_bind]
    simp only []
    have h64 : usub DMA_TOTAL_BLOCKS 0 = 64 := by decide
    have hbytes : usub DMA_TOTAL_BYTES (umul 0 BLOCK_SIZE) = 0x40000 := by decide
    have h064 : uadd 0 64 = 64 := by decide
    have hA : ¬ (sec.length_low < 64 ∧
        usub (uadd sec.base_low sec.length_low) 1 ≤ DMA_MAX_ADDRESS) := by
      intro h
      have := h.1
      omega
    have hB : ¬ (uadd (usub DMA_MAX_ADDRESS sec.base_low) 1 < 64) := by
      simp only [uadd, usub, U32, DMA_MAX_ADDRESS]
      omega
    have hbase : uadd sec.base_low 0x40000 = sec.base_low + 0x40000 := by
      simp only [uadd, U32]; omega
    rw [h64, if_neg hA]
    simp only [if_neg hB, hbytes, h064, hbase, hdr]
    rw [hmk, Outcome.ok_bind]
    rfl
  · simp only [topBuddy, ladder_pool, ladder_buddy, List.getElem?_cons_zero, Option.map_some',
      Nat.reduceDiv]
  · intro i hi
    simp only [topBuddy, ladder_pool, ladder_buddy, List.getElem?_cons_zero, Option.map_some',
      Nat.reduceDiv]
    have hc : CEIL 8 32 = 1 := by decide
    rw [hc]
    have : i = 0 ∨ i = 1 ∨ i = 2 ∨ i = 3 ∨ i = 4 ∨ i = 5 ∨ i = 6 ∨ i = 7 := by omega
    rcases this with h | h | h | h | h | h | h | h <;> subst h <;> rfl

theorem init_iter_done (fuel : Nat) (boot : BootEnv) (k : Nat) (st : InitState)
    (h : ¬ st.sectionIdx < st.mmap.length) : init_iter fuel boot k st = Outcome.ok st := by
  cases k with
  | zero => rfl
  | succ n => rw [init_iter, if_neg h]

theorem init_iter_two (fuel : Nat) (boot : BootEnv) (k : Nat) (st0 st1 st2 : InitState)
    (h0 : st0.sectionIdx < st0.mmap.length) (hs1 : init_step fuel boot st0 = Outcome.ok st1)
    (h1 : st1.sectionIdx < st1.mmap.length) (hs2 : init_step fuel boot st1 = Outcome.ok st2)
    (h2 : ¬ st2.sectionIdx < st2.mmap.length) :
    init_iter fuel boot (k + 2) st0 = Outcome.ok st2 := by
  rw [init_iter, if_pos h0, hs1, Outcome.ok_bind_fn, init_iter, if_pos h1, hs2,
    Outcome.ok_bind_fn]
  exact init_iter_done fuel boot k st2 h2

theorem init_loop_of_iter (fuel : Nat) (boot : BootEnv) (st0 st2 : InitState)
    (h : init_iter fuel boot fuel st0 = Outcome.ok st2)
    (h2 : ¬ st2.sectionIdx < st2.mmap.length) :
    init_loop fuel boot st0 = Outcome.ok st2 := by
  unfold init_loop
  rw [h, Outcome.ok_bind, if_neg h2]
  rfl

/-- The walk of `reserve_kernel` when the Normal zone has a single pool:
whatever it does, the DMA pools and the `start` and `freeBlocks` of the Normal
pool stay; it returns when the pool does not hold the kernel start. -/
theorem reserve_kernel_single (fuel : Nat) (boot : BootEnv) (s : PmmState) (zn : zone)
    (p : pool) (hz : s.zone_normal = some zn) (hps : zn.poolStart = some (.normal 0))
    (hr : s.normalRegion = [p]) (hnx : p.nextPool = none) :
    (∀ final, reserve_kernel fuel boot s = Outcome.ok final →
      final.dmaRegion = s.dmaRegion ∧
      ∃ p1, final.normalRegion = [p1] ∧ p1.start = p.start ∧ p1.freeBlocks = p.freeBlocks) ∧
    (2 ≤ fuel → ¬ holdsKernelStart boot p → reserve_kernel fuel boot s = Outcome.ok s) := by
  have hg : getPool s (.normal 0) = some p := by
    show s.normalRegion[0]? = some p
    rw [hr]
    rfl
  constructor
  · intro final h
    unfold reserve_kernel at h
    rw [hz] at h
    simp only [hps] at h
    cases fuel with
    | zero => cases h
    | succ k =>
      rw [reserve_pools, hg] at h
      simp only [] at h
      split at h
      · split at h
        · cases h
        · split at h
          · cases h
          · split at h
            · cases h
            · obtain ⟨bm, _, h⟩ := Outcome.bind_eq_ok h
              cases h
              refine ⟨rfl, ?_⟩
              simp only [setPool, hr, List.set_cons_zero]
              exact ⟨_, rfl, rfl, rfl⟩
      · rw [hnx] at h
        cases k with
        | zero => cases h
        | succ j =>
          cases h
          exact ⟨rfl, p, hr, rfl, rfl⟩
  · intro hf hmiss
    unfold reserve_kernel
    rw [hz]
    simp only [hps]
    obtain ⟨k, rfl⟩ : ∃ k, fuel = k + 2 := ⟨fuel - 2, by omega⟩
    rw [reserve_pools, hg]
    simp only []
    have hmiss1 : ¬ (p.start ≤ usub boot.kernel_start boot.VIRTUAL_KERNEL_OFFSET ∧
        usub boot.kernel_start boot.VIRTUAL_KERNEL_OFFSET
          < uadd p.start (umul p.freeBlocks BLOCK_SIZE)) := hmiss
    rw [if_neg hmiss1, hnx]
    rfl

theorem init_two_steps (fuel : Nat) (boot : BootEnv) (flags : Nat) (sec : mmap_entry_t)
    (hh : sec.base_high = 0) (ht : sec.type = 1) (hb : sec.base_low ≤ 0xFFFFC0)
    (hl : 64 ≤ sec.length_low) (h1 : 1 ≤ usub sec.length_low 0x40000 / BLOCK_SIZE)
    (hf : usub sec.length_low 0x40000 / BLOCK_SIZE + 64 ≤ fuel) :
    ∃ st2 zn d p, init_iter fuel boot fuel (init_start { flags := flags, mmap := [sec] })
        = Outcome.ok st2 ∧
      ¬ st2.sectionIdx < st2.mmap.length ∧
      st2.pmm.dmaRegion = [d] ∧ d.start = sec.base_low ∧ d.freeBlocks = 64 ∧
      (topBuddy d).map (fun b => (b.buddyOrder, b.freeBlocks, b.maxFreeBlocks)) = some (8, 8, 8) ∧
      (∀ i, i < 8 → (topBuddy d).map (fun b => test_bit b.bitMap i) = some (Outcome.ok false)) ∧
      st2.pmm.zone_normal = some zn ∧ zn.poolStart = some (.normal 0) ∧
      st2.pmm.normalRegion = [p] ∧ p.nextPool = none ∧
      p.start = sec.base_low + 0x40000 ∧
      p.freeBlocks = usub sec.length_low 0x40000 / BLOCK_SIZE := by
  obtain ⟨d, hd, hds, hdf, hdt, hdb⟩ := init_dma_split_first boot
    (init_start { flags := flags, mmap := [sec] }) sec rfl rfl hb hl
  have hstep1 : init_step fuel boot (init_start { flags := flags, mmap := [sec] })
      = init_dma boot (init_start { flags := flags, mmap := [sec] }) sec := by
    unfold init_step
    have hget : (init_start { flags := flags, mmap := [sec] }).mmap[
        (init_start { flags := flags, mmap := [sec] }).sectionIdx]? = some sec := rfl
    rw [hget]
    simp only []
    rw [if_neg (by rw [hh, ht]; simp), if_neg (by
      intro h
      rcases h with h | h
      · simp only [DMA_MAX_ADDRESS] at h; omega
      · exact absurd (show (0 : Nat) ≥ 64 from h) (by decide))]
  rw [hd] at hstep1
  obtain ⟨bm, hn⟩ := init_normal_first fuel boot
    { pmm :=
        { zone_DMA := { zoneType := 0, freeBlocks := 64,
                        zonePhysicalSize := uadd SIZEOF_ZONE d.poolPhysicalSize,
                        poolStart := some (.dma 0) },
          zone_normal := none, dmaRegion := [d], normalRegion := [] },
      mmap := [{ sec with base_low := sec.base_low + 0x40000,
                          length_low := usub sec.length_low 0x40000 }],
      sectionIdx := 0, previousPool := some (.dma 0) }
    { sec with base_low := sec.base_low + 0x40000, length_low := usub sec.length_low 0x40000 }
    rfl h1 (Nat.mod_lt _ (by decide)) hf
  have hstep2 : init_step fuel boot
      { pmm :=
          { zone_DMA := { zoneType := 0, freeBlocks := 64,
                          zonePhysicalSize := uadd SIZEOF_ZONE d.poolPhysicalSize,
                          poolStart := some (.dma 0) },
            zone_normal := none, dmaRegion := [d], normalRegion := [] },
        mmap := [{ sec with base_low := sec.base_low + 0x40000,
                            length_low := usub sec.length_low 0x40000 }],
        sectionIdx := 0, previousPool := some (.dma 0) }
      = init_normal fuel boot
      { pmm :=
          { zone_DMA := { zoneType := 0, freeBlocks := 64,
                          zonePhysicalSize := uadd SIZEOF_ZONE d.poolPhysicalSize,
                          poolStart := some (.dma 0) },
            zone_normal := none, dmaRegion := [d], normalRegion := [] },
        mmap := [{ sec with base_low := sec.base_low + 0x40000,
                            length_low := usub sec.length_low 0x40000 }],
        sectionIdx := 0, previousPool := some (.dma 0) }
      { sec with base_low := sec.base_low + 0x40000, length_low := usub sec.length_low 0x40000 } := by
    unfold init_step
    simp only [List.getElem?_cons_zero]
    rw [if_neg (by rw [hh, ht]; simp), if_pos (Or.inr (by decide))]
  rw [hn] at hstep2
  obtain ⟨k, rfl⟩ : ∃ k, fuel = k + 2 := ⟨fuel - 2, by omega⟩
  have h01 : ¬ (0 + 1 < 1) := by decide
  exact ⟨_, _, d, _, init_iter_two (k + 2) boot k _ _ _ Nat.zero_lt_one hstep1 Nat.zero_lt_one
    hstep2 h01, h01, rfl, hds, hdf, hdt, hdb, rfl, rfl, rfl, rfl, rfl, rfl⟩

/-- C7. For a memory map of one usable record with `base_low <= 0xFFFFC0` and
`DMA_TOTAL_BYTES + BLOCK_SIZE <= length_low` (a `uint32_t`), the loop of
`init_pmm` ends with exactly one DMA pool (`start = base_low`, 64 blocks, top
buddy of order 8 with `freeBlocks = maxFreeBlocks = 8` and its 8 bits clear)
and exactly one Normal pool (`start = base_low + 0x40000`,
`(length_low - 0x40000) / BLOCK_SIZE` blocks), the two summing to
`length_low / BLOCK_SIZE` blocks; the same holds for the state `init_pmm`
returns, and `init_pmm` returns whenever the kernel start lies outside the
Normal pool. -/
theorem C7_one_record_split (fuel : Nat) (boot : BootEnv) (flags : Nat) (sec : mmap_entry_t)
    (hfl : flags &&& MBT_FLAG_IS_MMAP ≠ 0)
    (hh : sec.base_high = 0) (ht : sec.type = 1) (hb : sec.base_low ≤ 0xFFFFC0)
    (hl : DMA_TOTAL_BYTES + BLOCK_SIZE ≤ sec.length_low) (hu : sec.length_low < U32)
    (hf : sec.length_low / BLOCK_SIZE + 64 ≤ fuel) :
    (∃ st, init_loop fuel boot (init_start { flags := flags, mmap := [sec] }) = Outcome.ok st ∧
      split_post sec.base_low sec.length_low st.pmm) ∧
    (∀ final, init_pmm fuel boot { flags := flags, mmap := [sec] } = Outcome.ok final →
      split_post sec.base_low sec.length_low final) ∧
    (¬ (sec.base_low + 0x40000 ≤ usub boot.kernel_start boot.VIRTUAL_KERNEL_OFFSET ∧
        usub boot.kernel_start boot.VIRTUAL_KERNEL_OFFSET
          < uadd (sec.base_low + 0x40000)
              (umul ((sec.length_low - 0x40000) / BLOCK_SIZE) BLOCK_SIZE)) →
      ∃ final, init_pmm fuel boot { flags := flags, mmap := [sec] } = Outcome.ok final) := by
  have hl1 : 0x41000 ≤ sec.length_low := by
    simp only [DMA_TOTAL_BYTES, BLOCK_SIZE] at hl; omega
  have hlen : usub sec.length_low 0x40000 = sec.length_low - 0x40000 := by
    simp only [usub, U32] at hu ⊢; omega
  obtain ⟨st2, zn, d, p, hiter, hend, hdr, hds, hdf, hdt, hdb, hz, hps, hreg, hnx, hpst, hpf⟩ :=
    init_two_steps fuel boot flags sec hh ht hb (by omega)
      (by rw [hlen]; simp only [BLOCK_SIZE]; omega)
      (by rw [hlen]; simp only [BLOCK_SIZE] at hf ⊢; omega)
  rw [hlen] at hpf
  have hsp : split_post sec.base_low sec.length_low st2.pmm := by
    refine ⟨d, p, hdr, hreg, hds, hdf, hdt, hdb, hpst, hpf, ?_⟩
    rw [hdf, hpf]
    simp only [BLOCK_SIZE]
    omega
  have hloop := init_loop_of_iter fuel boot _ st2 hiter hend
  obtain ⟨hres, hret⟩ := reserve_kernel_single fuel boot st2.pmm zn p hz hps hreg hnx
  refine ⟨⟨st2, hloop, hsp⟩, ?_, ?_⟩
  · intro final h
    obtain ⟨st, hst, _, hr⟩ := init_pmm_eq_ok h
    rw [hiter] at hst
    cases hst
    obtain ⟨hdma, p1, hp1, hs1, hf1⟩ := hres final hr
    obtain ⟨d, n, hdr, hnr, a1, a2, a3, a4, a5, a6, a7⟩ := hsp
    rw [hreg] at hnr
    cases hnr
    exact ⟨d, p1, by rw [hdma, hdr], hp1, a1, a2, a3, a4, by rw [hs1, a5], by rw [hf1, a6],
      by rw [hf1]; exact a7⟩
  · intro hmiss
    have hfuel : 2 ≤ fuel := Nat.le_trans (by decide) (Nat.le_trans (Nat.le_add_left 64 _) hf)
    refine ⟨st2.pmm, ?_⟩
    unfold init_pmm
    rw [if_neg hfl, hloop, Outcome.ok_bind]
    apply hret hfuel
    intro hk
    apply hmiss
    unfold holdsKernelStart at hk
    rw [hpst, hpf] at hk
    exact hk

/-- C7 at the scenario of the specification: the record
`{base = 0x100000, length = 0x2000000, type = 1}` gives 64 + 8128 = 8192
blocks, and `init_pmm` returns (the kernel, at 1 MiB, lies in the DMA pool). -/
theorem C7_one_record_split_witness :
    (∃ st, init_loop 9000 boot_low_kernel (init_start mbt_scenario) = Outcome.ok st ∧
      split_post 0x100000 0x2000000 st.pmm) ∧
    (∃ final, init_pmm 9000 boot_low_kernel mbt_scenario = Outcome.ok final ∧
      split_post 0x100000 0x2000000 final) ∧
    (0x2000000 - 0x40000) / BLOCK_SIZE = 8128 ∧ 0x2000000 / BLOCK_SIZE = 8192 := by
  have h := C7_one_record_split 9000 boot_low_kernel 0x40 (usable_record 0x100000 0x2000000)
    (by decide) rfl rfl (by decide) (by decide) (by decide) (by decide)
  obtain ⟨final, hfin⟩ := h.2.2 (by decide)
  exact ⟨h.1, ⟨final, hfin, h.2.1 final hfin⟩, by decide, by decide⟩
/-- C3, the code at a failing input.  The memory map holds one usable record
of one block at 1 MiB (bytes `0x100000 .. 0x100FFF`).  `init_pmm` returns with
a DMA pool of 64 blocks at `0x100000` and a Normal pool of `0xFFFC1` blocks at
`0x140000`: the DMA pool claims the bytes up to `0x13FFFF`, the whole Normal
pool lies outside the record, and the length of the record was shrunk from
`0x1000` by `0x40000`, which wraps to `0xFFFC1000`. -/
theorem C3_one_block_record_overclaimed :
    ∃ final d p, init_pmm 1100000 boot_low_kernel mbt_one_block = Outcome.ok final ∧
      final.dmaRegion = [d] ∧ final.normalRegion = [p] ∧
      d.start = 0x100000 ∧ d.freeBlocks = 64 ∧
      p.start = 0x140000 ∧ p.freeBlocks = 0xFFFC1 ∧
      (usable_record 0x100000 0x1000).base_low + (usable_record 0x100000 0x1000).length_low
        < d.start + d.freeBlocks * BLOCK_SIZE ∧
      (usable_record 0x100000 0x1000).base_low + (usable_record 0x100000 0x1000).length_low
        ≤ p.start ∧
      usub (usable_record 0x100000 0x1000).length_low 0x40000 = 0xFFFC1000 := by
  obtain ⟨st2, zn, d, p, hiter, hend, hdr, hds, hdf, _, _, hz, hps, hreg, hnx, hpst, hpf⟩ :=
    init_two_steps 1100000 boot_low_kernel 0x40 (usable_record 0x100000 0x1000) rfl rfl
      (by decide) (by decide) (by decide) (by decide)
  have hloop : init_loop 1100000 boot_low_kernel (init_start mbt_one_block) = Outcome.ok st2 :=
    init_loop_of_iter 1100000 boot_low_kernel _ st2 hiter hend
  have hret := (reserve_kernel_single 1100000 boot_low_kernel st2.pmm zn p hz hps hreg hnx).2
    (by decide) (by
      intro hk
      have h1 := hk.1
      rw [hpst] at h1
      exact absurd h1 (by decide))
  have hpmm : init_pmm 1100000 boot_low_kernel mbt_one_block = Outcome.ok st2.pmm := by
    unfold init_pmm
    rw [if_neg (by decide), hloop, Outcome.ok_bind]
    exact hret
  refine ⟨st2.pmm, d, p, hpmm, hdr, hreg, hds, hdf, hpst, hpf, ?_, ?_, by decide⟩
  · rw [hds, hdf]
    decide
  · rw [hpst]
    decide
/-! ## Pools of the Normal zone and their top buddy -/

theorem setPool_next_tops (s : PmmState) (pp : PoolPtr) (q : pool) (x : Option PoolPtr)
    (hq : getPool s pp = some q) (h : normalTopsMatch s) :
    normalTopsMatch (setPool s pp { q with nextPool := x }) := by
  cases pp with
  | dma i => exact h
  | normal i =>
    intro p hp
    have hp1 : p ∈ s.normalRegion.set i { q with nextPool := x } := hp
    rcases List.mem_or_eq_of_mem_set hp1 with h1 | h1
    · exact h p h1
    · subst h1
      have hqm : q ∈ s.normalRegion := List.getElem?_mem hq
      exact h q hqm

theorem link_previous_tops {s s1 : PmmState} {pp : Option PoolPtr} {cur : PoolPtr}
    (h : link_previous s pp cur = Outcome.ok s1) (hi : normalTopsMatch s) :
    normalTopsMatch s1 := by
  unfold link_previous at h
  split at h
  · cases h
  · split at h
    · cases h
    · rename_i hq
      cases h
      exact setPool_next_tops _ _ _ _ hq hi

theorem init_normal_tops {fuel : Nat} {boot : BootEnv} {st st1 : InitState}
    {sec : mmap_entry_t} (h : init_normal fuel boot st sec = Outcome.ok st1)
    (hi : normalTopsMatch st.pmm) : normalTopsMatch st1.pmm := by
  unfold init_normal at h
  simp only [Outcome.pure_eq_ok] at h
  obtain ⟨bm1, _, h⟩ := Outcome.bind_eq_ok h
  obtain ⟨bm2, _, h⟩ := Outcome.bind_eq_ok h
  obtain ⟨s1, hs1, h⟩ := Outcome.bind_eq_ok h
  cases h
  have hs : normalTopsMatch s1 := by
    split at hs1
    · cases hs1; exact hi
    · exact link_previous_tops hs1 hi
  intro p hp
  have hp1 : p ∈ s1.normalRegion ++ [_] := hp
  rcases List.mem_append.mp hp1 with h1 | h1
  · exact hs p h1
  · rw [List.mem_singleton] at h1
    subst h1
    rfl

theorem init_dma_tops {boot : BootEnv} {st st1 : InitState} {sec : mmap_entry_t}
    (h : init_dma boot st sec = Outcome.ok st1) (hi : normalTopsMatch st.pmm) :
    normalTopsMatch st1.pmm := by
  unfold init_dma at h
  simp only [Outcome.pure_eq_ok] at h
  obtain ⟨s1, hs1, h⟩ := Outcome.bind_eq_ok h
  have hs : normalTopsMatch s1 := by
    split at hs1
    · cases hs1; exact hi
    · exact link_previous_tops hs1 hi
  split at h
  · obtain ⟨p1, _, h⟩ := Outcome.bind_eq_ok h
    cases h
    exact hs
  · obtain ⟨p1, _, h⟩ := Outcome.bind_eq_ok h
    cases h
    exact hs

theorem init_step_tops {fuel : Nat} {boot : BootEnv} {st st1 : InitState}
    (h : init_step fuel boot st = Outcome.ok st1) (hi : normalTopsMatch st.pmm) :
    normalTopsMatch st1.pmm := by
  unfold init_step at h
  split at h
  · cases h
  · split at h
    · cases h; exact hi
    · split at h
      · exact init_normal_tops h hi
      · exact init_dma_tops h hi

theorem init_iter_tops {fuel : Nat} {boot : BootEnv} :
    ∀ (k : Nat) (st st1 : InitState), init_iter fuel boot k st = Outcome.ok st1 →
      normalTopsMatch st.pmm → normalTopsMatch st1.pmm := by
  intro k
  induction k with
  | zero => intro st st1 h hi; simp [init_iter] at h; subst h; exact hi
  | succ n ih =>
    intro st st1 h hi
    rw [init_iter] at h
    split at h
    · obtain ⟨s, hs, h⟩ := Outcome.bind_fn_eq_ok h
      exact ih _ _ h (init_step_tops hs hi)
    · cases h; exact hi

theorem reserve_pools_tops (boot : BootEnv) (resEnd inner : Nat) :
    ∀ (fuel : Nat) (st st1 : PmmState) (ptr : Option PoolPtr),
      reserve_pools (usub boot.kernel_start boot.VIRTUAL_KERNEL_OFFSET) resEnd inner fuel st ptr
        = Outcome.ok st1 →
      normalTopsMatch st →
      ∀ p ∈ st1.normalRegion, ¬ holdsKernelStart boot p → topMatches p := by
  intro fuel
  induction fuel with
  | zero => intro st st1 ptr h; simp [reserve_pools] at h
  | succ n ih =>
    intro st st1 ptr h hi
    cases ptr with
    | none => simp [reserve_pools] at h; subst h; exact fun p hp _ => hi p hp
    | some pp =>
      rw [reserve_pools] at h
      split at h
      · cases h
      · rename_i q hq
        split at h
        · rename_i hhold
          split at h
          · cases h
          · split at h
            · cases h
            · split at h
              · cases h
              · obtain ⟨bm, _, h⟩ := Outcome.bind_eq_ok h
                cases h
                intro p hp hmiss
                cases pp with
                | dma i => exact hi p hp
                | normal i =>
                  have hp1 : p ∈ st.normalRegion.set i _ := hp
                  rcases List.mem_or_eq_of_mem_set hp1 with h1 | h1
                  · exact hi p h1
                  · subst h1
                    exact absurd hhold hmiss
        · exact ih _ _ _ h hi

set_option maxRecDepth 100000 in
/-- C21, the code at a failing input.  After `init_pmm` on one usable record
of 3 blocks at 16 MiB with the kernel reserved in blocks 1 and 2, the pool has
`freeBlocks = 3` and a bitmap of one word, `0xFFFFFFFE`, with all padding bits
set.  `pmm_alloc(8192)` meets the set bit 1, moves on to offset 2 and runs
`while (test_bit(bitMap, startIndex) == 1) startIndex++;` from there: every bit
from 2 to 31 is set, so the loop calls `test_bit(bitMap, 32)`, which reads word
1 of a bitmap of 1 word. -/
theorem C21_pmm_alloc_reads_past_bitmap :
    (init_pmm 300 boot_high_kernel mbt_three_blocks).returns (fun st =>
      st.normalRegion.map (fun p => (p.freeBlocks,
          (bottomBuddy p).map (fun b => (b.mapWordCount, b.maxFreeBlocks)))) = [(3, some (1, 3))] ∧
      st.normalRegion.map (fun p => (bottomBuddy p).map buddy.bitMap) = [some [0xFFFFFFFE]] ∧
      pmm_alloc 300 st 8192 = Outcome.fault) ∧
    alloc_run [0xFFFFFFFE] 0 2 3 300 0 false = Outcome.ok (1, true) ∧
    alloc_first_clear 300 [0xFFFFFFFE] 2 = Outcome.fault ∧
    (∀ i, i < 32 → 2 ≤ i → test_bit [0xFFFFFFFE] i = Outcome.ok true) ∧
    test_bit [0xFFFFFFFE] 32 = Outcome.fault := by
  refine ⟨?_, ?_, ?_, ?_, ?_⟩
  · decide!
  · decide!
  · decide!
  · decide
  · decide

/-! ## `makeBuddies`: the free bits partition the pool -/

theorem ladder_clear_bit (maxFree free : Nat) (m : List Nat) (hL : LadderMap maxFree free m)
    (h1 : free ≤ 1) (hle : free ≤ maxFree) (i : Nat) (hi : i < maxFree) :
    bitOf m i = false ↔ (free = 1 ∧ i + 1 = maxFree) := by
  obtain ⟨_, _, hz, hnz⟩ := hL
  by_cases heq : maxFree = free
  · rw [hz heq i]
    constructor
    · intro _; omega
    · intro _; rfl
  · have hc32 : maxFree ≤ 32 * CEIL maxFree 32 := by
      unfold CEIL
      split <;> omega
    rw [hnz heq i (by omega)]
    by_cases hp : 0 < free ∧ i = maxFree - free
    · simp only [hp, and_self, decide_True, Bool.not_true, true_iff]
      omega
    · simp only [hp, decide_False, Bool.not_false, Bool.true_eq_false, false_iff]
      omega

theorem freeRange_top (n i x : Nat) (next prev : Option Nat) :
    freeRange (ladder_buddy 8 (n / 8) (n / 8) (List.replicate (CEIL (n / 8) 32) 0) next prev) i x
      ↔ (i < n / 8 ∧ i * 8 ≤ x ∧ x < (i + 1) * 8) := by
  unfold freeRange
  simp only [ladder_buddy, bitOf_replicate_zero, true_and]

theorem freeRange_lower (k maxFree free : Nat) (m : List Nat) (next prev : Option Nat)
    (hL : LadderMap maxFree free m) (h1 : free ≤ 1) (hle : free ≤ maxFree) (i x : Nat) :
    freeRange (ladder_buddy k maxFree free m next prev) i x
      ↔ (free = 1 ∧ i + 1 = maxFree ∧ i * k ≤ x ∧ x < (i + 1) * k) := by
  unfold freeRange
  simp only [ladder_buddy]
  constructor
  · rintro ⟨hi, hb, hx⟩
    have := (ladder_clear_bit maxFree free m hL h1 hle i hi).mp hb
    exact ⟨this.1, this.2, hx⟩
  · rintro ⟨hf, hi, hx⟩
    have hi1 : i < maxFree := by omega
    exact ⟨hi1, (ladder_clear_bit maxFree free m hL h1 hle i hi1).mpr ⟨hf, hi⟩, hx⟩
/-- C22. For a pool of `n` blocks without buddies, immediately after
`makeBuddies` the clear bits at valid positions of the four bitmaps, each bit
`i` of the order-`k` bitmap read as the block range `[i * k, (i + 1) * k)`,
partition the pool: a block `x` lies in such a range exactly when `x < n`, and
no block lies in two of them. -/
theorem C22_makeBuddies_partition (boot : BootEnv) (pl : pool) (hr : pl.region = [])
    (ht : pl.poolBuddiesTop = none) (hn : pl.freeBlocks < U32) :
    ∃ p1, makeBuddies boot pl = Outcome.ok p1 ∧
      p1.region.map (fun b => b.buddyOrder) = [8, 4, 2, 1] ∧
      (∀ x, x < pl.freeBlocks ↔
        ∃ (j : Nat) (b : buddy) (i : Nat), p1.region[j]? = some b ∧ freeRange b i x) ∧
      (∀ (x j1 : Nat) (b1 : buddy) (i1 j2 : Nat) (b2 : buddy) (i2 : Nat),
        p1.region[j1]? = some b1 → freeRange b1 i1 x →
        p1.region[j2]? = some b2 → freeRange b2 i2 x → j1 = j2 ∧ i1 = i2) := by
  obtain ⟨m4, m2, m1, hmk, hL4, hL2, hL1⟩ := makeBuddies_ladder boot pl hr ht hn
  obtain ⟨_, g4, l4⟩ := ladder_free pl.freeBlocks 4
  obtain ⟨_, g2, l2⟩ := ladder_free pl.freeBlocks 2
  obtain ⟨_, g1, l1⟩ := ladder_free pl.freeBlocks 1
  simp only [Nat.reduceMul] at g4 l4 g2 l2 g1 l1
  have r8 := fun i x => freeRange_top pl.freeBlocks i x (some 1) none
  have r4 := fun i x => freeRange_lower 4 _ _ m4 (some 2) (some 0) hL4 l4 (Nat.sub_le _ _) i x
  have r2 := fun i x => freeRange_lower 2 _ _ m2 (some 3) (some 1) hL2 l2 (Nat.sub_le _ _) i x
  have r1 := fun i x => freeRange_lower 1 _ _ m1 none (some 2) hL1 l1 (Nat.sub_le _ _) i x
  have hcase : ∀ j b, (ladder_pool pl m4 m2 m1).region[j]? = some b →
      (j = 0 ∧ b = ladder_buddy 8 (pl.freeBlocks / 8) (pl.freeBlocks / 8)
          (List.replicate (CEIL (pl.freeBlocks / 8) 32) 0) (some 1) none) ∨
      (j = 1 ∧ b = ladder_buddy 4 (pl.freeBlocks / 4)
          (pl.freeBlocks / 4 - 2 * (pl.freeBlocks / 8)) m4 (some 2) (some 0)) ∨
      (j = 2 ∧ b = ladder_buddy 2 (pl.freeBlocks / 2)
          (pl.freeBlocks / 2 - 2 * (pl.freeBlocks / 4)) m2 (some 3) (some 1)) ∨
      (j = 3 ∧ b = ladder_buddy 1 (pl.freeBlocks / 1)
          (pl.freeBlocks / 1 - 2 * (pl.freeBlocks / 2)) m1 none (some 2)) := by
    intro j b hb
    simp only [ladder_pool] at hb
    match j, hb with
    | 0, hb => exact Or.inl ⟨rfl, (Option.some.inj hb).symm⟩
    | 1, hb => exact Or.inr (Or.inl ⟨rfl, (Option.some.inj hb).symm⟩)
    | 2, hb => exact Or.inr (Or.inr (Or.inl ⟨rfl, (Option.some.inj hb).symm⟩))
    | 3, hb => exact Or.inr (Or.inr (Or.inr ⟨rfl, (Option.some.inj hb).symm⟩))
    | k + 4, hb => simp at hb
  refine ⟨_, hmk, rfl, ?_, ?_⟩
  · intro x
    constructor
    · intro hx
      by_cases h8 : x < 8 * (pl.freeBlocks / 8)
      · exact ⟨0, _, x / 8, rfl, (r8 _ _).mpr (by omega)⟩
      · by_cases h4 : x < 4 * (pl.freeBlocks / 4)
        · exact ⟨1, _, pl.freeBlocks / 4 - 1, rfl, (r4 _ _).mpr (by omega)⟩
        · by_cases h2 : x < 2 * (pl.freeBlocks / 2)
          · exact ⟨2, _, pl.freeBlocks / 2 - 1, rfl, (r2 _ _).mpr (by omega)⟩
          · exact ⟨3, _, pl.freeBlocks / 1 - 1, rfl, (r1 _ _).mpr (by omega)⟩
    · rintro ⟨j, b, i, hb, hfr⟩
      rcases hcase j b hb with ⟨_, rfl⟩ | ⟨_, rfl⟩ | ⟨_, rfl⟩ | ⟨_, rfl⟩
      · have := (r8 _ _).mp hfr; omega
      · have := (r4 _ _).mp hfr; omega
      · have := (r2 _ _).mp hfr; omega
      · have := (r1 _ _).mp hfr; omega
  · intro x j1 b1 i1 j2 b2 i2 hb1 hf1 hb2 hf2
    rcases hcase j1 b1 hb1 with ⟨rfl, rfl⟩ | ⟨rfl, rfl⟩ | ⟨rfl, rfl⟩ | ⟨rfl, rfl⟩ <;>
    rcases hcase j2 b2 hb2 with ⟨rfl, rfl⟩ | ⟨rfl, rfl⟩ | ⟨rfl, rfl⟩ | ⟨rfl, rfl⟩
    all_goals
      first
      | (have a := (r8 _ _).mp hf1; have b := (r8 _ _).mp hf2; omega)
      | (have a := (r8 _ _).mp hf1; have b := (r4 _ _).mp hf2; omega)
      | (have a := (r8 _ _).mp hf1; have b := (r2 _ _).mp hf2; omega)
      | (have a := (r8 _ _).mp hf1; have b := (r1 _ _).mp hf2; omega)
      | (have a := (r4 _ _).mp hf1; have b := (r8 _ _).mp hf2; omega)
      | (have a := (r4 _ _).mp hf1; have b := (r4 _ _).mp hf2; omega)
      | (have a := (r4 _ _).mp hf1; have b := (r2 _ _).mp hf2; omega)
      | (have a := (r4 _ _).mp hf1; have b := (r1 _ _).mp hf2; omega)
      | (have a := (r2 _ _).mp hf1; have b := (r8 _ _).mp hf2; omega)
      | (have a := (r2 _ _).mp hf1; have b := (r4 _ _).mp hf2; omega)
      | (have a := (r2 _ _).mp hf1; have b := (r2 _ _).mp hf2; omega)
      | (have a := (r2 _ _).mp hf1; have b := (r1 _ _).mp hf2; omega)
      | (have a := (r1 _ _).mp hf1; have b := (r8 _ _).mp hf2; omega)
      | (have a := (r1 _ _).mp hf1; have b := (r4 _ _).mp hf2; omega)
      | (have a := (r1 _ _).mp hf1; have b := (r2 _ _).mp hf2; omega)
      | (have a := (r1 _ _).mp hf1; have b := (r1 _ _).mp hf2; omega)

set_option maxRecDepth 100000 in
/-- C22 for a fresh pool of 77 blocks: the free ranges are `[0, 72)` in eight
blocks of order 8, `[72, 76)` (bit 18 of order 4) and `[76, 77)` (bit 76 of
order 1). -/
theorem C22_makeBuddies_partition_witness :
    (makeBuddies boot_low_kernel (fresh_pool 0x100000 77)).returns (fun p1 =>
      (∀ x, x < 77 ↔
        ∃ (j : Nat) (b : buddy) (i : Nat), p1.region[j]? = some b ∧ freeRange b i x) ∧
      (∀ (x j1 : Nat) (b1 : buddy) (i1 j2 : Nat) (b2 : buddy) (i2 : Nat),
        p1.region[j1]? = some b1 → freeRange b1 i1 x →
        p1.region[j2]? = some b2 → freeRange b2 i2 x → j1 = j2 ∧ i1 = i2)) ∧
    (makeBuddies boot_low_kernel (fresh_pool 0x100000 77)).returns (fun p1 =>
      (p1.region[1]?).map (fun b => decide (freeRange b 18 75)) = some true ∧
      (p1.region[3]?).map (fun b => decide (freeRange b 76 76)) = some true) := by
  obtain ⟨p1, hmk, _, hcov, huniq⟩ := C22_makeBuddies_partition boot_low_kernel
    (fresh_pool 0x100000 77) rfl rfl (by decide)
  refine ⟨?_, by decide!⟩
  rw [hmk]
  exact ⟨hcov, huniq⟩

/-! ## Buddy counters against the bitmaps after `init_pmm` -/

theorem clearValid_all_clear (b : buddy) (hf : b.freeBlocks = b.maxFreeBlocks)
    (h : ∀ i, i < b.maxFreeBlocks → bitOf b.bitMap i = false) :
    b.freeBlocks = clearValid b := by
  unfold clearValid
  have : (List.range b.maxFreeBlocks).countP (fun i => !bitOf b.bitMap i)
      = (List.range b.maxFreeBlocks).length := by
    rw [List.countP_eq_length]
    intro a ha
    rw [List.mem_range] at ha
    simp [h a ha]
  rw [this, List.length_range, hf]

theorem countP_range_outside (s e : Nat) (hse : s ≤ e) :
    ∀ m, (List.range m).countP (fun i => decide (¬ (s ≤ i ∧ i ≤ e)))
      = if m ≤ s then m else if m ≤ e + 1 then s else m - (e + 1 - s) := by
  intro m
  induction m with
  | zero => simp
  | succ k ih =>
    rw [List.range_succ, List.countP_append, ih]
    simp only [List.countP_cons, List.countP_nil, Nat.zero_add]
    by_cases h1 : s ≤ k ∧ k ≤ e
    · simp only [h1, and_self, not_true_eq_false, decide_False, Bool.false_eq_true, if_false]
      split_ifs <;> omega
    · simp only [h1, not_false_eq_true, decide_True, if_true]
      split_ifs <;> omega

theorem clearValid_reserved (b : buddy) (bm : List Nat) (s e : Nat)
    (hfree : b.freeBlocks = b.maxFreeBlocks) (hmax : b.maxFreeBlocks + 33 < U32)
    (hclear : ∀ i, i < b.maxFreeBlocks → bitOf b.bitMap i = false)
    (hse : s ≤ e) (he : e < b.maxFreeBlocks)
    (hbits : ∀ j, bitOf bm j = if s ≤ j ∧ j ≤ e then true else bitOf b.bitMap j) :
    usub b.freeBlocks (uadd (usub e s) 1)
      = clearValid { b with bitMap := bm,
                            freeBlocks := usub b.freeBlocks (uadd (usub e s) 1) } := by
  show _ = (List.range b.maxFreeBlocks).countP (fun i => !bitOf bm i)
  have hc : (List.range b.maxFreeBlocks).countP (fun i => !bitOf bm i)
      = (List.range b.maxFreeBlocks).countP (fun i => decide (¬ (s ≤ i ∧ i ≤ e))) := by
    apply List.countP_congr
    intro a ha
    rw [List.mem_range] at ha
    rw [hbits a]
    by_cases h : s ≤ a ∧ a ≤ e
    · simp [h]
    · simp [h, hclear a ha]
  rw [hc, countP_range_outside s e hse, hfree]
  simp only [usub, uadd, U32] at hmax ⊢
  split_ifs <;> omega
theorem makeBuddies_fresh (boot : BootEnv) (pl p1 : pool) (hr : pl.region = [])
    (ht : pl.poolBuddiesTop = none) (hn : pl.freeBlocks < U32)
    (h : makeBuddies boot pl = Outcome.ok p1) : buddiesMatch p1 ∧ topAllFree p1 := by
  obtain ⟨m4, m2, m1, hmk, hL4, hL2, hL1⟩ := makeBuddies_ladder boot pl hr ht hn
  obtain ⟨_, _, l4⟩ := ladder_free pl.freeBlocks 4
  obtain ⟨_, _, l2⟩ := ladder_free pl.freeBlocks 2
  obtain ⟨_, _, l1⟩ := ladder_free pl.freeBlocks 1
  simp only [Nat.reduceMul] at l4 l2 l1
  rw [hmk] at h
  cases h
  have hz : ∀ i, i < pl.freeBlocks / 8 →
      bitOf (List.replicate (CEIL (pl.freeBlocks / 8) 32) 0) i = false :=
    fun i _ => bitOf_replicate_zero _ i
  constructor
  · intro b hb
    simp only [ladder_pool, List.mem_cons, List.mem_singleton, List.not_mem_nil, or_false] at hb
    rcases hb with rfl | rfl | rfl | rfl
    · exact clearValid_all_clear _ rfl hz
    · exact (clearValid_ladder 4 _ _ m4 _ _ hL4 (Nat.sub_le _ _) l4).symm
    · exact (clearValid_ladder 2 _ _ m2 _ _ hL2 (Nat.sub_le _ _) l2).symm
    · exact (clearValid_ladder 1 _ _ m1 _ _ hL1 (Nat.sub_le _ _) l1).symm
  · intro t b htop hb
    have ht0 : t = 0 := (Option.some.inj htop).symm
    subst ht0
    have hb8 : b = ladder_buddy 8 (pl.freeBlocks / 8) (pl.freeBlocks / 8)
        (List.replicate (CEIL (pl.freeBlocks / 8) 32) 0) (some 1) none :=
      (Option.some.inj hb).symm
    subst hb8
    refine ⟨rfl, ?_, hz⟩
    show pl.freeBlocks / 8 + 33 < U32
    simp only [U32] at hn ⊢
    omega

theorem setPool_next_fresh (s : PmmState) (pp : PoolPtr) (q : pool) (x : Option PoolPtr)
    (hq : getPool s pp = some q) (h : poolsFresh s) :
    poolsFresh (setPool s pp { q with nextPool := x }) := by
  intro p hp
  cases pp with
  | dma i =>
    have hp1 : p ∈ s.dmaRegion.set i { q with nextPool := x } ++ s.normalRegion := hp
    rcases List.mem_append.mp hp1 with h1 | h1
    · rcases List.mem_or_eq_of_mem_set h1 with h2 | h2
      · exact h p (List.mem_append_left _ h2)
      · subst h2
        exact h q (List.mem_append_left _ (List.getElem?_mem hq))
    · exact h p (List.mem_append_right _ h1)
  | normal i =>
    have hp1 : p ∈ s.dmaRegion ++ s.normalRegion.set i { q with nextPool := x } := hp
    rcases List.mem_append.mp hp1 with h1 | h1
    · exact h p (List.mem_append_left _ h1)
    · rcases List.mem_or_eq_of_mem_set h1 with h2 | h2
      · exact h p (List.mem_append_right _ h2)
      · subst h2
        exact h q (List.mem_append_right _ (List.getElem?_mem hq))

theorem link_previous_fresh {s s1 : PmmState} {pp : Option PoolPtr} {cur : PoolPtr}
    (h : link_previous s pp cur = Outcome.ok s1) (hi : poolsFresh s) : poolsFresh s1 := by
  unfold link_previous at h
  split at h
  · cases h
  · split at h
    · cases h
    · rename_i hq
      cases h
      exact setPool_next_fresh _ _ _ _ hq hi

theorem normal_bitmap_clear (fuel : Nat) (map bm1 bm2 : List Nat) (blocks : Nat)
    (hb : blocks < 1048576)
    (h1 : unset_bits fuel map 0 (usub blocks 1) = Outcome.ok bm1)
    (h2 : set_bits fuel bm1 blocks
      (usub (umul (blocks / 32 + (if blocks % 32 ≠ 0 then 1 else 0)) 32) 1) = Outcome.ok bm2) :
    ∀ i, i < blocks → bitOf bm2 i = false := by
  intro i hi
  obtain ⟨wc, hwc⟩ : ∃ wc, wc = blocks / 32 + (if blocks % 32 ≠ 0 then 1 else 0) := ⟨_, rfl⟩
  have hbw : blocks ≤ 32 * wc ∧ 32 * wc ≤ blocks + 31 := by
    rw [hwc]; split <;> omega
  rw [← hwc] at h2
  have e1 : usub blocks 1 = blocks - 1 := by simp only [usub, U32]; omega
  have e2 : usub (umul wc 32) 1 = 32 * wc - 1 := by simp only [usub, umul, U32]; omega
  rw [e1] at h1
  rw [e2] at h2
  obtain ⟨_, hb1, _⟩ := unset_bits_spec fuel map 0 (blocks - 1) bm1 (by decide)
    (by simp only [U32]; omega) h1
  obtain ⟨_, hb2, _⟩ := set_bits_spec fuel bm1 blocks (32 * wc - 1) bm2
    (by simp only [U32]; omega) (by simp only [U32]; omega) h2
  rw [hb2 i, if_neg (by omega), hb1 i, if_pos (by omega)]

theorem init_normal_fresh {fuel : Nat} {boot : BootEnv} {st st1 : InitState}
    {sec : mmap_entry_t} (h : init_normal fuel boot st sec = Outcome.ok st1)
    (hu : sec.length_low < U32) (hi : poolsFresh st.pmm) : poolsFresh st1.pmm := by
  have hblocks : sec.length_low / BLOCK_SIZE < 1048576 := by
    simp only [BLOCK_SIZE, U32] at hu ⊢; omega
  unfold init_normal at h
  simp only [Outcome.pure_eq_ok] at h
  obtain ⟨bm1, hbm1, h⟩ := Outcome.bind_eq_ok h
  obtain ⟨bm2, hbm2, h⟩ := Outcome.bind_eq_ok h
  obtain ⟨s1, hs1, h⟩ := Outcome.bind_eq_ok h
  cases h
  have hclear := normal_bitmap_clear fuel _ bm1 bm2 _ hblocks hbm1 hbm2
  have hs : poolsFresh s1 := by
    split at hs1
    · cases hs1; exact hi
    · exact link_previous_fresh hs1 hi
  intro p hp
  have hp1 : p ∈ s1.dmaRegion ++ (s1.normalRegion ++ [_]) := hp
  rcases List.mem_append.mp hp1 with h1 | h1
  · exact hs p (List.mem_append_left _ h1)
  · rcases List.mem_append.mp h1 with h2 | h2
    · exact hs p (List.mem_append_right _ h2)
    · rw [List.mem_singleton] at h2
      subst h2
      constructor
      · intro b hb
        rw [List.mem_singleton] at hb
        subst hb
        exact clearValid_all_clear _ rfl hclear
      · intro t b htop hb
        have ht0 : t = 0 := (Option.some.inj htop).symm
        subst ht0
        have hb1 := (Option.some.inj hb).symm
        subst hb1
        refine ⟨rfl, ?_, hclear⟩
        show sec.length_low / BLOCK_SIZE + 33 < U32
        simp only [U32]
        omega
theorem init_dma_fresh {boot : BootEnv} {st st1 : InitState} {sec : mmap_entry_t}
    (h : init_dma boot st sec = Outcome.ok st1) (hi : poolsFresh st.pmm)
    (hl : ∀ r ∈ st.mmap, r.length_low < U32) :
    poolsFresh st1.pmm ∧ ∀ r ∈ st1.mmap, r.length_low < U32 := by
  unfold init_dma at h
  simp only [Outcome.pure_eq_ok] at h
  obtain ⟨s1, hs1, h⟩ := Outcome.bind_eq_ok h
  have hs : poolsFresh s1 := by
    split at hs1
    · cases hs1; exact hi
    · exact link_previous_fresh hs1 hi
  have hadd : ∀ p1 : pool, (buddiesMatch p1 ∧ topAllFree p1) → ∀ zd : zone,
      poolsFresh { s1 with zone_DMA := zd, dmaRegion := s1.dmaRegion ++ [p1] } := by
    intro p1 hp1 zd p hp
    have hp2 : p ∈ (s1.dmaRegion ++ [p1]) ++ s1.normalRegion := hp
    rcases List.mem_append.mp hp2 with h1 | h1
    · rcases List.mem_append.mp h1 with h2 | h2
      · exact hs p (List.mem_append_left _ h2)
      · rw [List.mem_singleton] at h2
        subst h2
        exact hp1
    · exact hs p (List.mem_append_right _ h1)
  have hmod : ∀ a b : Nat, usub a b < U32 := fun a b => Nat.mod_lt _ (by decide)
  have hmoda : ∀ a b : Nat, uadd a b < U32 := fun a b => Nat.mod_lt _ (by decide)
  split at h
  · rename_i hc
    obtain ⟨p1, hp1, h⟩ := Outcome.bind_eq_ok h
    cases h
    refine ⟨hadd p1 (makeBuddies_fresh boot _ p1 rfl rfl ?_ hp1) _, hl⟩
    show sec.length_low / BLOCK_SIZE < U32
    exact lt_of_le_of_lt (Nat.div_le_self _ _) (lt_trans hc.1 (hmod _ _))
  · obtain ⟨p1, hp1, h⟩ := Outcome.bind_eq_ok h
    cases h
    refine ⟨hadd p1 (makeBuddies_fresh boot _ p1 rfl rfl ?_ hp1) _, ?_⟩
    · show (if uadd (usub DMA_MAX_ADDRESS sec.base_low) 1
            < usub DMA_TOTAL_BLOCKS s1.zone_DMA.freeBlocks
          then uadd (usub DMA_MAX_ADDRESS sec.base_low) 1 / BLOCK_SIZE
          else usub DMA_TOTAL_BLOCKS s1.zone_DMA.freeBlocks) < U32
      split
      · exact lt_of_le_of_lt (Nat.div_le_self _ _) (hmoda _ _)
      · exact hmod _ _
    · intro r hr
      rcases List.mem_or_eq_of_mem_set hr with h1 | h1
      · exact hl r h1
      · subst h1
        exact hmod _ _

theorem init_normal_mmap {fuel : Nat} {boot : BootEnv} {st st1 : InitState}
    {sec : mmap_entry_t} (h : init_normal fuel boot st sec = Outcome.ok st1) :
    st1.mmap = st.mmap := by
  unfold init_normal at h
  simp only [Outcome.pure_eq_ok] at h
  obtain ⟨bm1, _, h⟩ := Outcome.bind_eq_ok h
  obtain ⟨bm2, _, h⟩ := Outcome.bind_eq_ok h
  obtain ⟨s1, _, h⟩ := Outcome.bind_eq_ok h
  cases h
  rfl

theorem init_step_fresh {fuel : Nat} {boot : BootEnv} {st st1 : InitState}
    (h : init_step fuel boot st = Outcome.ok st1) (hi : poolsFresh st.pmm)
    (hl : ∀ r ∈ st.mmap, r.length_low < U32) :
    poolsFresh st1.pmm ∧ ∀ r ∈ st1.mmap, r.length_low < U32 := by
  unfold init_step at h
  split at h
  · cases h
  · rename_i sec hsec
    split at h
    · cases h; exact ⟨hi, hl⟩
    · split at h
      · refine ⟨init_normal_fresh h (hl sec (List.getElem?_mem hsec)) hi, ?_⟩
        rw [init_normal_mmap h]
        exact hl
      · exact init_dma_fresh h hi hl

theorem init_iter_fresh {fuel : Nat} {boot : BootEnv} :
    ∀ (k : Nat) (st st1 : InitState), init_iter fuel boot k st = Outcome.ok st1 →
      poolsFresh st.pmm → (∀ r ∈ st.mmap, r.length_low < U32) → poolsFresh st1.pmm := by
  intro k
  induction k with
  | zero => intro st st1 h hi _; simp [init_iter] at h; subst h; exact hi
  | succ n ih =>
    intro st st1 h hi hl
    rw [init_iter] at h
    split at h
    · obtain ⟨s, hs, h⟩ := Outcome.bind_fn_eq_ok h
      obtain ⟨h1, h2⟩ := init_step_fresh hs hi hl
      exact ih _ _ h h1 h2
    · cases h; exact hi
theorem mem_setPool (s : PmmState) (pp : PoolPtr) (v p : pool)
    (hp : p ∈ (setPool s pp v).dmaRegion ++ (setPool s pp v).normalRegion) :
    p = v ∨ p ∈ s.dmaRegion ++ s.normalRegion := by
  cases pp with
  | dma i =>
    have hp1 : p ∈ s.dmaRegion.set i v ++ s.normalRegion := hp
    rcases List.mem_append.mp hp1 with h1 | h1
    · rcases List.mem_or_eq_of_mem_set h1 with h2 | h2
      · exact Or.inr (List.mem_append_left _ h2)
      · exact Or.inl h2
    · exact Or.inr (List.mem_append_right _ h1)
  | normal i =>
    have hp1 : p ∈ s.dmaRegion ++ s.normalRegion.set i v := hp
    rcases List.mem_append.mp hp1 with h1 | h1
    · exact Or.inr (List.mem_append_left _ h1)
    · rcases List.mem_or_eq_of_mem_set h1 with h2 | h2
      · exact Or.inr (List.mem_append_right _ h2)
      · exact Or.inl h2

theorem mem_of_getPool (s : PmmState) (pp : PoolPtr) (q : pool) (hq : getPool s pp = some q) :
    q ∈ s.dmaRegion ++ s.normalRegion := by
  cases pp with
  | dma i => exact List.mem_append_left _ (List.getElem?_mem hq)
  | normal i => exact List.mem_append_right _ (List.getElem?_mem hq)

theorem reserve_pools_counts (boot : BootEnv) (resEnd inner : Nat) :
    ∀ (fuel : Nat) (st st1 : PmmState) (ptr : Option PoolPtr),
      reserve_pools (usub boot.kernel_start boot.VIRTUAL_KERNEL_OFFSET) resEnd inner fuel st ptr
        = Outcome.ok st1 →
      poolsFresh st → kernelFitsFrom boot resEnd st fuel ptr = true →
      ∀ p ∈ st1.dmaRegion ++ st1.normalRegion, buddiesMatch p := by
  intro fuel
  induction fuel with
  | zero => intro st st1 ptr h; simp [reserve_pools] at h
  | succ n ih =>
    intro st st1 ptr h hi hfit
    cases ptr with
    | none => simp [reserve_pools] at h; subst h; exact fun p hp => (hi p hp).1
    | some pp =>
      rw [reserve_pools] at h
      rw [kernelFitsFrom] at hfit
      split at h
      · cases h
      · rename_i q hq
        rw [hq] at hfit
        simp only [] at hfit
        split at h
        · rename_i hhold
          have hhold1 : holdsKernelStart boot q := hhold
          rw [if_pos hhold1] at hfit
          split at h
          · cases h
          · rename_i t htop
            split at h
            · cases h
            · rename_i b hb
              have htb : topBuddy q = some b := by
                unfold topBuddy
                rw [htop]
                exact hb
              rw [htb] at hfit
              simp only [decide_eq_true_eq] at hfit
              split at h
              · cases h
              · obtain ⟨bm, hbm, h⟩ := Outcome.bind_eq_ok h
                cases h
                obtain ⟨hqm, hqt⟩ := hi q (mem_of_getPool st pp q hq)
                obtain ⟨hfree, hmax, hclear⟩ := hqt t b htop hb
                obtain ⟨_, hbits, _⟩ := set_bits_spec inner b.bitMap _ _ bm
                  (by omega) (by omega) hbm
                intro p hp
                rcases mem_setPool st pp _ p hp with h1 | h1
                · subst h1
                  intro b1 hb1
                  have hb2 : b1 ∈ q.region.set t _ := hb1
                  rcases List.mem_or_eq_of_mem_set hb2 with h2 | h2
                  · exact hqm b1 h2
                  · subst h2
                    exact clearValid_reserved b bm _ _ hfree hmax hclear hfit.1 hfit.2 hbits
                · exact (hi p h1).1
        · rename_i hmiss
          have hmiss1 : ¬ holdsKernelStart boot q := hmiss
          rw [if_neg hmiss1] at hfit
          exact ih _ _ _ h hi hfit
/-- For a memory map on which the loop of `init_pmm` lays the zone headers
and the pools out without overlap, whose records have `uint32_t` lengths, and
a reserved kernel range that satisfies the proviso for the state the loop ends
in (its start lies in no pool of the Normal list, or the bit offsets `s <= e`
of its start and end in the top buddy of the first pool holding the start are
below that buddy's `maxFreeBlocks`): in the state `init_pmm` returns every
buddy of every pool of both zones has `freeBlocks` equal to the number of
clear bits among the positions `0 .. maxFreeBlocks - 1` of its bitmap.  (The
hypothesis `hap` confines the statement to the runs on which the two regions
of the model are the code's memory; the proof does not need it.) -/
theorem buddy_counts_match_bitmaps (fuel : Nat) (boot : BootEnv) (mbt : multiboot_info_t)
    (final : PmmState) (hap : laysOutApart fuel boot mbt)
    (hlen : ∀ r ∈ mbt.mmap, r.length_low < U32)
    (hfit : (init_loop fuel boot (init_start mbt)).returns
      (fun st => kernelFits boot fuel st.pmm = true))
    (h : init_pmm fuel boot mbt = Outcome.ok final) :
    ∀ p ∈ final.dmaRegion ++ final.normalRegion, ∀ b ∈ p.region,
      b.freeBlocks = clearValid b := by
  have _ := hap
  obtain ⟨st, hst, hend, hr⟩ := init_pmm_eq_ok h
  have h0 : poolsFresh (init_start mbt).pmm := by
    intro p hp
    cases hp
  have hfresh := init_iter_fresh _ _ _ hst h0 hlen
  rw [init_loop_of_iter fuel boot _ st hst hend] at hfit
  have hfit1 : kernelFits boot fuel st.pmm = true := hfit
  unfold kernelFits at hfit1
  unfold reserve_kernel at hr
  split at hr
  · cases hr
  · rename_i zn hz
    rw [hz] at hfit1
    exact reserve_pools_counts boot _ _ _ _ _ _ hr hfresh hfit1

set_option maxRecDepth 100000 in
/-- The buddy counters at two memory maps laid out without overlap: two
Normal pools with the kernel reserved in blocks 1 and 2 of the first
(4 blocks), and one record of 1 MiB at 1 MiB cut into a DMA pool and a Normal
pool, with the kernel in the DMA pool. -/
theorem buddy_counts_examples :
    (init_pmm 300 boot_high_kernel mbt_two_normal).returns (fun final =>
      ∀ p ∈ final.dmaRegion ++ final.normalRegion, ∀ b ∈ p.region,
        b.freeBlocks = clearValid b) ∧
    (init_pmm 300 boot_high_kernel mbt_two_normal).returns (fun final =>
      final.normalRegion.map (fun p => p.region.map (fun b => (b.freeBlocks, clearValid b)))
        = [[(2, 2)], [(64, 64)]]) ∧
    (init_pmm 300 boot_low_kernel mbt_one_mib).returns (fun final =>
      ∀ p ∈ final.dmaRegion ++ final.normalRegion, ∀ b ∈ p.region,
        b.freeBlocks = clearValid b) :=
  ⟨Outcome.returns_of_isOk (by decide!)
     (fun final h => buddy_counts_match_bitmaps 300 boot_high_kernel mbt_two_normal final
       (by decide!) (by decide) (by decide!) h),
   by decide!,
   Outcome.returns_of_isOk (by decide!)
     (fun final h => buddy_counts_match_bitmaps 300 boot_low_kernel mbt_one_mib final
       (by decide!) (by decide) (by decide!) h)⟩

/-! ## The DMA pool laid over the Normal zone -/

set_option maxRecDepth 100000 in
/-- C23, the code at a failing input.  For the memory map with 1 MiB at 16 MiB
first and 1 MiB at 1 MiB second, the first iteration of the loop of `init_pmm`
puts `zone_normal` at `zone_DMA + 13` and the first Normal pool (header, buddy
and 8 bitmap words: 81 bytes) at `zone_DMA + 26`; the second iteration puts the
DMA pool for the low record at `zone_DMA + 13` again, and `makeBuddies` fills
its 144 bytes: they cover the header of `zone_normal` and the whole first
Normal pool, whose buddy header and bitmap are thereby overwritten. -/
theorem C23_dma_pool_overlies_normal_zone :
    (layout_iter 300 boot_low_kernel 2 (init_start mbt_high_first) layout_start).returns
      (fun r =>
        r.2.zoneNormalAt = some 13 ∧
        r.2.pools = [{ ptr := .normal 0, offset := 26, size := 81 },
                     { ptr := .dma 0, offset := 13, size := 144 }] ∧
        ¬ layoutApart r.2) ∧
    (13 ≤ 13 ∧ 13 + SIZEOF_ZONE ≤ 13 + 144) ∧ (13 ≤ 26 ∧ 26 + 81 ≤ 13 + 144) ∧
    ¬ laysOutApart 300 boot_low_kernel mbt_high_first := by
  decide!

end PMM
